import Mathlib

set_option maxHeartbeats 1000000
set_option maxRecDepth 10000

namespace Graphlib2

/-!
Verification development for the graphlib2 incremental topological-sorting
engine.  The repository's Python layer (src/python/graphlib2) is a thin
wrapper delegating every operation to a compiled extension module that is not
part of the source tree; consequently the engine itself is modelled here from
the specification (spec.md), faithfully to its words, and the wrapper-level
pieces that do appear in the source (such as the default node-id factory) are
translated from the source.  Node identities are modelled as natural numbers;
the engine never inspects identities beyond equality, so this loses no
generality for the properties proved here.
-/

/-- Modelled from the spec: the lifecycle state of a node (spec section 3). -/
inductive NState
  | NEW
  | READY
  | PROCESSING
  | DONE
  | REMOVED
deriving DecidableEq, Repr

/-- Modelled from the spec: the driver stage (spec section 4.4).  FROZEN and
RUNNING are collapsed (the spec transitions atomically through FROZEN to
RUNNING inside prepare) and EXHAUSTED is the derived condition that
is_active is false. -/
inductive Stage
  | BUILDING
  | RUNNING
deriving DecidableEq, Repr

/-- Modelled from the spec: one node record of the dependency graph
(spec section 3): external identity, predecessor set (insertion order,
duplicate free), successor set (insertion order, duplicate free),
unresolved-predecessor count and lifecycle state. -/
structure Node where
  identity : Nat
  preds : List Nat
  succs : List Nat
  indegree : Nat
  state : NState
deriving DecidableEq, Repr

/-- Modelled from the spec: the whole engine state: the node arena indexed by
dense internal id, the ready queue (ids, in became-ready order) and the
driver stage.  The missing compiled TopologicalSorter engine is what this
models. -/
structure TopologicalSorter where
  nodes : List Node
  ready : List Nat
  stage : Stage
deriving DecidableEq, Repr

abbrev TS := TopologicalSorter

/-- Modelled from the spec: error kinds of spec section 7.  The cycle error
carries the discovered cycle as a sequence of node identities. -/
inductive Err
  | cycle (c : List Nat)
  | notBuilding
  | notPrepared
  | unknownIdentity
  | notProcessing
  | cannotRemove
deriving DecidableEq, Repr

/-- The fresh engine: no nodes, empty ready queue, BUILDING stage. -/
def TS.empty : TS := ⟨[], [], .BUILDING⟩

/-- Identity stored at internal id i (0 when out of range). -/
def identityOf (s : TS) (i : Nat) : Nat :=
  match s.nodes[i]? with
  | some nd => nd.identity
  | none => 0

/-- Lifecycle state at internal id i (REMOVED when out of range). -/
def stateOf (s : TS) (i : Nat) : NState :=
  match s.nodes[i]? with
  | some nd => nd.state
  | none => .REMOVED

/-- Indegree at internal id i (0 when out of range). -/
def indegOf (s : TS) (i : Nat) : Nat :=
  match s.nodes[i]? with
  | some nd => nd.indegree
  | none => 0

/-- Successor list at internal id i. -/
def succsOf (s : TS) (i : Nat) : List Nat :=
  match s.nodes[i]? with
  | some nd => nd.succs
  | none => []

/-- Predecessor list at internal id i. -/
def predsOf (s : TS) (i : Nat) : List Nat :=
  match s.nodes[i]? with
  | some nd => nd.preds
  | none => []

/-- A node is live when it exists and is not REMOVED (spec section 3:
a REMOVED endpoint converts an edge to a no-op). -/
def liveAt (s : TS) (i : Nat) : Bool :=
  match s.nodes[i]? with
  | some nd => decide (nd.state ≠ .REMOVED)
  | none => false

/-- Modelled from the spec: registry lookup (spec section 4.1), identity to
internal id; ids are positions in the arena, in first-seen order. -/
def findId : List Node → Nat → Option Nat
  | [], _ => none
  | nd :: rest, x =>
    if nd.identity = x then some 0 else (findId rest x).map (· + 1)

/-- Replace the node at index i by f applied to it (no-op out of range). -/
def modifyNode (ns : List Node) (i : Nat) (f : Node → Node) : List Node :=
  match ns[i]? with
  | some nd => ns.set i (f nd)
  | none => ns

/-- Modelled from the spec: intern (spec section 4.1): return the existing id
of an already-seen identity, or append a fresh NEW node and return its
(dense, first-seen order) id. -/
def intern (s : TS) (x : Nat) : TS × Nat :=
  match findId s.nodes x with
  | some i => (s, i)
  | none =>
    ({ s with nodes := s.nodes ++ [⟨x, [], [], 0, .NEW⟩] }, s.nodes.length)

/-- The update of the successor node when an edge is recorded: the new
predecessor joins the predecessor set and, when it still counts (spec
section 3: a DONE or REMOVED predecessor is not counted), the indegree
rises by one. -/
def addPredUpd (s : TS) (pid : Nat) (m : Node) : Node :=
  { m with preds := m.preds ++ [pid],
           indegree := if stateOf s pid ≠ .DONE ∧ stateOf s pid ≠ .REMOVED then m.indegree + 1 else m.indegree }

/-- Modelled from the spec: record one edge pid to nid (spec section 4.2):
if pid is not already a predecessor of nid, add it to nid's predecessor set,
increment nid's indegree when the predecessor still counts, and append nid
to pid's successor list. -/
def addEdge (s : TS) (nid pid : Nat) : TS :=
  if pid ∈ predsOf s nid then s
  else { s with nodes := modifyNode (modifyNode s.nodes nid (addPredUpd s pid)) pid (fun m => { m with succs := m.succs ++ [nid] }) }

/-- Modelled from the spec: add (spec section 4.2): fails with a usage error
when the graph is frozen; otherwise interns the node and each predecessor and
records each new edge. -/
def add (s : TS) (x : Nat) (ps : List Nat) : TS × Option Err :=
  if s.stage = .BUILDING then
    let (s1, nid) := intern s x
    (ps.foldl (fun acc p =>
      let (t, pid) := intern acc p
      addEdge t nid pid) s1, none)
  else (s, some .notBuilding)

/-- Modelled from the spec: propagate one indegree decrement to successor j
(spec section 4.4): while RUNNING, a NEW successor whose indegree hits zero
becomes READY and is appended to the ready queue at that moment; in every
other case only the count drops (a REMOVED successor's edge is a no-op for
promotion but its count is kept consistent). -/
def decSucc (s : TS) (j : Nat) : TS :=
  match s.nodes[j]? with
  | none => s
  | some nd =>
    if s.stage = .RUNNING ∧ nd.state = .NEW ∧ nd.indegree = 1 then
      { s with nodes := s.nodes.set j { nd with indegree := 0, state := .READY },
               ready := s.ready ++ [j] }
    else
      { s with nodes := s.nodes.set j { nd with indegree := nd.indegree - 1 } }

/-- Modelled from the spec: transition node i to DONE and decrement every
successor's indegree, promoting newly unblocked successors (spec
section 4.4). -/
def markDone (s : TS) (i : Nat) : TS :=
  match s.nodes[i]? with
  | none => s
  | some nd =>
    (nd.succs).foldl decSucc { s with nodes := s.nodes.set i { nd with state := .DONE } }

/-- Modelled from the spec: transition node i to REMOVED, pull it out of the
ready queue, and decrement every successor's indegree exactly as done would
(spec section 4.4 remove). -/
def markRemoved (s : TS) (i : Nat) : TS :=
  match s.nodes[i]? with
  | none => s
  | some nd =>
    (nd.succs).foldl decSucc
      { s with nodes := s.nodes.set i { nd with state := .REMOVED },
               ready := s.ready.filter (fun k => decide (k ≠ i)) }

/-- Resolve a list of identities to internal ids; none when any identity was
never registered (spec section 7, unknown-identity error). -/
def resolveAll (s : TS) : List Nat → Option (List Nat)
  | [] => some []
  | x :: rest =>
    match findId s.nodes x, resolveAll s rest with
    | some i, some is => some (i :: is)
    | _, _ => none

/-- Modelled from the spec: done (spec section 4.4): fails before prepare,
on an unknown identity, or when any given node is not currently PROCESSING
(a duplicate argument is a double-done and also fails); on success each node
becomes DONE in argument order, propagating indegree decrements.  Per spec
section 7 the operation fully applies or fully fails. -/
def done (s : TS) (xs : List Nat) : TS × Option Err :=
  if s.stage = .RUNNING then
    match resolveAll s xs with
    | none => (s, some .unknownIdentity)
    | some ids =>
      if ids.Nodup ∧ ∀ i ∈ ids, stateOf s i = .PROCESSING then
        (ids.foldl markDone s, none)
      else (s, some .notProcessing)
  else (s, some .notPrepared)

/-- Modelled from the spec: remove (spec section 4.4): a node may be removed
while NEW or READY, in either stage (spec section 8 scenario 4 removes before
prepare); removal fails on an unknown identity or when any given node is
PROCESSING, DONE or already REMOVED.  Fully applies or fully fails. -/
def remove_nodes (s : TS) (xs : List Nat) : TS × Option Err :=
  match resolveAll s xs with
  | none => (s, some .unknownIdentity)
  | some ids =>
    if ids.Nodup ∧ ∀ i ∈ ids, (stateOf s i = .NEW ∨ stateOf s i = .READY) then
      (ids.foldl markRemoved s, none)
    else (s, some .cannotRemove)

/-- Transition every node of the ready queue to PROCESSING. -/
def processReady (s : TS) : List Node :=
  s.ready.foldl
    (fun acc i => modifyNode acc i (fun nd => { nd with state := .PROCESSING })) s.nodes

/-- Modelled from the spec: get_ready (spec section 4.4): fails before
prepare; otherwise returns the identities of the whole current ready queue in
queue order, empties the queue, and transitions each returned node to
PROCESSING. -/
def get_ready (s : TS) : List Nat × TS × Option Err :=
  if s.stage = .RUNNING then
    (s.ready.map (identityOf s), { s with nodes := processReady s, ready := [] }, none)
  else ([], s, some .notPrepared)

/-- Modelled from the spec: is_active (spec section 4.4): true while any node
has not reached a terminal (DONE or REMOVED) state. -/
def is_active (s : TS) : Bool :=
  s.nodes.any (fun nd => decide (nd.state ≠ .DONE) && decide (nd.state ≠ .REMOVED))

/-- Modelled from the spec: the state of the depth-first cycle detector
(spec section 4.3): the grey stack (deepest node first, paired with its
remaining successors), the black nodes in finish order, and the roots still
to be tried (ascending id). -/
structure DfsState where
  stack : List (Nat × List Nat)
  black : List Nat
  roots : List Nat
deriving DecidableEq, Repr

/-- The grey (in-progress) nodes, stack top first. -/
def greys (d : DfsState) : List Nat := d.stack.map Prod.fst

/-- Prefix of a list up to and including the first occurrence of u. -/
def takeTo (u : Nat) : List Nat → List Nat
  | [] => []
  | x :: xs => if x = u then [u] else x :: takeTo u xs

/-- Modelled from the spec: one step of the cycle detector's DFS
(spec section 4.3): roots are tried in ascending id order, successors in
insertion order; an edge back into a grey node reports the cycle as the
sequence from that node forward through the grey stack back to itself,
closed by repeating the first node. -/
def dfsStep (g : TS) (d : DfsState) : Sum DfsState (Option (List Nat)) :=
  match d.stack with
  | [] =>
    match d.roots with
    | [] => .inr none
    | r :: rs =>
      if liveAt g r ∧ r ∉ d.black then .inl ⟨[(r, succsOf g r)], d.black, rs⟩
      else .inl ⟨[], d.black, rs⟩
  | (v, us) :: rest =>
    match us with
    | [] => .inl ⟨rest, d.black ++ [v], d.roots⟩
    | u :: us2 =>
      if liveAt g u ∧ u ∉ d.black then
        if u ∈ greys d then .inr (some ((takeTo u (greys d)).reverse ++ [u]))
        else .inl ⟨(u, succsOf g u) :: (v, us2) :: rest, d.black, d.roots⟩
      else .inl ⟨(v, us2) :: rest, d.black, d.roots⟩

/-- Termination weight of one white node: entering it costs the stack entry
plus one unit per successor edge. -/
def nodeWeight (g : TS) (v : Nat) : Nat := 2 + (succsOf g v).length

/-- The white nodes: live, not black, not grey. -/
def whiteList (g : TS) (d : DfsState) : List Nat :=
  (List.range g.nodes.length).filter
    (fun v => liveAt g v && decide (v ∉ d.black) && decide (v ∉ greys d))

/-- Total weight of a list of nodes. -/
def weightSum (g : TS) (l : List Nat) : Nat := (l.map (nodeWeight g)).sum

/-- Strictly decreasing measure of the DFS: untried roots, pending stack
work, and the weight of the white nodes. -/
def dfsMeasure (g : TS) (d : DfsState) : Nat :=
  d.roots.length + (d.stack.map (fun p => 1 + p.2.length)).sum
    + weightSum g (whiteList g d)

/-- Run the DFS for at most the given number of steps; none on fuel
exhaustion (shown impossible from sufficient fuel). -/
def dfsRun (g : TS) : Nat → DfsState → Option (Option (List Nat))
  | 0, _ => none
  | fuel+1, d =>
    match dfsStep g d with
    | .inr out => some out
    | .inl d2 => dfsRun g fuel d2

/-- The initial DFS state: empty stack, no black nodes, all ids as roots in
ascending order. -/
def dfsInit (g : TS) : DfsState := ⟨[], [], List.range g.nodes.length⟩

/-- Modelled from the spec: the one-shot cycle detection pass run by prepare
(spec section 4.3); some cycle (as internal ids, first node repeated at the
end) or none when the live graph is acyclic. -/
def detectCycle (g : TS) : Option (List Nat) :=
  match dfsRun g (dfsMeasure g (dfsInit g) + 1) (dfsInit g) with
  | some out => out
  | none => none

/-- The node arena after prepare's promotion scan: every zero-indegree NEW
node becomes READY. -/
def promoteNodes (s : TS) : List Node :=
  s.nodes.map (fun nd =>
    if nd.state = .NEW ∧ nd.indegree = 0 then { nd with state := .READY } else nd)

/-- The initial ready queue computed by prepare: the zero-indegree NEW
nodes in ascending id order. -/
def initialReady (s : TS) : List Nat :=
  (List.range s.nodes.length).filter
    (fun i => decide (stateOf s i = .NEW) && decide (indegOf s i = 0))

/-- Modelled from the spec: prepare (spec section 4.4): fails when not in
BUILDING; fails with the discovered cycle (as identities) when the detector
finds one, leaving the state untouched; otherwise promotes every
zero-indegree NEW node to READY, enqueues them in ascending id order, and
transitions to RUNNING. -/
def prepare (s : TS) : TS × Option Err :=
  if s.stage = .BUILDING then
    match detectCycle s with
    | some c => (s, some (.cycle (c.map (identityOf s))))
    | none =>
      ({ nodes := promoteNodes s, ready := initialReady s, stage := .RUNNING }, none)
  else (s, some .notBuilding)

/-- Modelled from the spec: the drain loop of static_order (spec
section 4.6): while is_active, pull a ready batch, yield it, and mark the
whole batch done; fuelled, with none on fuel exhaustion or on any engine
error (shown impossible for acyclic graphs). -/
def drain (fuel : Nat) (s : TS) (acc : List Nat) : Option (List Nat) :=
  match fuel with
  | 0 => if is_active s then none else some acc
  | fuel+1 =>
    if is_active s then
      match get_ready s with
      | (_, _, some _) => none
      | (batch, s1, none) =>
        match done s1 batch with
        | (_, some _) => none
        | (s2, none) => drain fuel s2 (acc ++ batch)
    else some acc

/-- Modelled from the spec: static_order (spec section 4.6): prepare once,
then drain the engine to exhaustion, yielding the concatenation of the ready
batches as one sequence of identities. -/
def static_order (s : TS) : Except Err (List Nat) :=
  match prepare s with
  | (_, some e) => .error e
  | (s1, none) =>
    match drain (s.nodes.length + 1) s1 [] with
    | some l => .ok l
    | none => .error .notPrepared

/-- Modelled from the spec: copy (spec section 4.5): a structural clone of
the full current state, rebuilding every node record and container rather
than sharing them. -/
def copy (s : TS) : TS :=
  { nodes := s.nodes.map (fun nd =>
      { identity := nd.identity, preds := nd.preds, succs := nd.succs,
        indegree := nd.indegree, state := nd.state }),
    ready := s.ready.map (fun i => i),
    stage := s.stage }

/-- One abstract operation of the engine's public mutating surface. -/
inductive Op
  | addO (x : Nat) (ps : List Nat)
  | prepareO
  | getReadyO
  | doneO (xs : List Nat)
  | removeO (xs : List Nat)
deriving DecidableEq, Repr

/-- Apply one operation: the successor state and the batch it yielded (empty
for every operation but a successful get_ready).  A failing operation leaves
the state unchanged (spec section 7). -/
def stepOp (s : TS) : Op → TS × List Nat
  | .addO x ps => ((add s x ps).1, [])
  | .prepareO => ((prepare s).1, [])
  | .getReadyO =>
    match get_ready s with
    | (batch, s1, none) => (s1, batch)
    | (_, _, some _) => (s, [])
  | .doneO xs => ((done s xs).1, [])
  | .removeO xs => ((remove_nodes s xs).1, [])

/-- Run a sequence of operations, collecting the batch yielded at each
step. -/
def runOps : TS → List Op → TS × List (List Nat)
  | s, [] => (s, [])
  | s, op :: rest =>
    let (s1, b) := stepOp s op
    let (s2, bs) := runOps s1 rest
    (s2, b :: bs)

/-- Live-edge relation between internal ids: both endpoints live and j a
recorded successor of i. -/
def edge (s : TS) (i j : Nat) : Prop :=
  liveAt s i = true ∧ liveAt s j = true ∧ j ∈ succsOf s i

instance (s : TS) (i j : Nat) : Decidable (edge s i j) :=
  inferInstanceAs (Decidable (liveAt s i = true ∧ liveAt s j = true ∧ j ∈ succsOf s i))

/-- A cycle over internal ids: at least two entries, first equals last, and
every consecutive pair a live edge. -/
def isCycle (s : TS) (c : List Nat) : Prop :=
  2 ≤ c.length ∧ c.head? = c.getLast? ∧ List.Chain' (edge s) c

instance (s : TS) (c : List Nat) : Decidable (isCycle s c) :=
  inferInstanceAs (Decidable (2 ≤ c.length ∧ c.head? = c.getLast? ∧ List.Chain' (edge s) c))

/-- The live graph contains a directed cycle. -/
def hasCycle (s : TS) : Prop := ∃ c, isCycle s c

/-- The identities of the live (non-removed) nodes, in ascending id order. -/
def liveIdentities (s : TS) : List Nat :=
  ((List.range s.nodes.length).filter (fun i => liveAt s i)).map (identityOf s)

/-- x occurs strictly before y in l. -/
def before (l : List Nat) (x y : Nat) : Prop :=
  ∃ a b : Nat, a < b ∧ l[a]? = some x ∧ l[b]? = some y

/-- Edge relation expressed on external identities. -/
def identityEdge (s : TS) (x y : Nat) : Prop :=
  ∃ i j, findId s.nodes x = some i ∧ findId s.nodes y = some j ∧ edge s i j

/-- A cycle expressed as a sequence of external identities: at least two
entries, first equals last, consecutive pairs real edges. -/
def isIdentityCycle (s : TS) (c : List Nat) : Prop :=
  2 ≤ c.length ∧ c.head? = c.getLast? ∧ List.Chain' (identityEdge s) c

/-- Modelled from the spec: the node registry with a caller-supplied
id-assignment function (spec section 4.1): an association list from identity
to id in first-seen order, the factory's threaded state, and the count of
factory invocations. -/
structure Registry (σ : Type) where
  entries : List (Nat × Nat)
  fstate : σ
  calls : Nat
deriving DecidableEq, Repr

/-- Lookup in an association list. -/
def lookupEntry : List (Nat × Nat) → Nat → Option Nat
  | [], _ => none
  | (k, v) :: rest, x => if k = x then some v else lookupEntry rest x

/-- Modelled from the spec: registry intern (spec section 4.1): return the
recorded id of an already-seen identity without touching the factory, or
invoke the factory exactly once to allocate an id for a new identity and
record it. -/
def Registry.intern {σ : Type} (fac : σ → Nat × σ) (r : Registry σ) (x : Nat) :
    Registry σ × Nat :=
  match lookupEntry r.entries x with
  | some i => (r, i)
  | none =>
    let (i, f2) := fac r.fstate
    ({ entries := r.entries ++ [(x, i)], fstate := f2, calls := r.calls + 1 }, i)

/-- Intern a whole list of identities in order. -/
def Registry.internAll {σ : Type} (fac : σ → Nat × σ) (r : Registry σ)
    (xs : List Nat) : Registry σ :=
  xs.foldl (fun a x => (Registry.intern fac a x).1) r

/-- The default node-id factory, translated from the source
(_DefaultNodeIdFactory in src/python/graphlib2): a counter starting at zero
whose call returns the current count and increments it. -/
def defaultNodeIdFactory (c : Nat) : Nat × Nat := (c, c + 1)

/-- The fresh registry over a given initial factory state. -/
def Registry.empty {σ : Type} (f0 : σ) : Registry σ := ⟨[], f0, 0⟩

/-- The distinct values of a list, keeping first occurrences in order. -/
def firstSeen (xs : List Nat) : List Nat :=
  xs.foldl (fun acc x => if x ∈ acc then acc else acc ++ [x]) []

/-- A predecessor still counts toward indegree while neither DONE nor
REMOVED. -/
def counted (s : TS) (j : Nat) : Bool :=
  match s.nodes[j]? with
  | some nd => decide (nd.state ≠ .DONE) && decide (nd.state ≠ .REMOVED)
  | none => false

/-- The number of still-counted predecessors of node i. -/
def countedPreds (s : TS) (i : Nat) : Nat :=
  ((predsOf s i).filter (fun j => counted s j)).length

theorem length_modifyNode (ns : List Node) (i : Nat) (f : Node → Node) :
    (modifyNode ns i f).length = ns.length := by
  unfold modifyNode
  cases h : ns[i]? with
  | none => rfl
  | some nd => simp [List.length_set]

theorem getElem?_modifyNode_self {ns : List Node} {i : Nat} {nd : Node} (f : Node → Node)
    (h : ns[i]? = some nd) : (modifyNode ns i f)[i]? = some (f nd) := by
  unfold modifyNode
  rw [h]
  have hlt : i < ns.length := by
    by_contra hge
    rw [List.getElem?_eq_none (Nat.le_of_not_lt hge)] at h
    exact Option.noConfusion h
  simp [hlt]

theorem getElem?_modifyNode_ne {ns : List Node} {i : Nat} (f : Node → Node) {k : Nat}
    (h : k ≠ i) : (modifyNode ns i f)[k]? = ns[k]? := by
  unfold modifyNode
  cases hi : ns[i]? with
  | none => rfl
  | some nd => exact List.getElem?_set_ne (fun hik => h hik.symm)

theorem findId_some_lt {ns : List Node} {x i : Nat} (h : findId ns x = some i) :
    i < ns.length := by
  induction ns generalizing i with
  | nil => simp [findId] at h
  | cons nd rest ih =>
    unfold findId at h
    by_cases hx : nd.identity = x
    · simp [hx] at h
      simp [← h]
    · simp [hx] at h
      obtain ⟨j, hj, rfl⟩ := h
      have := ih hj
      simp
      omega

theorem findId_some_identity {ns : List Node} {x i : Nat} (h : findId ns x = some i) :
    ∃ nd, ns[i]? = some nd ∧ nd.identity = x := by
  induction ns generalizing i with
  | nil => simp [findId] at h
  | cons nd rest ih =>
    unfold findId at h
    by_cases hx : nd.identity = x
    · simp [hx] at h
      subst h
      exact ⟨nd, by simp, hx⟩
    · simp [hx] at h
      obtain ⟨j, hj, rfl⟩ := h
      obtain ⟨m, hm, hmx⟩ := ih hj
      exact ⟨m, by simpa using hm, hmx⟩

theorem findId_none {ns : List Node} {x : Nat} (h : findId ns x = none) :
    ∀ nd ∈ ns, nd.identity ≠ x := by
  induction ns with
  | nil => simp
  | cons nd rest ih =>
    unfold findId at h
    by_cases hx : nd.identity = x
    · simp [hx] at h
    · simp [hx] at h
      intro m hm
      rcases List.mem_cons.1 hm with hm1 | hm1
      · simpa [hm1] using hx
      · exact ih h m hm1

/-- The graph-level invariant of spec section 3, generalised by a list of
pending indegree decrements: every stored indegree equals the node's count of
still-counted predecessors plus the number of decrements still owed to it
(the plain invariant is the instance with no pending decrements).  The other
clauses: successor and predecessor references are in range and duplicate
free, identities are distinct, predecessor and successor sets mirror each
other, the ready queue holds exactly the READY nodes without duplicates,
any node at or past READY has indegree zero, while RUNNING every NEW node
has positive indegree, and while BUILDING every node is NEW or REMOVED. -/
structure InvP (s : TS) (pending : List Nat) : Prop where
  wfSuccs : ∀ i ∈ List.range s.nodes.length, ∀ j ∈ succsOf s i, j < s.nodes.length
  wfPreds : ∀ i ∈ List.range s.nodes.length, ∀ j ∈ predsOf s i, j < s.nodes.length
  idsNodup : (s.nodes.map Node.identity).Nodup
  predsNodup : ∀ i ∈ List.range s.nodes.length, (predsOf s i).Nodup
  succsNodup : ∀ i ∈ List.range s.nodes.length, (succsOf s i).Nodup
  dual : ∀ i ∈ List.range s.nodes.length, ∀ j ∈ List.range s.nodes.length,
    (j ∈ predsOf s i ↔ i ∈ succsOf s j)
  indeg : ∀ i ∈ List.range s.nodes.length,
    indegOf s i = countedPreds s i + pending.count i
  readyBound : ∀ i ∈ s.ready, i < s.nodes.length ∧ stateOf s i = .READY
  readyComplete : ∀ i ∈ List.range s.nodes.length, stateOf s i = .READY → i ∈ s.ready
  readyNodup : s.ready.Nodup
  zeroIndeg : ∀ i ∈ List.range s.nodes.length,
    (stateOf s i = .READY ∨ stateOf s i = .PROCESSING ∨ stateOf s i = .DONE) →
      indegOf s i = 0
  runningNew : s.stage = .RUNNING → ∀ i ∈ List.range s.nodes.length,
    stateOf s i = .NEW → 0 < indegOf s i
  buildingStates : s.stage = .BUILDING → ∀ i ∈ List.range s.nodes.length,
    stateOf s i = .NEW ∨ stateOf s i = .REMOVED
  pendingBound : ∀ k ∈ pending,
    k < s.nodes.length ∧ (stateOf s k = .NEW ∨ stateOf s k = .REMOVED)

/-- The graph-level invariant at every observable point: no pending
decrements. -/
def Inv (s : TS) : Prop := InvP s []

instance instDecidableInvP (s : TS) (pending : List Nat) : Decidable (InvP s pending) :=
  decidable_of_iff
    ((∀ i ∈ List.range s.nodes.length, ∀ j ∈ succsOf s i, j < s.nodes.length) ∧
     (∀ i ∈ List.range s.nodes.length, ∀ j ∈ predsOf s i, j < s.nodes.length) ∧
     (s.nodes.map Node.identity).Nodup ∧
     (∀ i ∈ List.range s.nodes.length, (predsOf s i).Nodup) ∧
     (∀ i ∈ List.range s.nodes.length, (succsOf s i).Nodup) ∧
     (∀ i ∈ List.range s.nodes.length, ∀ j ∈ List.range s.nodes.length,
       (j ∈ predsOf s i ↔ i ∈ succsOf s j)) ∧
     (∀ i ∈ List.range s.nodes.length,
       indegOf s i = countedPreds s i + pending.count i) ∧
     (∀ i ∈ s.ready, i < s.nodes.length ∧ stateOf s i = .READY) ∧
     (∀ i ∈ List.range s.nodes.length, stateOf s i = .READY → i ∈ s.ready) ∧
     s.ready.Nodup ∧
     (∀ i ∈ List.range s.nodes.length,
       (stateOf s i = .READY ∨ stateOf s i = .PROCESSING ∨ stateOf s i = .DONE) →
         indegOf s i = 0) ∧
     (s.stage = .RUNNING → ∀ i ∈ List.range s.nodes.length,
       stateOf s i = .NEW → 0 < indegOf s i) ∧
     (s.stage = .BUILDING → ∀ i ∈ List.range s.nodes.length,
       stateOf s i = .NEW ∨ stateOf s i = .REMOVED) ∧
     (∀ k ∈ pending,
       k < s.nodes.length ∧ (stateOf s k = .NEW ∨ stateOf s k = .REMOVED)))
    (by
      constructor
      · rintro ⟨h1, h2, h3, h4, h5, h6, h7, h8, h9, h10, h11, h12, h13, h14⟩
        exact ⟨h1, h2, h3, h4, h5, h6, h7, h8, h9, h10, h11, h12, h13, h14⟩
      · rintro ⟨h1, h2, h3, h4, h5, h6, h7, h8, h9, h10, h11, h12, h13, h14⟩
        exact ⟨h1, h2, h3, h4, h5, h6, h7, h8, h9, h10, h11, h12, h13, h14⟩)

instance instDecidableInv (s : TS) : Decidable (Inv s) := instDecidableInvP s []

theorem mem_of_getElem?_node {ns : List Node} {i : Nat} {nd : Node}
    (h : ns[i]? = some nd) : nd ∈ ns := by
  have hj : i < ns.length := by
    by_contra hge
    rw [List.getElem?_eq_none (Nat.le_of_not_lt hge)] at h
    exact Option.noConfusion h
  have hget := List.getElem?_eq_some_iff.1 h
  obtain ⟨h2, hget⟩ := hget
  have := List.getElem_mem h2
  rwa [hget] at this

theorem findId_of_getElem? {ns : List Node} {i : Nat} {nd : Node}
    (hnd : (ns.map Node.identity).Nodup) (h : ns[i]? = some nd) :
    findId ns nd.identity = some i := by
  induction ns generalizing i with
  | nil => simp at h
  | cons m rest ih =>
    cases i with
    | zero =>
      simp at h
      unfold findId
      simp [h]
    | succ j =>
      simp at h
      simp at hnd
      unfold findId
      have hne : m.identity ≠ nd.identity := by
        intro he
        exact hnd.1 nd (mem_of_getElem?_node h) he.symm
      simp [hne, ih hnd.2 h]

theorem lt_of_getElem?_node {ns : List Node} {i : Nat} {nd : Node}
    (h : ns[i]? = some nd) : i < ns.length := by
  by_contra hge
  rw [List.getElem?_eq_none (Nat.le_of_not_lt hge)] at h
  exact Option.noConfusion h

theorem getElem?_set_node {ns : List Node} {j : Nat} {nd : Node}
    (h : ns[j]? = some nd) (nd' : Node) (k : Nat) :
    (ns.set j nd')[k]? = if k = j then some nd' else ns[k]? := by
  by_cases hk : k = j
  · subst hk
    simp [lt_of_getElem?_node h]
  · simp [hk, List.getElem?_set_ne (fun hx => hk hx.symm)]

theorem map_identity_set {ns : List Node} {k : Nat} {nd nd' : Node}
    (h : ns[k]? = some nd) (hid : nd'.identity = nd.identity) :
    (ns.set k nd').map Node.identity = ns.map Node.identity := by
  apply List.ext_getElem?
  intro i
  simp only [List.getElem?_map]
  rw [getElem?_set_node h nd' i]
  by_cases hik : i = k
  · subst hik
    simp [h, hid]
  · simp [hik]

theorem stateOf_congr {s t : TS} {k : Nat} (h : t.nodes[k]? = s.nodes[k]?) :
    stateOf t k = stateOf s k := by
  unfold stateOf
  rw [h]

theorem identityOf_congr {s t : TS} {k : Nat} (h : t.nodes[k]? = s.nodes[k]?) :
    identityOf t k = identityOf s k := by
  unfold identityOf
  rw [h]

theorem indegOf_congr {s t : TS} {k : Nat} (h : t.nodes[k]? = s.nodes[k]?) :
    indegOf t k = indegOf s k := by
  unfold indegOf
  rw [h]

theorem succsOf_congr {s t : TS} {k : Nat} (h : t.nodes[k]? = s.nodes[k]?) :
    succsOf t k = succsOf s k := by
  unfold succsOf
  rw [h]

theorem predsOf_congr {s t : TS} {k : Nat} (h : t.nodes[k]? = s.nodes[k]?) :
    predsOf t k = predsOf s k := by
  unfold predsOf
  rw [h]

theorem liveAt_congr {s t : TS} {k : Nat} (h : t.nodes[k]? = s.nodes[k]?) :
    liveAt t k = liveAt s k := by
  unfold liveAt
  rw [h]

theorem counted_congr {s t : TS} {k : Nat} (h : t.nodes[k]? = s.nodes[k]?) :
    counted t k = counted s k := by
  unfold counted
  rw [h]

theorem countedPreds_congr {s t : TS} {i : Nat}
    (hp : predsOf t i = predsOf s i) (hc : ∀ j, counted t j = counted s j) :
    countedPreds t i = countedPreds s i := by
  unfold countedPreds
  rw [hp]
  congr 1
  apply List.filter_congr
  intro j _
  exact hc j

theorem filter_length_drop_mem {l : List Nat} (p q : Nat → Bool) (i : Nat)
    (hnd : l.Nodup) (hi : i ∈ l) (hpi : p i = true) (hqi : q i = false)
    (hagree : ∀ j, j ≠ i → q j = p j) :
    (l.filter q).length + 1 = (l.filter p).length := by
  induction l with
  | nil => simp at hi
  | cons a rest ih =>
    simp at hnd
    rcases List.mem_cons.1 hi with ha | ha
    · subst ha
      have hrest : rest.filter q = rest.filter p := by
        apply List.filter_congr
        intro j hj
        exact hagree j (fun hji => hnd.1 (hji ▸ hj))
      simp [hpi, hqi, hrest]
    · have hai : a ≠ i := fun he => hnd.1 (he ▸ ha)
      have hq : q a = p a := hagree a hai
      have ihr := ih hnd.2 ha
      by_cases hpa : p a = true
      · have hqa : q a = true := by rw [hq]; exact hpa
        simp only [List.filter_cons, hpa, hqa, if_true, List.length_cons]
        omega
      · have hpa' : p a = false := by revert hpa; cases p a <;> simp
        have hqa : q a = false := by rw [hq]; exact hpa'
        simp only [List.filter_cons, hpa', hqa]
        exact ihr

theorem filter_length_agree {l : List Nat} (p q : Nat → Bool) (i : Nat)
    (hi : i ∉ l) (hagree : ∀ j, j ≠ i → q j = p j) :
    (l.filter q).length = (l.filter p).length := by
  have : l.filter q = l.filter p := by
    apply List.filter_congr
    intro j hj
    exact hagree j (fun hji => hi (hji ▸ hj))
  rw [this]

/-- The condition under which decSucc promotes its target to READY. -/
def promotes (s : TS) (j : Nat) : Prop :=
  ∃ nd, s.nodes[j]? = some nd ∧ s.stage = .RUNNING ∧ nd.state = .NEW ∧ nd.indegree = 1

instance instDecidablePromotes (s : TS) (j : Nat) : Decidable (promotes s j) :=
  match h : s.nodes[j]? with
  | some nd =>
    decidable_of_iff (s.stage = .RUNNING ∧ nd.state = .NEW ∧ nd.indegree = 1)
      (by
        constructor
        · intro hh
          exact ⟨nd, h, hh⟩
        · rintro ⟨nd2, h2, hh⟩
          rw [h] at h2
          cases h2
          exact hh)
  | none =>
    isFalse (by
      rintro ⟨nd, h2, _⟩
      rw [h] at h2
      exact Option.noConfusion h2)

theorem decSucc_nodes {s : TS} {j : Nat} {nd : Node} (h : s.nodes[j]? = some nd)
    (k : Nat) :
    (decSucc s j).nodes[k]? =
      if k = j then
        some (if s.stage = .RUNNING ∧ nd.state = .NEW ∧ nd.indegree = 1 then
          { nd with indegree := 0, state := .READY }
        else { nd with indegree := nd.indegree - 1 })
      else s.nodes[k]? := by
  unfold decSucc
  rw [h]
  simp only []
  split
  · simp only [getElem?_set_node h]
  · simp only [getElem?_set_node h]

theorem decSucc_nodes_none {s : TS} {j : Nat} (h : s.nodes[j]? = none) :
    decSucc s j = s := by
  unfold decSucc
  rw [h]

theorem decSucc_ready {s : TS} {j : Nat} :
    (decSucc s j).ready = if promotes s j then s.ready ++ [j] else s.ready := by
  cases h : s.nodes[j]? with
  | none =>
    have hnp : ¬ promotes s j := by
      rintro ⟨nd, h2, _⟩
      rw [h] at h2
      exact Option.noConfusion h2
    rw [decSucc_nodes_none h]
    simp [hnp]
  | some nd =>
    unfold decSucc
    rw [h]
    simp only []
    split
    · next hc =>
      have hp : promotes s j := ⟨nd, h, hc⟩
      simp [hp]
    · next hc =>
      have hnp : ¬ promotes s j := by
        rintro ⟨nd2, h2, hh⟩
        rw [h] at h2
        cases h2
        exact hc hh
      simp [hnp]

theorem decSucc_stage {s : TS} {j : Nat} : (decSucc s j).stage = s.stage := by
  cases h : s.nodes[j]? with
  | none => rw [decSucc_nodes_none h]
  | some nd =>
    unfold decSucc
    rw [h]
    simp only []
    split <;> rfl

theorem decSucc_length {s : TS} {j : Nat} :
    (decSucc s j).nodes.length = s.nodes.length := by
  cases h : s.nodes[j]? with
  | none => rw [decSucc_nodes_none h]
  | some nd =>
    unfold decSucc
    rw [h]
    simp only []
    split <;> simp

theorem stateOf_eq_of_getElem? {s : TS} {k : Nat} {nd : Node}
    (h : s.nodes[k]? = some nd) : stateOf s k = nd.state := by
  unfold stateOf
  rw [h]

theorem indegOf_eq_of_getElem? {s : TS} {k : Nat} {nd : Node}
    (h : s.nodes[k]? = some nd) : indegOf s k = nd.indegree := by
  unfold indegOf
  rw [h]

theorem InvP_decSucc {s : TS} {k : Nat} {pending : List Nat}
    (h : InvP s (k :: pending)) : InvP (decSucc s k) pending := by
  obtain ⟨hklt, hkstate⟩ := h.pendingBound k (List.mem_cons_self k pending)
  have hnd : s.nodes[k]? = some s.nodes[k] := List.getElem?_eq_getElem hklt
  set nd := s.nodes[k] with hnddef
  have hsk : stateOf s k = nd.state := stateOf_eq_of_getElem? hnd
  have hik : indegOf s k = nd.indegree := indegOf_eq_of_getElem? hnd
  have hlen : (decSucc s k).nodes.length = s.nodes.length := decSucc_length
  have hstage : (decSucc s k).stage = s.stage := decSucc_stage
  have hnodes := decSucc_nodes hnd
  have hindegk := h.indeg k (List.mem_range.2 hklt)
  rw [List.count_cons_self] at hindegk
  by_cases hc : s.stage = .RUNNING ∧ nd.state = .NEW ∧ nd.indegree = 1
  · -- promotion: k becomes READY with indegree 0 and is enqueued
    have hnodes' : ∀ m, (decSucc s k).nodes[m]? =
        if m = k then some { nd with indegree := 0, state := .READY }
        else s.nodes[m]? := by
      intro m
      rw [hnodes m]
      by_cases hm : m = k <;> simp [hm, hc]
    have hpro : promotes s k := ⟨nd, hnd, hc⟩
    have hreadyEq : (decSucc s k).ready = s.ready ++ [k] := by
      rw [decSucc_ready]
      simp [hpro]
    have hstate : ∀ m, stateOf (decSucc s k) m =
        if m = k then .READY else stateOf s m := by
      intro m
      unfold stateOf
      rw [hnodes' m]
      by_cases hm : m = k <;> simp [hm]
    have hindeg : ∀ m, indegOf (decSucc s k) m =
        if m = k then 0 else indegOf s m := by
      intro m
      unfold indegOf
      rw [hnodes' m]
      by_cases hm : m = k <;> simp [hm]
    have hsuccs : ∀ m, succsOf (decSucc s k) m = succsOf s m := by
      intro m
      unfold succsOf
      rw [hnodes' m]
      by_cases hm : m = k
      · subst hm
        simp [hnd]
      · simp [hm]
    have hpreds : ∀ m, predsOf (decSucc s k) m = predsOf s m := by
      intro m
      unfold predsOf
      rw [hnodes' m]
      by_cases hm : m = k
      · subst hm
        simp [hnd]
      · simp [hm]
    have hcounted : ∀ m, counted (decSucc s k) m = counted s m := by
      intro m
      unfold counted
      rw [hnodes' m]
      by_cases hm : m = k
      · subst hm
        rw [hnd]
        simp [hc.2.1]
      · simp [hm]
    have hcp : ∀ m, countedPreds (decSucc s k) m = countedPreds s m := fun m =>
      countedPreds_congr (hpreds m) hcounted
    have hids : (decSucc s k).nodes.map Node.identity = s.nodes.map Node.identity := by
      apply List.ext_getElem?
      intro m
      simp only [List.getElem?_map]
      rw [hnodes' m]
      by_cases hm : m = k
      · subst hm
        simp [hnd]
      · simp [hm]
    have hzero : countedPreds s k = 0 ∧ pending.count k = 0 := by
      rw [hik, hc.2.2] at hindegk
      omega
    have hknotpend : k ∉ pending := by
      intro hmem
      have := List.count_pos_iff.2 hmem
      omega
    have hknotready : k ∉ s.ready := by
      intro hmem
      have := (h.readyBound k hmem).2
      rw [hsk, hc.2.1] at this
      exact NState.noConfusion this
    refine ⟨?_, ?_, ?_, ?_, ?_, ?_, ?_, ?_, ?_, ?_, ?_, ?_, ?_, ?_⟩
    · intro i hi j hj
      rw [List.mem_range, hlen] at hi
      rw [hsuccs] at hj
      rw [hlen]
      exact h.wfSuccs i (List.mem_range.2 hi) j hj
    · intro i hi j hj
      rw [List.mem_range, hlen] at hi
      rw [hpreds] at hj
      rw [hlen]
      exact h.wfPreds i (List.mem_range.2 hi) j hj
    · rw [hids]
      exact h.idsNodup
    · intro i hi
      rw [hpreds]
      rw [List.mem_range, hlen] at hi
      exact h.predsNodup i (List.mem_range.2 hi)
    · intro i hi
      rw [hsuccs]
      rw [List.mem_range, hlen] at hi
      exact h.succsNodup i (List.mem_range.2 hi)
    · intro i hi j hj
      rw [List.mem_range, hlen] at hi hj
      rw [hpreds, hsuccs]
      exact h.dual i (List.mem_range.2 hi) j (List.mem_range.2 hj)
    · intro i hi
      rw [List.mem_range, hlen] at hi
      rw [hindeg, hcp]
      by_cases hm : i = k
      · subst hm
        simp [hzero.1, List.count_eq_zero.2 hknotpend]
      · have := h.indeg i (List.mem_range.2 hi)
        rw [List.count_cons_of_ne hm] at this
        simp [hm, this]
    · intro i hi
      rw [hreadyEq] at hi
      rcases List.mem_append.1 hi with hi1 | hi1
      · obtain ⟨hb, hr⟩ := h.readyBound i hi1
        refine ⟨by rw [hlen]; exact hb, ?_⟩
        rw [hstate]
        have hik2 : i ≠ k := by
          intro he
          subst he
          rw [hsk, hc.2.1] at hr
          exact NState.noConfusion hr
        simp [hik2, hr]
      · have : i = k := by simpa using hi1
        subst this
        refine ⟨by rw [hlen]; exact hklt, ?_⟩
        rw [hstate]
        simp
    · intro i hi hr
      rw [List.mem_range, hlen] at hi
      rw [hstate] at hr
      rw [hreadyEq]
      by_cases hm : i = k
      · subst hm
        simp
      · simp [hm] at hr
        exact List.mem_append.2 (Or.inl (h.readyComplete i (List.mem_range.2 hi) hr))
    · rw [hreadyEq]
      refine List.Nodup.append h.readyNodup (List.nodup_singleton k) ?_
      intro a ha hb
      have : a = k := by simpa using hb
      subst this
      exact hknotready ha
    · intro i hi hst
      rw [List.mem_range, hlen] at hi
      rw [hindeg]
      by_cases hm : i = k
      · simp [hm]
      · rw [hstate] at hst
        simp [hm] at hst ⊢
        exact h.zeroIndeg i (List.mem_range.2 hi) hst
    · intro hrun i hi hst
      rw [hstage] at hrun
      rw [List.mem_range, hlen] at hi
      rw [hstate] at hst
      by_cases hm : i = k
      · simp [hm] at hst
      · simp [hm] at hst
        rw [hindeg]
        simp [hm]
        exact h.runningNew hrun i (List.mem_range.2 hi) hst
    · intro hb
      rw [hstage] at hb
      rw [hc.1] at hb
      exact Stage.noConfusion hb
    · intro m hm
      have hm' : m ∈ k :: pending := List.mem_cons_of_mem k hm
      obtain ⟨hb, hst⟩ := h.pendingBound m hm'
      refine ⟨by rw [hlen]; exact hb, ?_⟩
      rw [hstate]
      have hmk : m ≠ k := fun he => hknotpend (he ▸ hm)
      simp [hmk]
      exact hst
  · -- no promotion: only the stored indegree drops by one
    have hnodes' : ∀ m, (decSucc s k).nodes[m]? =
        if m = k then some { nd with indegree := nd.indegree - 1 }
        else s.nodes[m]? := by
      intro m
      rw [hnodes m]
      by_cases hm : m = k <;> simp [hm, hc]
    have hnpro : ¬ promotes s k := by
      rintro ⟨nd2, h2, hh⟩
      rw [hnd] at h2
      cases h2
      exact hc hh
    have hreadyEq : (decSucc s k).ready = s.ready := by
      rw [decSucc_ready]
      simp [hnpro]
    have hstate : ∀ m, stateOf (decSucc s k) m = stateOf s m := by
      intro m
      unfold stateOf
      rw [hnodes' m]
      by_cases hm : m = k
      · subst hm
        simp [hnd]
      · simp [hm]
    have hindeg : ∀ m, indegOf (decSucc s k) m =
        if m = k then nd.indegree - 1 else indegOf s m := by
      intro m
      unfold indegOf
      rw [hnodes' m]
      by_cases hm : m = k <;> simp [hm]
    have hsuccs : ∀ m, succsOf (decSucc s k) m = succsOf s m := by
      intro m
      unfold succsOf
      rw [hnodes' m]
      by_cases hm : m = k
      · subst hm
        simp [hnd]
      · simp [hm]
    have hpreds : ∀ m, predsOf (decSucc s k) m = predsOf s m := by
      intro m
      unfold predsOf
      rw [hnodes' m]
      by_cases hm : m = k
      · subst hm
        simp [hnd]
      · simp [hm]
    have hcounted : ∀ m, counted (decSucc s k) m = counted s m := by
      intro m
      unfold counted
      rw [hnodes' m]
      by_cases hm : m = k
      · subst hm
        simp [hnd]
      · simp [hm]
    have hcp : ∀ m, countedPreds (decSucc s k) m = countedPreds s m := fun m =>
      countedPreds_congr (hpreds m) hcounted
    have hids : (decSucc s k).nodes.map Node.identity = s.nodes.map Node.identity := by
      apply List.ext_getElem?
      intro m
      simp only [List.getElem?_map]
      rw [hnodes' m]
      by_cases hm : m = k
      · subst hm
        simp [hnd]
      · simp [hm]
    refine ⟨?_, ?_, ?_, ?_, ?_, ?_, ?_, ?_, ?_, ?_, ?_, ?_, ?_, ?_⟩
    · intro i hi j hj
      rw [List.mem_range, hlen] at hi
      rw [hsuccs] at hj
      rw [hlen]
      exact h.wfSuccs i (List.mem_range.2 hi) j hj
    · intro i hi j hj
      rw [List.mem_range, hlen] at hi
      rw [hpreds] at hj
      rw [hlen]
      exact h.wfPreds i (List.mem_range.2 hi) j hj
    · rw [hids]
      exact h.idsNodup
    · intro i hi
      rw [hpreds]
      rw [List.mem_range, hlen] at hi
      exact h.predsNodup i (List.mem_range.2 hi)
    · intro i hi
      rw [hsuccs]
      rw [List.mem_range, hlen] at hi
      exact h.succsNodup i (List.mem_range.2 hi)
    · intro i hi j hj
      rw [List.mem_range, hlen] at hi hj
      rw [hpreds, hsuccs]
      exact h.dual i (List.mem_range.2 hi) j (List.mem_range.2 hj)
    · intro i hi
      rw [List.mem_range, hlen] at hi
      rw [hindeg, hcp]
      by_cases hm : i = k
      · subst hm
        rw [hik] at hindegk
        simp
        omega
      · have := h.indeg i (List.mem_range.2 hi)
        rw [List.count_cons_of_ne hm] at this
        simp [hm, this]
    · intro i hi
      rw [hreadyEq] at hi
      obtain ⟨hb, hr⟩ := h.readyBound i hi
      exact ⟨by rw [hlen]; exact hb, by rw [hstate]; exact hr⟩
    · intro i hi hr
      rw [List.mem_range, hlen] at hi
      rw [hstate] at hr
      rw [hreadyEq]
      exact h.readyComplete i (List.mem_range.2 hi) hr
    · rw [hreadyEq]
      exact h.readyNodup
    · intro i hi hst
      rw [List.mem_range, hlen] at hi
      rw [hstate] at hst
      rw [hindeg]
      by_cases hm : i = k
      · subst hm
        rcases hkstate with hk1 | hk1 <;> rw [hk1] at hst <;>
          rcases hst with hst | hst | hst <;> exact NState.noConfusion hst
      · simp [hm]
        exact h.zeroIndeg i (List.mem_range.2 hi) hst
    · intro hrun i hi hst
      rw [hstage] at hrun
      rw [List.mem_range, hlen] at hi
      rw [hstate] at hst
      rw [hindeg]
      by_cases hm : i = k
      · subst hm
        have hne1 : nd.indegree ≠ 1 := by
          intro he
          rw [hsk] at hst
          exact hc ⟨hrun, hst, he⟩
        rw [hik] at hindegk
        simp
        omega
      · simp [hm]
        exact h.runningNew hrun i (List.mem_range.2 hi) hst
    · intro hb i hi
      rw [hstage] at hb
      rw [List.mem_range, hlen] at hi
      rw [hstate]
      exact h.buildingStates hb i (List.mem_range.2 hi)
    · intro m hm
      obtain ⟨hb, hst⟩ := h.pendingBound m (List.mem_cons_of_mem k hm)
      exact ⟨by rw [hlen]; exact hb, by rw [hstate]; exact hst⟩

theorem InvP_foldl_decSucc : ∀ (L : List Nat) (s : TS), InvP s L →
    InvP (L.foldl decSucc s) [] := by
  intro L
  induction L with
  | nil => intro s h; exact h
  | cons k rest ih =>
    intro s h
    exact ih (decSucc s k) (InvP_decSucc h)

theorem state_terminalish_of_pos_indeg {s : TS} {p : List Nat} (h : InvP s p)
    {k : Nat} (hk : k < s.nodes.length) (hpos : 0 < indegOf s k) :
    stateOf s k = .NEW ∨ stateOf s k = .REMOVED := by
  cases hsk : stateOf s k with
  | NEW => exact Or.inl rfl
  | REMOVED => exact Or.inr rfl
  | READY =>
    have := h.zeroIndeg k (List.mem_range.2 hk) (Or.inl hsk)
    omega
  | PROCESSING =>
    have := h.zeroIndeg k (List.mem_range.2 hk) (Or.inr (Or.inl hsk))
    omega
  | DONE =>
    have := h.zeroIndeg k (List.mem_range.2 hk) (Or.inr (Or.inr hsk))
    omega

theorem countedPreds_pos_of_counted_pred {s : TS} {k i : Nat}
    (hmem : i ∈ predsOf s k) (hcnt : counted s i = true) :
    0 < countedPreds s k := by
  unfold countedPreds
  have : i ∈ (predsOf s k).filter (fun j => counted s j) :=
    List.mem_filter.2 ⟨hmem, hcnt⟩
  exact List.length_pos.2 (List.ne_nil_of_mem this)

theorem predsOf_lt_of_mem {s : TS} {m i : Nat} (hmem : i ∈ predsOf s m) :
    m < s.nodes.length := by
  by_contra hge
  unfold predsOf at hmem
  rw [List.getElem?_eq_none (Nat.le_of_not_lt hge)] at hmem
  simp at hmem

theorem InvP_markDone_start {s : TS} {i : Nat} {nd : Node} (h : Inv s)
    (hnd : s.nodes[i]? = some nd) (hproc : nd.state = .PROCESSING) :
    InvP { s with nodes := s.nodes.set i { nd with state := .DONE } } nd.succs := by
  have hilt : i < s.nodes.length := lt_of_getElem?_node hnd
  have hrun : s.stage = .RUNNING := by
    cases hst : s.stage with
    | RUNNING => rfl
    | BUILDING =>
      have := h.buildingStates hst i (List.mem_range.2 hilt)
      rw [stateOf_eq_of_getElem? hnd, hproc] at this
      rcases this with h1 | h1 <;> exact NState.noConfusion h1
  set t : TS := { s with nodes := s.nodes.set i { nd with state := .DONE } } with htdef
  have hlen : t.nodes.length = s.nodes.length := by simp [htdef]
  have hnodes' : ∀ m, t.nodes[m]? =
      if m = i then some { nd with state := .DONE } else s.nodes[m]? := fun m =>
    getElem?_set_node hnd _ m
  have hstate : ∀ m, stateOf t m = if m = i then .DONE else stateOf s m := by
    intro m
    unfold stateOf
    rw [hnodes' m]
    by_cases hm : m = i <;> simp [hm]
  have hindeg : ∀ m, indegOf t m = indegOf s m := by
    intro m
    unfold indegOf
    rw [hnodes' m]
    by_cases hm : m = i
    · subst hm
      simp [hnd]
    · simp [hm]
  have hsuccs : ∀ m, succsOf t m = succsOf s m := by
    intro m
    unfold succsOf
    rw [hnodes' m]
    by_cases hm : m = i
    · subst hm
      simp [hnd]
    · simp [hm]
  have hpreds : ∀ m, predsOf t m = predsOf s m := by
    intro m
    unfold predsOf
    rw [hnodes' m]
    by_cases hm : m = i
    · subst hm
      simp [hnd]
    · simp [hm]
  have hids : t.nodes.map Node.identity = s.nodes.map Node.identity :=
    map_identity_set hnd rfl
  have hready : t.ready = s.ready := by simp [htdef]
  have hstageEq : t.stage = s.stage := by simp [htdef]
  have hcounted : ∀ m, counted t m = if m = i then false else counted s m := by
    intro m
    unfold counted
    rw [hnodes' m]
    by_cases hm : m = i <;> simp [hm]
  have hcountedi : counted s i = true := by
    unfold counted
    rw [hnd]
    simp [hproc]
  have hsuccsi : succsOf s i = nd.succs := by
    unfold succsOf
    rw [hnd]
  have hstatei : stateOf s i = nd.state := stateOf_eq_of_getElem? hnd
  have hindegi0 : indegOf s i = 0 :=
    h.zeroIndeg i (List.mem_range.2 hilt) (Or.inr (Or.inl (hstatei.trans hproc)))
  have hcpdrop : ∀ m, i ∈ predsOf s m → countedPreds t m + 1 = countedPreds s m := by
    intro m hmem
    unfold countedPreds
    rw [hpreds m]
    have hmlt : m < s.nodes.length := predsOf_lt_of_mem hmem
    refine filter_length_drop_mem _ _ i (h.predsNodup m (List.mem_range.2 hmlt)) hmem
      hcountedi (by simp [hcounted]) ?_
    intro j hj
    simp [hcounted, hj]
  have hcpsame : ∀ m, i ∉ predsOf s m → countedPreds t m = countedPreds s m := by
    intro m hnmem
    unfold countedPreds
    rw [hpreds m]
    refine filter_length_agree _ _ i hnmem ?_
    intro j hj
    simp [hcounted, hj]
  have hnoself : i ∉ nd.succs := by
    intro hmem
    have hpredi : i ∈ predsOf s i :=
      (h.dual i (List.mem_range.2 hilt) i (List.mem_range.2 hilt)).2
        (hsuccsi ▸ hmem)
    have hpos := countedPreds_pos_of_counted_pred hpredi hcountedi
    have := h.indeg i (List.mem_range.2 hilt)
    simp at this
    omega
  have hsvalid : ∀ k ∈ nd.succs, k < s.nodes.length ∧
      (stateOf s k = .NEW ∨ stateOf s k = .REMOVED) := by
    intro k hk
    have hklt : k < s.nodes.length :=
      h.wfSuccs i (List.mem_range.2 hilt) k (hsuccsi ▸ hk)
    have hpredk : i ∈ predsOf s k :=
      (h.dual k (List.mem_range.2 hklt) i (List.mem_range.2 hilt)).2
        (hsuccsi ▸ hk)
    have hpos := countedPreds_pos_of_counted_pred hpredk hcountedi
    have hik := h.indeg k (List.mem_range.2 hklt)
    simp at hik
    exact ⟨hklt, state_terminalish_of_pos_indeg h hklt (by omega)⟩
  refine ⟨?_, ?_, ?_, ?_, ?_, ?_, ?_, ?_, ?_, ?_, ?_, ?_, ?_, ?_⟩
  · intro a ha j hj
    rw [List.mem_range, hlen] at ha
    rw [hsuccs] at hj
    rw [hlen]
    exact h.wfSuccs a (List.mem_range.2 ha) j hj
  · intro a ha j hj
    rw [List.mem_range, hlen] at ha
    rw [hpreds] at hj
    rw [hlen]
    exact h.wfPreds a (List.mem_range.2 ha) j hj
  · rw [hids]
    exact h.idsNodup
  · intro a ha
    rw [hpreds]
    rw [List.mem_range, hlen] at ha
    exact h.predsNodup a (List.mem_range.2 ha)
  · intro a ha
    rw [hsuccs]
    rw [List.mem_range, hlen] at ha
    exact h.succsNodup a (List.mem_range.2 ha)
  · intro a ha j hj
    rw [List.mem_range, hlen] at ha hj
    rw [hpreds, hsuccs]
    exact h.dual a (List.mem_range.2 ha) j (List.mem_range.2 hj)
  · intro m hm
    rw [List.mem_range, hlen] at hm
    rw [hindeg]
    have hbase := h.indeg m (List.mem_range.2 hm)
    simp at hbase
    by_cases hmem : m ∈ nd.succs
    · have hcount1 : nd.succs.count m = 1 :=
        List.count_eq_one_of_mem (hsuccsi ▸ h.succsNodup i (List.mem_range.2 hilt)) hmem
      have hpredm : i ∈ predsOf s m :=
        (h.dual m (List.mem_range.2 hm) i (List.mem_range.2 hilt)).2
          (hsuccsi ▸ hmem)
      have := hcpdrop m hpredm
      rw [hcount1]
      omega
    · have hcount0 : nd.succs.count m = 0 := List.count_eq_zero.2 hmem
      have hpredm : i ∉ predsOf s m := by
        intro hmem2
        exact hmem (hsuccsi ▸
          (h.dual m (List.mem_range.2 hm) i (List.mem_range.2 hilt)).1 hmem2)
      have := hcpsame m hpredm
      rw [hcount0]
      omega
  · intro m hm
    rw [hready] at hm
    obtain ⟨hb, hr⟩ := h.readyBound m hm
    have hmi : m ≠ i := by
      intro he
      subst he
      rw [hstatei, hproc] at hr
      exact NState.noConfusion hr
    refine ⟨by rw [hlen]; exact hb, ?_⟩
    rw [hstate]
    simp [hmi, hr]
  · intro m hm hr
    rw [List.mem_range, hlen] at hm
    rw [hstate] at hr
    rw [hready]
    by_cases hmi : m = i
    · simp [hmi] at hr
    · simp [hmi] at hr
      exact h.readyComplete m (List.mem_range.2 hm) hr
  · rw [hready]
    exact h.readyNodup
  · intro m hm hst
    rw [List.mem_range, hlen] at hm
    rw [hstate] at hst
    rw [hindeg]
    by_cases hmi : m = i
    · subst hmi
      exact hindegi0
    · simp [hmi] at hst
      exact h.zeroIndeg m (List.mem_range.2 hm) hst
  · intro hrun2 m hm hst
    rw [List.mem_range, hlen] at hm
    rw [hstate] at hst
    rw [hindeg]
    by_cases hmi : m = i
    · simp [hmi] at hst
    · simp [hmi] at hst
      rw [hstageEq] at hrun2
      exact h.runningNew hrun2 m (List.mem_range.2 hm) hst
  · intro hb
    rw [hstageEq, hrun] at hb
    exact Stage.noConfusion hb
  · intro k hk
    obtain ⟨hklt, hkst⟩ := hsvalid k hk
    have hki : k ≠ i := fun he => hnoself (he ▸ hk)
    refine ⟨by rw [hlen]; exact hklt, ?_⟩
    rw [hstate]
    simp [hki]
    exact hkst

theorem InvP_markRemoved_start {s : TS} {i : Nat} {nd : Node} (h : Inv s)
    (hnd : s.nodes[i]? = some nd) (hnr : nd.state = .NEW ∨ nd.state = .READY) :
    InvP { s with nodes := s.nodes.set i { nd with state := .REMOVED },
                  ready := s.ready.filter (fun k => decide (k ≠ i)) } nd.succs := by
  have hilt : i < s.nodes.length := lt_of_getElem?_node hnd
  set t : TS := { s with nodes := s.nodes.set i { nd with state := .REMOVED },
                         ready := s.ready.filter (fun k => decide (k ≠ i)) } with htdef
  have hlen : t.nodes.length = s.nodes.length := by simp [htdef]
  have hnodes' : ∀ m, t.nodes[m]? =
      if m = i then some { nd with state := .REMOVED } else s.nodes[m]? := fun m =>
    getElem?_set_node hnd _ m
  have hstate : ∀ m, stateOf t m = if m = i then .REMOVED else stateOf s m := by
    intro m
    unfold stateOf
    rw [hnodes' m]
    by_cases hm : m = i <;> simp [hm]
  have hindeg : ∀ m, indegOf t m = indegOf s m := by
    intro m
    unfold indegOf
    rw [hnodes' m]
    by_cases hm : m = i
    · subst hm
      simp [hnd]
    · simp [hm]
  have hsuccs : ∀ m, succsOf t m = succsOf s m := by
    intro m
    unfold succsOf
    rw [hnodes' m]
    by_cases hm : m = i
    · subst hm
      simp [hnd]
    · simp [hm]
  have hpreds : ∀ m, predsOf t m = predsOf s m := by
    intro m
    unfold predsOf
    rw [hnodes' m]
    by_cases hm : m = i
    · subst hm
      simp [hnd]
    · simp [hm]
  have hids : t.nodes.map Node.identity = s.nodes.map Node.identity :=
    map_identity_set hnd rfl
  have hready : t.ready = s.ready.filter (fun k => decide (k ≠ i)) := by simp [htdef]
  have hstageEq : t.stage = s.stage := by simp [htdef]
  have hcounted : ∀ m, counted t m = if m = i then false else counted s m := by
    intro m
    unfold counted
    rw [hnodes' m]
    by_cases hm : m = i <;> simp [hm]
  have hcountedi : counted s i = true := by
    unfold counted
    rw [hnd]
    rcases hnr with h1 | h1 <;> simp [h1]
  have hsuccsi : succsOf s i = nd.succs := by
    unfold succsOf
    rw [hnd]
  have hstatei : stateOf s i = nd.state := stateOf_eq_of_getElem? hnd
  have hcpdrop : ∀ m, i ∈ predsOf s m → countedPreds t m + 1 = countedPreds s m := by
    intro m hmem
    unfold countedPreds
    rw [hpreds m]
    have hmlt : m < s.nodes.length := predsOf_lt_of_mem hmem
    refine filter_length_drop_mem _ _ i (h.predsNodup m (List.mem_range.2 hmlt)) hmem
      hcountedi (by simp [hcounted]) ?_
    intro j hj
    simp [hcounted, hj]
  have hcpsame : ∀ m, i ∉ predsOf s m → countedPreds t m = countedPreds s m := by
    intro m hnmem
    unfold countedPreds
    rw [hpreds m]
    refine filter_length_agree _ _ i hnmem ?_
    intro j hj
    simp [hcounted, hj]
  have hsvalid : ∀ k ∈ nd.succs, k < s.nodes.length ∧
      (stateOf s k = .NEW ∨ stateOf s k = .REMOVED) := by
    intro k hk
    have hklt : k < s.nodes.length :=
      h.wfSuccs i (List.mem_range.2 hilt) k (hsuccsi ▸ hk)
    have hpredk : i ∈ predsOf s k :=
      (h.dual k (List.mem_range.2 hklt) i (List.mem_range.2 hilt)).2
        (hsuccsi ▸ hk)
    have hpos := countedPreds_pos_of_counted_pred hpredk hcountedi
    have hik := h.indeg k (List.mem_range.2 hklt)
    simp at hik
    exact ⟨hklt, state_terminalish_of_pos_indeg h hklt (by omega)⟩
  refine ⟨?_, ?_, ?_, ?_, ?_, ?_, ?_, ?_, ?_, ?_, ?_, ?_, ?_, ?_⟩
  · intro a ha j hj
    rw [List.mem_range, hlen] at ha
    rw [hsuccs] at hj
    rw [hlen]
    exact h.wfSuccs a (List.mem_range.2 ha) j hj
  · intro a ha j hj
    rw [List.mem_range, hlen] at ha
    rw [hpreds] at hj
    rw [hlen]
    exact h.wfPreds a (List.mem_range.2 ha) j hj
  · rw [hids]
    exact h.idsNodup
  · intro a ha
    rw [hpreds]
    rw [List.mem_range, hlen] at ha
    exact h.predsNodup a (List.mem_range.2 ha)
  · intro a ha
    rw [hsuccs]
    rw [List.mem_range, hlen] at ha
    exact h.succsNodup a (List.mem_range.2 ha)
  · intro a ha j hj
    rw [List.mem_range, hlen] at ha hj
    rw [hpreds, hsuccs]
    exact h.dual a (List.mem_range.2 ha) j (List.mem_range.2 hj)
  · intro m hm
    rw [List.mem_range, hlen] at hm
    rw [hindeg]
    have hbase := h.indeg m (List.mem_range.2 hm)
    simp at hbase
    by_cases hmem : m ∈ nd.succs
    · have hcount1 : nd.succs.count m = 1 :=
        List.count_eq_one_of_mem (hsuccsi ▸ h.succsNodup i (List.mem_range.2 hilt)) hmem
      have hpredm : i ∈ predsOf s m :=
        (h.dual m (List.mem_range.2 hm) i (List.mem_range.2 hilt)).2
          (hsuccsi ▸ hmem)
      have := hcpdrop m hpredm
      rw [hcount1]
      omega
    · have hcount0 : nd.succs.count m = 0 := List.count_eq_zero.2 hmem
      have hpredm : i ∉ predsOf s m := by
        intro hmem2
        exact hmem (hsuccsi ▸
          (h.dual m (List.mem_range.2 hm) i (List.mem_range.2 hilt)).1 hmem2)
      have := hcpsame m hpredm
      rw [hcount0]
      omega
  · intro m hm
    rw [hready] at hm
    have hm2 := List.mem_filter.1 hm
    have hmi : m ≠ i := by simpa using hm2.2
    obtain ⟨hb, hr⟩ := h.readyBound m hm2.1
    refine ⟨by rw [hlen]; exact hb, ?_⟩
    rw [hstate]
    simp [hmi, hr]
  · intro m hm hr
    rw [List.mem_range, hlen] at hm
    rw [hstate] at hr
    rw [hready]
    by_cases hmi : m = i
    · simp [hmi] at hr
    · simp [hmi] at hr
      refine List.mem_filter.2 ⟨h.readyComplete m (List.mem_range.2 hm) hr, ?_⟩
      simpa using hmi
  · rw [hready]
    exact h.readyNodup.filter _
  · intro m hm hst
    rw [List.mem_range, hlen] at hm
    rw [hstate] at hst
    rw [hindeg]
    by_cases hmi : m = i
    · simp [hmi] at hst
    · simp [hmi] at hst
      exact h.zeroIndeg m (List.mem_range.2 hm) hst
  · intro hrun2 m hm hst
    rw [List.mem_range, hlen] at hm
    rw [hstate] at hst
    rw [hindeg]
    by_cases hmi : m = i
    · simp [hmi] at hst
    · simp [hmi] at hst
      rw [hstageEq] at hrun2
      exact h.runningNew hrun2 m (List.mem_range.2 hm) hst
  · intro hb m hm
    rw [hstageEq] at hb
    rw [List.mem_range, hlen] at hm
    rw [hstate]
    by_cases hmi : m = i
    · simp [hmi]
    · simp [hmi]
      exact h.buildingStates hb m (List.mem_range.2 hm)
  · intro k hk
    obtain ⟨hklt, hkst⟩ := hsvalid k hk
    refine ⟨by rw [hlen]; exact hklt, ?_⟩
    rw [hstate]
    by_cases hki : k = i
    · simp [hki]
    · simp [hki]
      exact hkst

theorem getElem?_some_of_stateOf {s : TS} {i : Nat} (h : stateOf s i ≠ .REMOVED) :
    ∃ nd, s.nodes[i]? = some nd := by
  unfold stateOf at h
  cases hnd : s.nodes[i]? with
  | none => rw [hnd] at h; simp at h
  | some nd => exact ⟨nd, rfl⟩

theorem markDone_eq {s : TS} {i : Nat} {nd : Node} (hnd : s.nodes[i]? = some nd) :
    markDone s i =
      nd.succs.foldl decSucc
        { s with nodes := s.nodes.set i { nd with state := .DONE } } := by
  unfold markDone
  rw [hnd]

theorem markRemoved_eq {s : TS} {i : Nat} {nd : Node} (hnd : s.nodes[i]? = some nd) :
    markRemoved s i =
      nd.succs.foldl decSucc
        { s with nodes := s.nodes.set i { nd with state := .REMOVED },
                 ready := s.ready.filter (fun k => decide (k ≠ i)) } := by
  unfold markRemoved
  rw [hnd]

theorem Inv_markDone {s : TS} {i : Nat} (h : Inv s)
    (hproc : stateOf s i = .PROCESSING) : Inv (markDone s i) := by
  obtain ⟨nd, hnd⟩ := @getElem?_some_of_stateOf s i (by rw [hproc]; simp)
  have hnds : nd.state = .PROCESSING := by
    rw [stateOf_eq_of_getElem? hnd] at hproc
    exact hproc
  rw [markDone_eq hnd]
  exact InvP_foldl_decSucc nd.succs _ (InvP_markDone_start h hnd hnds)

theorem Inv_markRemoved {s : TS} {i : Nat} (h : Inv s)
    (hnr : stateOf s i = .NEW ∨ stateOf s i = .READY) : Inv (markRemoved s i) := by
  obtain ⟨nd, hnd⟩ := @getElem?_some_of_stateOf s i
    (by rcases hnr with h1 | h1 <;> rw [h1] <;> simp)
  have hnds : nd.state = .NEW ∨ nd.state = .READY := by
    rw [stateOf_eq_of_getElem? hnd] at hnr
    exact hnr
  rw [markRemoved_eq hnd]
  exact InvP_foldl_decSucc nd.succs _ (InvP_markRemoved_start h hnd hnds)

theorem decSucc_state_cases (s : TS) (j k : Nat) :
    stateOf (decSucc s j) k = stateOf s k ∨
      (stateOf s k = .NEW ∧ stateOf (decSucc s j) k = .READY) := by
  cases hnd : s.nodes[j]? with
  | none => rw [decSucc_nodes_none hnd]; exact Or.inl rfl
  | some nd =>
    have hchar := decSucc_nodes hnd k
    by_cases hk : k = j
    · subst hk
      by_cases hc : s.stage = .RUNNING ∧ nd.state = .NEW ∧ nd.indegree = 1
      · right
        constructor
        · rw [stateOf_eq_of_getElem? hnd]
          exact hc.2.1
        · unfold stateOf
          rw [hchar]
          simp [hc]
      · left
        unfold stateOf
        rw [hchar, hnd]
        simp [hc]
    · left
      exact stateOf_congr (by rw [hchar]; simp [hk])

theorem foldl_decSucc_state_cases (L : List Nat) (s : TS) (k : Nat) :
    stateOf (L.foldl decSucc s) k = stateOf s k ∨
      (stateOf s k = .NEW ∧ stateOf (L.foldl decSucc s) k = .READY) := by
  induction L generalizing s with
  | nil => exact Or.inl rfl
  | cons j rest ih =>
    simp only [List.foldl_cons]
    rcases decSucc_state_cases s j k with h1 | h1
    · rcases ih (decSucc s j) with h2 | h2
      · exact Or.inl (h2.trans h1)
      · exact Or.inr ⟨h1 ▸ h2.1, h2.2⟩
    · rcases ih (decSucc s j) with h2 | h2
      · exact Or.inr ⟨h1.1, h2.trans h1.2⟩
      · rw [h1.2] at h2
        exact NState.noConfusion h2.1

theorem stateOf_markDone_self {s : TS} {i : Nat} {nd : Node}
    (hnd : s.nodes[i]? = some nd) : stateOf (markDone s i) i = .DONE := by
  rw [markDone_eq hnd]
  set t : TS := { s with nodes := s.nodes.set i { nd with state := .DONE } } with htdef
  have hti : stateOf t i = .DONE := by
    unfold stateOf
    rw [getElem?_set_node hnd _ i]
    simp
  rcases foldl_decSucc_state_cases nd.succs t i with h1 | h1
  · rw [h1, hti]
  · rw [hti] at h1
    exact absurd h1.1 (by simp)

theorem stateOf_markDone_other {s : TS} {i k : Nat} (hk : k ≠ i) :
    stateOf (markDone s i) k = stateOf s k ∨
      (stateOf s k = .NEW ∧ stateOf (markDone s i) k = .READY) := by
  cases hnd : s.nodes[i]? with
  | none =>
    unfold markDone
    rw [hnd]
    exact Or.inl rfl
  | some nd =>
    rw [markDone_eq hnd]
    set t : TS := { s with nodes := s.nodes.set i { nd with state := .DONE } } with htdef
    have htk : stateOf t k = stateOf s k :=
      stateOf_congr (by rw [getElem?_set_node hnd _ k]; simp [hk])
    rcases foldl_decSucc_state_cases nd.succs t k with h1 | h1
    · exact Or.inl (h1.trans htk)
    · exact Or.inr ⟨htk ▸ h1.1, h1.2⟩

theorem stateOf_markRemoved_self {s : TS} {i : Nat} {nd : Node}
    (hnd : s.nodes[i]? = some nd) : stateOf (markRemoved s i) i = .REMOVED := by
  rw [markRemoved_eq hnd]
  set t : TS := { s with nodes := s.nodes.set i { nd with state := .REMOVED },
                         ready := s.ready.filter (fun k => decide (k ≠ i)) } with htdef
  have hti : stateOf t i = .REMOVED := by
    unfold stateOf
    rw [getElem?_set_node hnd _ i]
    simp
  rcases foldl_decSucc_state_cases nd.succs t i with h1 | h1
  · rw [h1, hti]
  · rw [hti] at h1
    exact absurd h1.1 (by simp)

theorem stateOf_markRemoved_other {s : TS} {i k : Nat} (hk : k ≠ i) :
    stateOf (markRemoved s i) k = stateOf s k ∨
      (stateOf s k = .NEW ∧ stateOf (markRemoved s i) k = .READY) := by
  cases hnd : s.nodes[i]? with
  | none =>
    unfold markRemoved
    rw [hnd]
    exact Or.inl rfl
  | some nd =>
    rw [markRemoved_eq hnd]
    set t : TS := { s with nodes := s.nodes.set i { nd with state := .REMOVED },
                           ready := s.ready.filter (fun k => decide (k ≠ i)) } with htdef
    have htk : stateOf t k = stateOf s k :=
      stateOf_congr (by rw [getElem?_set_node hnd _ k]; simp [hk])
    rcases foldl_decSucc_state_cases nd.succs t k with h1 | h1
    · exact Or.inl (h1.trans htk)
    · exact Or.inr ⟨htk ▸ h1.1, h1.2⟩

theorem foldl_markDone_state_other (ids : List Nat) (s : TS) (k : Nat)
    (hk : k ∉ ids) :
    stateOf (ids.foldl markDone s) k = stateOf s k ∨
      (stateOf s k = .NEW ∧ stateOf (ids.foldl markDone s) k = .READY) := by
  induction ids generalizing s with
  | nil => exact Or.inl rfl
  | cons i rest ih =>
    simp only [List.foldl_cons]
    have hki : k ≠ i := fun he => hk (he ▸ List.mem_cons_self i rest)
    have hkr : k ∉ rest := fun hm => hk (List.mem_cons_of_mem i hm)
    rcases stateOf_markDone_other hki with h1 | h1
    · rcases ih (markDone s i) hkr with h2 | h2
      · exact Or.inl (h2.trans h1)
      · exact Or.inr ⟨h1 ▸ h2.1, h2.2⟩
    · rcases ih (markDone s i) hkr with h2 | h2
      · exact Or.inr ⟨h1.1, h2.trans h1.2⟩
      · rw [h1.2] at h2
        exact NState.noConfusion h2.1

theorem stateOf_foldl_markDone_mem (ids : List Nat) (s : TS)
    (hnodup : ids.Nodup) (hall : ∀ i ∈ ids, stateOf s i = .PROCESSING) :
    ∀ k ∈ ids, stateOf (ids.foldl markDone s) k = .DONE := by
  induction ids generalizing s with
  | nil => simp
  | cons i rest ih =>
    intro k hk
    simp only [List.foldl_cons]
    have hpi : stateOf s i = .PROCESSING := hall i (List.mem_cons_self i rest)
    obtain ⟨nd, hnd⟩ := @getElem?_some_of_stateOf s i
      (by rw [hpi]; simp)
    simp at hnodup
    have hrest : ∀ j ∈ rest, stateOf (markDone s i) j = .PROCESSING := by
      intro j hj
      have hji : j ≠ i := fun he => hnodup.1 (he ▸ hj)
      rcases stateOf_markDone_other hji with h1 | h1
      · rw [h1]
        exact hall j (List.mem_cons_of_mem i hj)
      · rw [hall j (List.mem_cons_of_mem i hj)] at h1
        exact absurd h1.1 (by simp)
    rcases List.mem_cons.1 hk with hk1 | hk1
    · subst hk1
      have hdone : stateOf (markDone s k) k = .DONE := stateOf_markDone_self hnd
      have hknr : k ∉ rest := hnodup.1
      rcases foldl_markDone_state_other rest (markDone s k) k hknr with h1 | h1
      · rw [h1, hdone]
      · rw [hdone] at h1
        exact absurd h1.1 (by simp)
    · exact ih (markDone s i) hnodup.2 hrest k hk1

theorem Inv_foldl_markDone (ids : List Nat) (s : TS) (h : Inv s)
    (hnodup : ids.Nodup) (hall : ∀ i ∈ ids, stateOf s i = .PROCESSING) :
    Inv (ids.foldl markDone s) := by
  induction ids generalizing s with
  | nil => exact h
  | cons i rest ih =>
    simp only [List.foldl_cons]
    have hpi : stateOf s i = .PROCESSING := hall i (List.mem_cons_self i rest)
    simp at hnodup
    have hrest : ∀ j ∈ rest, stateOf (markDone s i) j = .PROCESSING := by
      intro j hj
      have hji : j ≠ i := fun he => hnodup.1 (he ▸ hj)
      rcases stateOf_markDone_other hji with h1 | h1
      · rw [h1]
        exact hall j (List.mem_cons_of_mem i hj)
      · rw [hall j (List.mem_cons_of_mem i hj)] at h1
        exact absurd h1.1 (by simp)
    exact ih (markDone s i) (Inv_markDone h hpi) hnodup.2 hrest

theorem Inv_foldl_markRemoved (ids : List Nat) (s : TS) (h : Inv s)
    (hnodup : ids.Nodup)
    (hall : ∀ i ∈ ids, stateOf s i = .NEW ∨ stateOf s i = .READY) :
    Inv (ids.foldl markRemoved s) := by
  induction ids generalizing s with
  | nil => exact h
  | cons i rest ih =>
    simp only [List.foldl_cons]
    have hpi := hall i (List.mem_cons_self i rest)
    simp at hnodup
    have hrest : ∀ j ∈ rest,
        stateOf (markRemoved s i) j = .NEW ∨ stateOf (markRemoved s i) j = .READY := by
      intro j hj
      have hji : j ≠ i := fun he => hnodup.1 (he ▸ hj)
      rcases stateOf_markRemoved_other hji with h1 | h1
      · rw [h1]
        exact hall j (List.mem_cons_of_mem i hj)
      · exact Or.inr h1.2
    exact ih (markRemoved s i) (Inv_markRemoved h hpi) hnodup.2 hrest

theorem Inv_done (s : TS) (xs : List Nat) (h : Inv s) : Inv (done s xs).1 := by
  unfold done
  by_cases hst : s.stage = .RUNNING
  · simp only [hst, if_true]
    cases hres : resolveAll s xs with
    | none => exact h
    | some ids =>
      simp only []
      by_cases hval : ids.Nodup ∧ ∀ i ∈ ids, stateOf s i = .PROCESSING
      · rw [if_pos hval]
        exact Inv_foldl_markDone ids s h hval.1 hval.2
      · rw [if_neg hval]
        exact h
  · simp only [hst, if_false]
    exact h

theorem Inv_remove_nodes (s : TS) (xs : List Nat) (h : Inv s) :
    Inv (remove_nodes s xs).1 := by
  unfold remove_nodes
  cases hres : resolveAll s xs with
  | none => exact h
  | some ids =>
    simp only []
    by_cases hval : ids.Nodup ∧ ∀ i ∈ ids, stateOf s i = .NEW ∨ stateOf s i = .READY
    · rw [if_pos hval]
      exact Inv_foldl_markRemoved ids s h hval.1 hval.2
    · rw [if_neg hval]
      exact h

theorem getElem?_modifyNode_self2 {ns : List Node} {i : Nat} (f : Node → Node) :
    (modifyNode ns i f)[i]? = (ns[i]?).map f := by
  cases h : ns[i]? with
  | none =>
    unfold modifyNode
    rw [h]
    simp [h]
  | some nd =>
    simp [getElem?_modifyNode_self f h, h]

theorem getElem?_foldl_modify (f : Node → Node) (L : List Nat) :
    ∀ (ns : List Node) (k : Nat), L.Nodup →
    (L.foldl (fun acc i => modifyNode acc i f) ns)[k]? =
      if k ∈ L then (ns[k]?).map f else ns[k]? := by
  induction L with
  | nil => intro ns k _; simp
  | cons i rest ih =>
    intro ns k hnodup
    simp at hnodup
    simp only [List.foldl_cons]
    rw [ih (modifyNode ns i f) k hnodup.2]
    by_cases hkr : k ∈ rest
    · have hki : k ≠ i := fun he => hnodup.1 (he ▸ hkr)
      rw [if_pos hkr, if_pos (List.mem_cons_of_mem i hkr)]
      rw [getElem?_modifyNode_ne f hki]
    · rw [if_neg hkr]
      by_cases hki : k = i
      · subst hki
        rw [if_pos (List.mem_cons_self k rest)]
        exact getElem?_modifyNode_self2 f
      · rw [getElem?_modifyNode_ne f hki, if_neg (by simp [hki, hkr])]

theorem length_foldl_modify (f : Node → Node) (L : List Nat) (ns : List Node) :
    (L.foldl (fun acc i => modifyNode acc i f) ns).length = ns.length := by
  induction L generalizing ns with
  | nil => rfl
  | cons i rest ih => simp only [List.foldl_cons]; rw [ih, length_modifyNode]

theorem get_ready_eq_running {s : TS} (hst : s.stage = .RUNNING) :
    get_ready s = (s.ready.map (identityOf s),
      { s with nodes := processReady s, ready := [] }, none) := by
  unfold get_ready
  rw [if_pos hst]

theorem Inv_get_ready (s : TS) (h : Inv s) : Inv (get_ready s).2.1 := by
  by_cases hst : s.stage = .RUNNING
  · rw [get_ready_eq_running hst]
    set f : Node → Node := fun nd => { nd with state := .PROCESSING } with hfdef
    set t : TS := { s with nodes := processReady s, ready := [] } with htdef
    show Inv t
    have hnodes' : ∀ k, t.nodes[k]? =
        if k ∈ s.ready then (s.nodes[k]?).map f else s.nodes[k]? := by
      intro k
      exact getElem?_foldl_modify f s.ready s.nodes k h.readyNodup
    have hlen : t.nodes.length = s.nodes.length := length_foldl_modify f s.ready s.nodes
    have hready : t.ready = [] := rfl
    have hstage : t.stage = s.stage := rfl
    have hsome : ∀ k ∈ s.ready, ∃ nd, s.nodes[k]? = some nd := by
      intro k hk
      exact getElem?_some_of_stateOf (by rw [(h.readyBound k hk).2]; simp)
    have hstate : ∀ k, stateOf t k =
        if k ∈ s.ready then .PROCESSING else stateOf s k := by
      intro k
      unfold stateOf
      rw [hnodes' k]
      by_cases hk : k ∈ s.ready
      · obtain ⟨nd, hnd⟩ := hsome k hk
        simp [hk, hnd, hfdef]
      · simp [hk]
    have hindeg : ∀ k, indegOf t k = indegOf s k := by
      intro k
      unfold indegOf
      rw [hnodes' k]
      by_cases hk : k ∈ s.ready
      · rw [if_pos hk]
        cases s.nodes[k]? <;> rfl
      · rw [if_neg hk]
    have hsuccs : ∀ k, succsOf t k = succsOf s k := by
      intro k
      unfold succsOf
      rw [hnodes' k]
      by_cases hk : k ∈ s.ready
      · rw [if_pos hk]
        cases s.nodes[k]? <;> rfl
      · rw [if_neg hk]
    have hpreds : ∀ k, predsOf t k = predsOf s k := by
      intro k
      unfold predsOf
      rw [hnodes' k]
      by_cases hk : k ∈ s.ready
      · rw [if_pos hk]
        cases s.nodes[k]? <;> rfl
      · rw [if_neg hk]
    have hcounted : ∀ k, counted t k = counted s k := by
      intro k
      unfold counted
      rw [hnodes' k]
      by_cases hk : k ∈ s.ready
      · rw [if_pos hk]
        obtain ⟨nd, hnd⟩ := hsome k hk
        rw [hnd]
        have := (h.readyBound k hk).2
        rw [stateOf_eq_of_getElem? hnd] at this
        simp [this]
      · rw [if_neg hk]
    have hcp : ∀ m, countedPreds t m = countedPreds s m := fun m =>
      countedPreds_congr (hpreds m) hcounted
    have hids : t.nodes.map Node.identity = s.nodes.map Node.identity := by
      apply List.ext_getElem?
      intro m
      simp only [List.getElem?_map]
      rw [hnodes' m]
      by_cases hm : m ∈ s.ready
      · rw [if_pos hm]
        cases s.nodes[m]? <;> rfl
      · rw [if_neg hm]
    refine ⟨?_, ?_, ?_, ?_, ?_, ?_, ?_, ?_, ?_, ?_, ?_, ?_, ?_, ?_⟩
    · intro a ha j hj
      rw [List.mem_range, hlen] at ha
      rw [hsuccs] at hj
      rw [hlen]
      exact h.wfSuccs a (List.mem_range.2 ha) j hj
    · intro a ha j hj
      rw [List.mem_range, hlen] at ha
      rw [hpreds] at hj
      rw [hlen]
      exact h.wfPreds a (List.mem_range.2 ha) j hj
    · rw [hids]
      exact h.idsNodup
    · intro a ha
      rw [hpreds]
      rw [List.mem_range, hlen] at ha
      exact h.predsNodup a (List.mem_range.2 ha)
    · intro a ha
      rw [hsuccs]
      rw [List.mem_range, hlen] at ha
      exact h.succsNodup a (List.mem_range.2 ha)
    · intro a ha j hj
      rw [List.mem_range, hlen] at ha hj
      rw [hpreds, hsuccs]
      exact h.dual a (List.mem_range.2 ha) j (List.mem_range.2 hj)
    · intro m hm
      rw [List.mem_range, hlen] at hm
      rw [hindeg, hcp]
      have := h.indeg m (List.mem_range.2 hm)
      simpa using this
    · intro m hm
      rw [hready] at hm
      simp at hm
    · intro m hm hr
      rw [List.mem_range, hlen] at hm
      rw [hstate] at hr
      by_cases hmr : m ∈ s.ready
      · rw [if_pos hmr] at hr
        exact NState.noConfusion hr
      · rw [if_neg hmr] at hr
        exact absurd (h.readyComplete m (List.mem_range.2 hm) hr) hmr
    · rw [hready]
      exact List.nodup_nil
    · intro m hm hst2
      rw [List.mem_range, hlen] at hm
      rw [hindeg]
      rw [hstate] at hst2
      by_cases hmr : m ∈ s.ready
      · exact h.zeroIndeg m (List.mem_range.2 hm) (Or.inl (h.readyBound m hmr).2)
      · rw [if_neg hmr] at hst2
        exact h.zeroIndeg m (List.mem_range.2 hm) hst2
    · intro hrun m hm hst2
      rw [List.mem_range, hlen] at hm
      rw [hstate] at hst2
      rw [hindeg]
      by_cases hmr : m ∈ s.ready
      · rw [if_pos hmr] at hst2
        exact NState.noConfusion hst2
      · rw [if_neg hmr] at hst2
        exact h.runningNew hst m (List.mem_range.2 hm) hst2
    · intro hb
      rw [hstage, hst] at hb
      exact Stage.noConfusion hb
    · intro k hk
      simp at hk
  · unfold get_ready
    rw [if_neg hst]
    exact h

theorem prepare_eq_ok {s : TS} (hst : s.stage = .BUILDING)
    (hdc : detectCycle s = none) :
    prepare s = ({ nodes := promoteNodes s, ready := initialReady s,
                   stage := .RUNNING }, none) := by
  unfold prepare
  rw [if_pos hst, hdc]

theorem prepare_eq_cycle {s : TS} (hst : s.stage = .BUILDING) {c : List Nat}
    (hdc : detectCycle s = some c) :
    prepare s = (s, some (.cycle (c.map (identityOf s)))) := by
  unfold prepare
  rw [if_pos hst, hdc]

theorem prepare_eq_notBuilding {s : TS} (hst : s.stage ≠ .BUILDING) :
    prepare s = (s, some .notBuilding) := by
  unfold prepare
  rw [if_neg hst]

theorem promoteNodes_getElem? (s : TS) (k : Nat) :
    (promoteNodes s)[k]? = (s.nodes[k]?).map (fun nd =>
      if nd.state = .NEW ∧ nd.indegree = 0 then { nd with state := .READY } else nd) := by
  unfold promoteNodes
  rw [List.getElem?_map]

theorem mem_initialReady {s : TS} {i : Nat} :
    i ∈ initialReady s ↔
      i < s.nodes.length ∧ stateOf s i = .NEW ∧ indegOf s i = 0 := by
  unfold initialReady
  rw [List.mem_filter, List.mem_range]
  simp

theorem Inv_prepare (s : TS) (h : Inv s) : Inv (prepare s).1 := by
  by_cases hst : s.stage = .BUILDING
  · cases hdc : detectCycle s with
    | some c =>
      rw [prepare_eq_cycle hst hdc]
      exact h
    | none =>
      rw [prepare_eq_ok hst hdc]
      set t : TS := { nodes := promoteNodes s, ready := initialReady s,
                      stage := .RUNNING } with htdef
      show Inv t
      set pf : Node → Node := fun nd =>
        if nd.state = .NEW ∧ nd.indegree = 0 then { nd with state := .READY } else nd
        with hpfdef
      have hnodes2 : ∀ k, t.nodes[k]? = (s.nodes[k]?).map pf := fun k =>
        promoteNodes_getElem? s k
      have hlen : t.nodes.length = s.nodes.length := by
        show (promoteNodes s).length = s.nodes.length
        unfold promoteNodes
        rw [List.length_map]
      have hstate : ∀ k, stateOf t k =
          if stateOf s k = .NEW ∧ indegOf s k = 0 then .READY else stateOf s k := by
        intro k
        unfold stateOf indegOf
        rw [hnodes2 k]
        cases hnd : s.nodes[k]? with
        | none => simp
        | some nd =>
          simp only [Option.map_some', hpfdef]
          by_cases hc : nd.state = .NEW ∧ nd.indegree = 0
          · rw [if_pos hc, if_pos hc]
          · rw [if_neg hc, if_neg hc]
      have hindeg : ∀ k, indegOf t k = indegOf s k := by
        intro k
        unfold indegOf
        rw [hnodes2 k]
        cases hnd : s.nodes[k]? with
        | none => simp
        | some nd =>
          simp only [Option.map_some', hpfdef]
          by_cases hc : nd.state = .NEW ∧ nd.indegree = 0
          · rw [if_pos hc]
          · rw [if_neg hc]
      have hsuccs : ∀ k, succsOf t k = succsOf s k := by
        intro k
        unfold succsOf
        rw [hnodes2 k]
        cases hnd : s.nodes[k]? with
        | none => simp
        | some nd =>
          simp only [Option.map_some', hpfdef]
          by_cases hc : nd.state = .NEW ∧ nd.indegree = 0
          · rw [if_pos hc]
          · rw [if_neg hc]
      have hpreds : ∀ k, predsOf t k = predsOf s k := by
        intro k
        unfold predsOf
        rw [hnodes2 k]
        cases hnd : s.nodes[k]? with
        | none => simp
        | some nd =>
          simp only [Option.map_some', hpfdef]
          by_cases hc : nd.state = .NEW ∧ nd.indegree = 0
          · rw [if_pos hc]
          · rw [if_neg hc]
      have hcounted : ∀ k, counted t k = counted s k := by
        intro k
        unfold counted
        rw [hnodes2 k]
        cases hnd : s.nodes[k]? with
        | none => simp
        | some nd =>
          simp only [Option.map_some', hpfdef]
          by_cases hc : nd.state = .NEW ∧ nd.indegree = 0
          · rw [if_pos hc]
            simp [hc.1]
          · rw [if_neg hc]
      have hcp : ∀ m, countedPreds t m = countedPreds s m := fun m =>
        countedPreds_congr (hpreds m) hcounted
      have hids : t.nodes.map Node.identity = s.nodes.map Node.identity := by
        apply List.ext_getElem?
        intro m
        simp only [List.getElem?_map]
        rw [hnodes2 m]
        cases hnd : s.nodes[m]? with
        | none => simp
        | some nd =>
          simp only [Option.map_some', hpfdef]
          by_cases hc : nd.state = .NEW ∧ nd.indegree = 0
          · rw [if_pos hc]
          · rw [if_neg hc]
      have hready : t.ready = initialReady s := rfl
      have hstage : t.stage = .RUNNING := rfl
      refine ⟨?_, ?_, ?_, ?_, ?_, ?_, ?_, ?_, ?_, ?_, ?_, ?_, ?_, ?_⟩
      · intro a ha j hj
        rw [List.mem_range, hlen] at ha
        rw [hsuccs] at hj
        rw [hlen]
        exact h.wfSuccs a (List.mem_range.2 ha) j hj
      · intro a ha j hj
        rw [List.mem_range, hlen] at ha
        rw [hpreds] at hj
        rw [hlen]
        exact h.wfPreds a (List.mem_range.2 ha) j hj
      · rw [hids]
        exact h.idsNodup
      · intro a ha
        rw [hpreds]
        rw [List.mem_range, hlen] at ha
        exact h.predsNodup a (List.mem_range.2 ha)
      · intro a ha
        rw [hsuccs]
        rw [List.mem_range, hlen] at ha
        exact h.succsNodup a (List.mem_range.2 ha)
      · intro a ha j hj
        rw [List.mem_range, hlen] at ha hj
        rw [hpreds, hsuccs]
        exact h.dual a (List.mem_range.2 ha) j (List.mem_range.2 hj)
      · intro m hm
        rw [List.mem_range, hlen] at hm
        rw [hindeg, hcp]
        have := h.indeg m (List.mem_range.2 hm)
        simpa using this
      · intro m hm
        rw [hready] at hm
        obtain ⟨hmlt, hmn, hmi⟩ := mem_initialReady.1 hm
        refine ⟨by rw [hlen]; exact hmlt, ?_⟩
        rw [hstate]
        rw [if_pos ⟨hmn, hmi⟩]
      · intro m hm hr
        rw [List.mem_range, hlen] at hm
        rw [hstate] at hr
        rw [hready]
        by_cases hc : stateOf s m = .NEW ∧ indegOf s m = 0
        · exact mem_initialReady.2 ⟨hm, hc.1, hc.2⟩
        · rw [if_neg hc] at hr
          rcases h.buildingStates hst m (List.mem_range.2 hm) with h1 | h1 <;>
            rw [h1] at hr <;> exact NState.noConfusion hr
      · rw [hready]
        unfold initialReady
        exact (List.nodup_range _).filter _
      · intro m hm hst2
        rw [List.mem_range, hlen] at hm
        rw [hstate] at hst2
        rw [hindeg]
        by_cases hc : stateOf s m = .NEW ∧ indegOf s m = 0
        · exact hc.2
        · rw [if_neg hc] at hst2
          exact h.zeroIndeg m (List.mem_range.2 hm) hst2
      · intro _ m hm hst2
        rw [List.mem_range, hlen] at hm
        rw [hstate] at hst2
        rw [hindeg]
        by_cases hc : stateOf s m = .NEW ∧ indegOf s m = 0
        · rw [if_pos hc] at hst2
          exact NState.noConfusion hst2
        · rw [if_neg hc] at hst2
          rcases Nat.eq_zero_or_pos (indegOf s m) with h0 | h0
          · exact absurd ⟨hst2, h0⟩ hc
          · exact h0
      · intro hb
        rw [hstage] at hb
        exact Stage.noConfusion hb
      · intro k hk
        simp at hk
  · rw [prepare_eq_notBuilding hst]
    exact h

theorem addEdge_mem {s : TS} {nid pid : Nat} (hmem : pid ∈ predsOf s nid) :
    addEdge s nid pid = s := by
  unfold addEdge
  rw [if_pos hmem]

theorem addEdge_nodes {s : TS} {nid pid : Nat} {ndn : Node}
    (hndn : s.nodes[nid]? = some ndn) (hnm : pid ∉ predsOf s nid) (k : Nat) :
    (addEdge s nid pid).nodes[k]? =
      if k = pid then
        ((if k = nid then some (addPredUpd s pid ndn) else s.nodes[k]?).map
          (fun m => { m with succs := m.succs ++ [nid] }))
      else if k = nid then some (addPredUpd s pid ndn) else s.nodes[k]? := by
  unfold addEdge
  rw [if_neg hnm]
  have h1 : ∀ m, (modifyNode s.nodes nid (addPredUpd s pid))[m]? =
      if m = nid then some (addPredUpd s pid ndn) else s.nodes[m]? := by
    intro m
    by_cases hm : m = nid
    · subst hm
      rw [getElem?_modifyNode_self _ hndn, if_pos rfl]
    · rw [getElem?_modifyNode_ne _ hm, if_neg hm]
  by_cases hk : k = pid
  · rw [if_pos hk, hk]
    show (modifyNode (modifyNode s.nodes nid (addPredUpd s pid)) pid _)[pid]? = _
    rw [getElem?_modifyNode_self2, h1 pid]
  · rw [if_neg hk]
    show (modifyNode (modifyNode s.nodes nid (addPredUpd s pid)) pid _)[k]? = _
    rw [getElem?_modifyNode_ne _ hk, h1 k]

theorem addEdge_predsOf {s : TS} {nid pid : Nat} {ndn : Node}
    (hndn : s.nodes[nid]? = some ndn) (hnm : pid ∉ predsOf s nid) (k : Nat) :
    predsOf (addEdge s nid pid) k =
      if k = nid then predsOf s k ++ [pid] else predsOf s k := by
  unfold predsOf
  rw [addEdge_nodes hndn hnm k]
  by_cases hk : k = pid <;> by_cases hkn : k = nid
  · subst hkn
    subst hk
    simp [hndn, addPredUpd]
  · rw [if_pos hk, if_neg hkn, if_neg hkn]
    cases s.nodes[k]? <;> simp
  · subst hkn
    rw [if_neg hk, if_pos rfl, if_pos rfl]
    simp [hndn, addPredUpd]
  · rw [if_neg hk, if_neg hkn, if_neg hkn]

theorem addEdge_succsOf {s : TS} {nid pid : Nat} {ndn : Node}
    (hndn : s.nodes[nid]? = some ndn) (hpid : pid < s.nodes.length)
    (hnm : pid ∉ predsOf s nid) (k : Nat) :
    succsOf (addEdge s nid pid) k =
      if k = pid then succsOf s k ++ [nid] else succsOf s k := by
  unfold succsOf
  rw [addEdge_nodes hndn hnm k]
  by_cases hk : k = pid <;> by_cases hkn : k = nid
  · subst hkn
    subst hk
    simp [hndn, addPredUpd]
  · subst hk
    have hndp : s.nodes[k]? = some s.nodes[k] := List.getElem?_eq_getElem hpid
    rw [if_pos rfl, if_neg hkn, if_pos rfl, hndp]
    simp
  · subst hkn
    rw [if_neg hk, if_pos rfl, if_neg hk]
    simp [hndn, addPredUpd]
  · rw [if_neg hk, if_neg hkn, if_neg hk]

theorem addEdge_stateOf {s : TS} {nid pid : Nat} {ndn : Node}
    (hndn : s.nodes[nid]? = some ndn) (hnm : pid ∉ predsOf s nid) (k : Nat) :
    stateOf (addEdge s nid pid) k = stateOf s k := by
  unfold stateOf
  rw [addEdge_nodes hndn hnm k]
  by_cases hk : k = pid <;> by_cases hkn : k = nid
  · subst hkn
    subst hk
    simp [hndn, addPredUpd]
  · rw [if_pos hk, if_neg hkn]
    cases s.nodes[k]? <;> simp
  · subst hkn
    rw [if_neg hk, if_pos rfl]
    simp [hndn, addPredUpd]
  · rw [if_neg hk, if_neg hkn]

theorem addEdge_indegOf {s : TS} {nid pid : Nat} {ndn : Node}
    (hndn : s.nodes[nid]? = some ndn) (hnm : pid ∉ predsOf s nid) (k : Nat) :
    indegOf (addEdge s nid pid) k =
      if k = nid then
        (if stateOf s pid ≠ .DONE ∧ stateOf s pid ≠ .REMOVED then indegOf s k + 1
         else indegOf s k)
      else indegOf s k := by
  unfold indegOf
  rw [addEdge_nodes hndn hnm k]
  by_cases hk : k = pid <;> by_cases hkn : k = nid
  · subst hkn
    subst hk
    by_cases hcnt : stateOf s k ≠ .DONE ∧ stateOf s k ≠ .REMOVED <;>
      simp [hndn, addPredUpd, hcnt]
  · rw [if_pos hk, if_neg hkn, if_neg hkn]
    cases s.nodes[k]? <;> simp
  · subst hkn
    rw [if_neg hk, if_pos rfl, if_pos rfl]
    by_cases hcnt : stateOf s pid ≠ .DONE ∧ stateOf s pid ≠ .REMOVED <;>
      simp [hndn, addPredUpd, hcnt]
  · rw [if_neg hk, if_neg hkn, if_neg hkn]

theorem addEdge_ids {s : TS} {nid pid : Nat} {ndn : Node}
    (hndn : s.nodes[nid]? = some ndn) (hnm : pid ∉ predsOf s nid) :
    (addEdge s nid pid).nodes.map Node.identity = s.nodes.map Node.identity := by
  apply List.ext_getElem?
  intro k
  simp only [List.getElem?_map]
  rw [addEdge_nodes hndn hnm k]
  by_cases hk : k = pid <;> by_cases hkn : k = nid
  · subst hkn
    subst hk
    simp [hndn, addPredUpd]
  · rw [if_pos hk, if_neg hkn]
    cases s.nodes[k]? <;> simp
  · subst hkn
    rw [if_neg hk, if_pos rfl]
    simp [hndn, addPredUpd]
  · rw [if_neg hk, if_neg hkn]

theorem addEdge_length {s : TS} {nid pid : Nat} :
    (addEdge s nid pid).nodes.length = s.nodes.length := by
  unfold addEdge
  by_cases hmem : pid ∈ predsOf s nid
  · rw [if_pos hmem]
  · rw [if_neg hmem]
    show (modifyNode (modifyNode s.nodes nid (addPredUpd s pid)) pid _).length = _
    rw [length_modifyNode, length_modifyNode]

theorem addEdge_ready {s : TS} {nid pid : Nat} :
    (addEdge s nid pid).ready = s.ready := by
  unfold addEdge
  by_cases hmem : pid ∈ predsOf s nid
  · rw [if_pos hmem]
  · rw [if_neg hmem]

theorem addEdge_stage {s : TS} {nid pid : Nat} :
    (addEdge s nid pid).stage = s.stage := by
  unfold addEdge
  by_cases hmem : pid ∈ predsOf s nid
  · rw [if_pos hmem]
  · rw [if_neg hmem]

theorem addEdge_counted {s : TS} {nid pid : Nat} {ndn : Node}
    (hndn : s.nodes[nid]? = some ndn) (hnm : pid ∉ predsOf s nid) (k : Nat) :
    counted (addEdge s nid pid) k = counted s k := by
  unfold counted
  rw [addEdge_nodes hndn hnm k]
  by_cases hk : k = pid <;> by_cases hkn : k = nid
  · subst hkn
    subst hk
    simp [hndn, addPredUpd]
  · rw [if_pos hk, if_neg hkn]
    cases s.nodes[k]? <;> simp
  · subst hkn
    rw [if_neg hk, if_pos rfl]
    simp [hndn, addPredUpd]
  · rw [if_neg hk, if_neg hkn]

theorem counted_true_iff {s : TS} {pid : Nat} (hpid : pid < s.nodes.length) :
    counted s pid = true ↔
      (stateOf s pid ≠ .DONE ∧ stateOf s pid ≠ .REMOVED) := by
  have hndp : s.nodes[pid]? = some s.nodes[pid] := List.getElem?_eq_getElem hpid
  unfold counted stateOf
  rw [hndp]
  simp

theorem Inv_addEdge {s : TS} {nid pid : Nat} (h : Inv s)
    (hst : s.stage = .BUILDING) (hnid : nid < s.nodes.length)
    (hpid : pid < s.nodes.length) : Inv (addEdge s nid pid) := by
  by_cases hmem : pid ∈ predsOf s nid
  · rw [addEdge_mem hmem]
    exact h
  · have hndn : s.nodes[nid]? = some s.nodes[nid] := List.getElem?_eq_getElem hnid
    have hpreds := addEdge_predsOf hndn hmem
    have hsuccs := addEdge_succsOf hndn hpid hmem
    have hstate := addEdge_stateOf hndn hmem
    have hindeg := addEdge_indegOf hndn hmem
    have hids := addEdge_ids hndn hmem
    have hlen := @addEdge_length s nid pid
    have hreadyEq := @addEdge_ready s nid pid
    have hstageEq := @addEdge_stage s nid pid
    have hcounted := addEdge_counted hndn hmem
    have hnidnotsucc : nid ∉ succsOf s pid := by
      intro hmem2
      exact hmem ((h.dual nid (List.mem_range.2 hnid) pid (List.mem_range.2 hpid)).2 hmem2)
    have hcp : ∀ k, k ≠ nid → countedPreds (addEdge s nid pid) k = countedPreds s k := by
      intro k hk
      unfold countedPreds
      rw [hpreds k, if_neg hk]
      congr 1
      apply List.filter_congr
      intro j _
      exact hcounted j
    have hcpnid : countedPreds (addEdge s nid pid) nid =
        countedPreds s nid + (if counted s pid = true then 1 else 0) := by
      unfold countedPreds
      rw [hpreds nid, if_pos rfl]
      rw [List.filter_append]
      have hcong : (predsOf s nid).filter (fun j => counted (addEdge s nid pid) j) =
          (predsOf s nid).filter (fun j => counted s j) := by
        apply List.filter_congr
        intro j _
        exact hcounted j
      rw [List.length_append, hcong]
      congr 1
      by_cases hc : counted s pid = true
      · simp [hcounted pid, hc]
      · simp [hcounted pid, hc]
    refine ⟨?_, ?_, ?_, ?_, ?_, ?_, ?_, ?_, ?_, ?_, ?_, ?_, ?_, ?_⟩
    · intro a ha j hj
      rw [List.mem_range, hlen] at ha
      rw [hsuccs] at hj
      rw [hlen]
      by_cases hap : a = pid
      · rw [if_pos hap] at hj
        rcases List.mem_append.1 hj with hj1 | hj1
        · exact h.wfSuccs a (List.mem_range.2 ha) j hj1
        · have : j = nid := by simpa using hj1
          exact this ▸ hnid
      · rw [if_neg hap] at hj
        exact h.wfSuccs a (List.mem_range.2 ha) j hj
    · intro a ha j hj
      rw [List.mem_range, hlen] at ha
      rw [hpreds] at hj
      rw [hlen]
      by_cases han : a = nid
      · rw [if_pos han] at hj
        rcases List.mem_append.1 hj with hj1 | hj1
        · exact h.wfPreds a (List.mem_range.2 ha) j hj1
        · have : j = pid := by simpa using hj1
          exact this ▸ hpid
      · rw [if_neg han] at hj
        exact h.wfPreds a (List.mem_range.2 ha) j hj
    · rw [hids]
      exact h.idsNodup
    · intro a ha
      rw [List.mem_range, hlen] at ha
      rw [hpreds]
      by_cases han : a = nid
      · subst han
        rw [if_pos rfl]
        refine List.Nodup.append (h.predsNodup a (List.mem_range.2 ha))
          (List.nodup_singleton pid) ?_
        intro x hx hy
        have : x = pid := by simpa using hy
        subst this
        exact hmem hx
      · rw [if_neg han]
        exact h.predsNodup a (List.mem_range.2 ha)
    · intro a ha
      rw [List.mem_range, hlen] at ha
      rw [hsuccs]
      by_cases hap : a = pid
      · subst hap
        rw [if_pos rfl]
        refine List.Nodup.append (h.succsNodup a (List.mem_range.2 ha))
          (List.nodup_singleton nid) ?_
        intro x hx hy
        have : x = nid := by simpa using hy
        subst this
        exact hnidnotsucc hx
      · rw [if_neg hap]
        exact h.succsNodup a (List.mem_range.2 ha)
    · intro a ha j hj
      rw [List.mem_range, hlen] at ha hj
      rw [hpreds, hsuccs]
      have hd := h.dual a (List.mem_range.2 ha) j (List.mem_range.2 hj)
      by_cases han : a = nid <;> by_cases hjp : j = pid
      · subst han
        subst hjp
        rw [if_pos rfl, if_pos rfl]
        constructor
        · intro _
          exact List.mem_append.2 (Or.inr (by simp))
        · intro _
          exact List.mem_append.2 (Or.inr (by simp))
      · subst han
        rw [if_pos rfl, if_neg hjp]
        constructor
        · intro hx
          rcases List.mem_append.1 hx with hx1 | hx1
          · exact hd.1 hx1
          · exact absurd (by simpa using hx1) hjp
        · intro hx
          exact List.mem_append.2 (Or.inl (hd.2 hx))
      · subst hjp
        rw [if_neg han, if_pos rfl]
        constructor
        · intro hx
          exact List.mem_append.2 (Or.inl (hd.1 hx))
        · intro hx
          rcases List.mem_append.1 hx with hx1 | hx1
          · exact hd.2 hx1
          · exact absurd (by simpa using hx1) han
      · rw [if_neg han, if_neg hjp]
        exact hd
    · intro m hm
      rw [List.mem_range, hlen] at hm
      rw [hindeg]
      simp only [List.count_nil]
      have hbase := h.indeg m (List.mem_range.2 hm)
      simp at hbase
      by_cases hmn : m = nid
      · subst hmn
        rw [if_pos rfl, hcpnid]
        by_cases hcnt : stateOf s pid ≠ .DONE ∧ stateOf s pid ≠ .REMOVED
        · rw [if_pos hcnt, if_pos ((counted_true_iff hpid).2 hcnt)]
          omega
        · rw [if_neg hcnt, if_neg (fun hc => hcnt ((counted_true_iff hpid).1 hc))]
          omega
      · rw [if_neg hmn, hcp m hmn]
        omega
    · intro m hm
      rw [hreadyEq] at hm
      obtain ⟨hb, hr⟩ := h.readyBound m hm
      exact ⟨by rw [hlen]; exact hb, by rw [hstate]; exact hr⟩
    · intro m hm hr
      rw [List.mem_range, hlen] at hm
      rw [hstate] at hr
      rw [hreadyEq]
      exact h.readyComplete m (List.mem_range.2 hm) hr
    · rw [hreadyEq]
      exact h.readyNodup
    · intro m hm hst2
      rw [List.mem_range, hlen] at hm
      rw [hstate] at hst2
      rcases h.buildingStates hst m (List.mem_range.2 hm) with h1 | h1 <;>
        rw [h1] at hst2 <;> rcases hst2 with h2 | h2 | h2 <;> exact NState.noConfusion h2
    · intro hrun
      rw [hstageEq, hst] at hrun
      exact Stage.noConfusion hrun
    · intro hb m hm
      rw [List.mem_range, hlen] at hm
      rw [hstate]
      exact h.buildingStates hst m (List.mem_range.2 hm)
    · intro k hk
      simp at hk

theorem intern_found {s : TS} {x i : Nat} (h : findId s.nodes x = some i) :
    intern s x = (s, i) := by
  unfold intern
  rw [h]

theorem intern_fresh {s : TS} {x : Nat} (h : findId s.nodes x = none) :
    intern s x =
      ({ s with nodes := s.nodes ++ [⟨x, [], [], 0, .NEW⟩] }, s.nodes.length) := by
  unfold intern
  rw [h]

theorem append_fresh_nodes {s : TS} {x : Nat} (k : Nat) :
    (s.nodes ++ [(⟨x, [], [], 0, .NEW⟩ : Node)])[k]? =
      if k < s.nodes.length then s.nodes[k]?
      else if k = s.nodes.length then some ⟨x, [], [], 0, .NEW⟩ else none := by
  by_cases hk : k < s.nodes.length
  · rw [if_pos hk]
    exact List.getElem?_append_left hk
  · rw [if_neg hk]
    rw [List.getElem?_append_right (Nat.le_of_not_lt hk)]
    by_cases hk2 : k = s.nodes.length
    · rw [if_pos hk2, hk2]
      simp
    · rw [if_neg hk2]
      have : 1 ≤ k - s.nodes.length := by omega
      rw [List.getElem?_eq_none (by simpa using this)]

theorem Inv_append_fresh {s : TS} (h : Inv s) (hst : s.stage = .BUILDING)
    {x : Nat} (hfresh : findId s.nodes x = none) :
    Inv { s with nodes := s.nodes ++ [⟨x, [], [], 0, .NEW⟩] } := by
  set fresh : Node := ⟨x, [], [], 0, .NEW⟩ with hfr
  set t : TS := { s with nodes := s.nodes ++ [fresh] } with htdef
  set n := s.nodes.length with hn
  have hlen : t.nodes.length = n + 1 := by
    show (s.nodes ++ [fresh]).length = n + 1
    simp
  have hnodes' : ∀ k, t.nodes[k]? =
      if k < n then s.nodes[k]? else if k = n then some fresh else none :=
    fun k => append_fresh_nodes k
  have hstate : ∀ k, stateOf t k =
      if k < n then stateOf s k else if k = n then .NEW else .REMOVED := by
    intro k
    unfold stateOf
    rw [hnodes' k]
    by_cases h1 : k < n
    · rw [if_pos h1, if_pos h1]
    · rw [if_neg h1, if_neg h1]
      by_cases h2 : k = n
      · rw [if_pos h2, if_pos h2]
      · rw [if_neg h2, if_neg h2]
  have hindeg : ∀ k, indegOf t k = indegOf s k := by
    intro k
    unfold indegOf
    rw [hnodes' k]
    by_cases h1 : k < n
    · rw [if_pos h1]
    · rw [if_neg h1]
      have : s.nodes[k]? = none := List.getElem?_eq_none (by omega)
      rw [this]
      by_cases h2 : k = n
      · rw [if_pos h2]
      · rw [if_neg h2]
  have hsuccs : ∀ k, succsOf t k = succsOf s k := by
    intro k
    unfold succsOf
    rw [hnodes' k]
    by_cases h1 : k < n
    · rw [if_pos h1]
    · rw [if_neg h1]
      have : s.nodes[k]? = none := List.getElem?_eq_none (by omega)
      rw [this]
      by_cases h2 : k = n
      · rw [if_pos h2]
      · rw [if_neg h2]
  have hpreds : ∀ k, predsOf t k = predsOf s k := by
    intro k
    unfold predsOf
    rw [hnodes' k]
    by_cases h1 : k < n
    · rw [if_pos h1]
    · rw [if_neg h1]
      have : s.nodes[k]? = none := List.getElem?_eq_none (by omega)
      rw [this]
      by_cases h2 : k = n
      · rw [if_pos h2]
      · rw [if_neg h2]
  have hcounted : ∀ k, k < n → counted t k = counted s k := by
    intro k hklt
    unfold counted
    rw [hnodes' k, if_pos hklt]
  have hcp : ∀ k, countedPreds t k = countedPreds s k := by
    intro k
    unfold countedPreds
    rw [hpreds k]
    congr 1
    apply List.filter_congr
    intro j hj
    exact hcounted j (by
      by_cases hk : k < n
      · exact h.wfPreds k (List.mem_range.2 hk) j hj
      · exfalso
        unfold predsOf at hj
        rw [List.getElem?_eq_none (by omega : s.nodes.length ≤ k)] at hj
        simp at hj)
  have hready : t.ready = s.ready := rfl
  have hstageEq : t.stage = s.stage := rfl
  refine ⟨?_, ?_, ?_, ?_, ?_, ?_, ?_, ?_, ?_, ?_, ?_, ?_, ?_, ?_⟩
  · intro a ha j hj
    rw [List.mem_range, hlen] at ha
    rw [hsuccs] at hj
    rw [hlen]
    by_cases h1 : a < n
    · have := h.wfSuccs a (List.mem_range.2 h1) j hj
      omega
    · exfalso
      unfold succsOf at hj
      rw [List.getElem?_eq_none (by omega : s.nodes.length ≤ a)] at hj
      simp at hj
  · intro a ha j hj
    rw [List.mem_range, hlen] at ha
    rw [hpreds] at hj
    rw [hlen]
    by_cases h1 : a < n
    · have := h.wfPreds a (List.mem_range.2 h1) j hj
      omega
    · exfalso
      unfold predsOf at hj
      rw [List.getElem?_eq_none (by omega : s.nodes.length ≤ a)] at hj
      simp at hj
  · show ((s.nodes ++ [fresh]).map Node.identity).Nodup
    rw [List.map_append]
    refine List.Nodup.append h.idsNodup (by simp) ?_
    intro a ha hb
    have hax : a = x := by simpa [hfr] using hb
    subst hax
    obtain ⟨nd, hnd, hid⟩ := List.mem_map.1 ha
    exact findId_none hfresh nd hnd hid
  · intro a ha
    rw [hpreds]
    by_cases h1 : a < n
    · exact h.predsNodup a (List.mem_range.2 h1)
    · unfold predsOf
      rw [List.getElem?_eq_none (by omega : s.nodes.length ≤ a)]
      exact List.nodup_nil
  · intro a ha
    rw [hsuccs]
    by_cases h1 : a < n
    · exact h.succsNodup a (List.mem_range.2 h1)
    · unfold succsOf
      rw [List.getElem?_eq_none (by omega : s.nodes.length ≤ a)]
      exact List.nodup_nil
  · intro a ha j hj
    rw [List.mem_range, hlen] at ha hj
    rw [hpreds, hsuccs]
    by_cases h1 : a < n <;> by_cases h2 : j < n
    · exact h.dual a (List.mem_range.2 h1) j (List.mem_range.2 h2)
    · have hjn : j = n := by omega
      subst hjn
      constructor
      · intro hx
        exact absurd (h.wfPreds a (List.mem_range.2 h1) n hx) (by omega)
      · intro hx
        exfalso
        unfold succsOf at hx
        rw [List.getElem?_eq_none (by omega : s.nodes.length ≤ n)] at hx
        simp at hx
    · have han : a = n := by omega
      subst han
      constructor
      · intro hx
        exfalso
        unfold predsOf at hx
        rw [List.getElem?_eq_none (by omega : s.nodes.length ≤ n)] at hx
        simp at hx
      · intro hx
        exact absurd (h.wfSuccs j (List.mem_range.2 h2) n hx) (by omega)
    · have han : a = n := by omega
      have hjn : j = n := by omega
      subst han
      subst hjn
      constructor
      · intro hx
        exfalso
        unfold predsOf at hx
        rw [List.getElem?_eq_none (by omega : s.nodes.length ≤ n)] at hx
        simp at hx
      · intro hx
        exfalso
        unfold succsOf at hx
        rw [List.getElem?_eq_none (by omega : s.nodes.length ≤ n)] at hx
        simp at hx
  · intro m hm
    rw [List.mem_range, hlen] at hm
    rw [hindeg, hcp]
    simp only [List.count_nil]
    by_cases h1 : m < n
    · have := h.indeg m (List.mem_range.2 h1)
      simpa using this
    · have hmn : m = n := by omega
      subst hmn
      unfold indegOf countedPreds predsOf
      rw [List.getElem?_eq_none (by omega : s.nodes.length ≤ n)]
      simp
  · intro m hm
    rw [hready] at hm
    obtain ⟨hb, hr⟩ := h.readyBound m hm
    refine ⟨by omega, ?_⟩
    rw [hstate, if_pos hb]
    exact hr
  · intro m hm hr
    rw [List.mem_range, hlen] at hm
    rw [hstate] at hr
    rw [hready]
    by_cases h1 : m < n
    · rw [if_pos h1] at hr
      exact h.readyComplete m (List.mem_range.2 h1) hr
    · rw [if_neg h1] at hr
      by_cases h2 : m = n
      · rw [if_pos h2] at hr
        exact NState.noConfusion hr
      · rw [if_neg h2] at hr
        exact NState.noConfusion hr
  · rw [hready]
    exact h.readyNodup
  · intro m hm hst2
    rw [List.mem_range, hlen] at hm
    rw [hstate] at hst2
    rw [hindeg]
    by_cases h1 : m < n
    · rw [if_pos h1] at hst2
      exact h.zeroIndeg m (List.mem_range.2 h1) hst2
    · rw [if_neg h1] at hst2
      by_cases h2 : m = n
      · rw [if_pos h2] at hst2
        rcases hst2 with h3 | h3 | h3 <;> exact NState.noConfusion h3
      · rw [if_neg h2] at hst2
        rcases hst2 with h3 | h3 | h3 <;> exact NState.noConfusion h3
  · intro hrun
    rw [hstageEq, hst] at hrun
    exact Stage.noConfusion hrun
  · intro hb m hm
    rw [List.mem_range, hlen] at hm
    rw [hstate]
    by_cases h1 : m < n
    · rw [if_pos h1]
      exact h.buildingStates hst m (List.mem_range.2 h1)
    · rw [if_neg h1]
      by_cases h2 : m = n
      · rw [if_pos h2]
        exact Or.inl rfl
      · rw [if_neg h2]
        exact Or.inr rfl
  · intro k hk
    simp at hk

theorem Inv_intern {s : TS} (h : Inv s) (hst : s.stage = .BUILDING) (x : Nat) :
    Inv (intern s x).1 := by
  cases hf : findId s.nodes x with
  | some i =>
    rw [intern_found hf]
    exact h
  | none =>
    rw [intern_fresh hf]
    exact Inv_append_fresh h hst hf

theorem intern_stage (s : TS) (x : Nat) : (intern s x).1.stage = s.stage := by
  cases hf : findId s.nodes x with
  | some i => rw [intern_found hf]
  | none => rw [intern_fresh hf]

theorem intern_length_le (s : TS) (x : Nat) :
    s.nodes.length ≤ (intern s x).1.nodes.length := by
  cases hf : findId s.nodes x with
  | some i =>
    rw [intern_found hf]
  | none =>
    rw [intern_fresh hf]
    simp

theorem intern_snd_lt (s : TS) (x : Nat) :
    (intern s x).2 < (intern s x).1.nodes.length := by
  cases hf : findId s.nodes x with
  | some i =>
    rw [intern_found hf]
    exact findId_some_lt hf
  | none =>
    rw [intern_fresh hf]
    simp

theorem Inv_add_foldl (ps : List Nat) : ∀ (t : TS) (nid : Nat), Inv t →
    t.stage = .BUILDING → nid < t.nodes.length →
    Inv (ps.foldl (fun acc p =>
      let (t2, pid) := intern acc p
      addEdge t2 nid pid) t) := by
  induction ps with
  | nil => intro t nid h _ _; exact h
  | cons p rest ih =>
    intro t nid h hst hnid
    simp only [List.foldl_cons]
    have h1 : Inv (intern t p).1 := Inv_intern h hst p
    have hst1 : (intern t p).1.stage = .BUILDING := by rw [intern_stage]; exact hst
    have hnid1 : nid < (intern t p).1.nodes.length :=
      Nat.lt_of_lt_of_le hnid (intern_length_le t p)
    have hpid1 : (intern t p).2 < (intern t p).1.nodes.length := intern_snd_lt t p
    have h2 : Inv (addEdge (intern t p).1 nid (intern t p).2) :=
      Inv_addEdge h1 hst1 hnid1 hpid1
    have hst2 : (addEdge (intern t p).1 nid (intern t p).2).stage = .BUILDING := by
      rw [addEdge_stage]
      exact hst1
    have hlen2 : nid < (addEdge (intern t p).1 nid (intern t p).2).nodes.length := by
      rw [addEdge_length]
      exact hnid1
    exact ih _ nid h2 hst2 hlen2

theorem Inv_add (s : TS) (x : Nat) (ps : List Nat) (h : Inv s) :
    Inv (add s x ps).1 := by
  unfold add
  by_cases hst : s.stage = .BUILDING
  · rw [if_pos hst]
    exact Inv_add_foldl ps (intern s x).1 (intern s x).2 (Inv_intern h hst x)
      (by rw [intern_stage]; exact hst) (intern_snd_lt s x)
  · rw [if_neg hst]
    exact h

theorem copy_eq (s : TS) : copy s = s := by
  unfold copy
  cases s with
  | mk nodes ready stage =>
    simp only []
    congr 1
    · show nodes.map (fun nd => ⟨nd.identity, nd.preds, nd.succs, nd.indegree, nd.state⟩) = nodes
      have : (fun (nd : Node) => (⟨nd.identity, nd.preds, nd.succs, nd.indegree, nd.state⟩ : Node)) = id := by
        funext nd
        rfl
      rw [this, List.map_id]
    · show ready.map (fun i => i) = ready
      have : (fun (i : Nat) => i) = id := rfl
      rw [this, List.map_id]

theorem Inv_empty : Inv TS.empty := by decide

theorem Inv_copy (s : TS) (h : Inv s) : Inv (copy s) := by
  rw [copy_eq]
  exact h

theorem Inv_stepOp (s : TS) (op : Op) (h : Inv s) : Inv (stepOp s op).1 := by
  cases op with
  | addO x ps => exact Inv_add s x ps h
  | prepareO => exact Inv_prepare s h
  | getReadyO =>
    unfold stepOp
    rcases hga : get_ready s with ⟨batch, s1, e⟩
    have hs1 : s1 = (get_ready s).2.1 := by rw [hga]
    cases e with
    | none =>
      simp only []
      rw [hs1]
      exact Inv_get_ready s h
    | some e2 => exact h
  | doneO xs => exact Inv_done s xs h
  | removeO xs => exact Inv_remove_nodes s xs h

theorem Inv_runOps (ops : List Op) : ∀ (s : TS), Inv s → Inv (runOps s ops).1 := by
  induction ops with
  | nil => intro s h; exact h
  | cons op rest ih =>
    intro s h
    unfold runOps
    simp only []
    exact ih (stepOp s op).1 (Inv_stepOp s op h)

theorem add_err {s : TS} {x : Nat} {ps : List Nat} {e : Err}
    (h : (add s x ps).2 = some e) : (add s x ps).1 = s := by
  unfold add at *
  by_cases hst : s.stage = .BUILDING
  · rw [if_pos hst] at h
    exact Option.noConfusion h
  · rw [if_neg hst]

theorem prepare_err {s : TS} {e : Err} (h : (prepare s).2 = some e) :
    (prepare s).1 = s := by
  by_cases hst : s.stage = .BUILDING
  · cases hdc : detectCycle s with
    | some c =>
      rw [prepare_eq_cycle hst hdc]
    | none =>
      rw [prepare_eq_ok hst hdc] at h
      exact Option.noConfusion h
  · rw [prepare_eq_notBuilding hst]

theorem get_ready_err {s : TS} {e : Err} (h : (get_ready s).2.2 = some e) :
    (get_ready s).2.1 = s := by
  unfold get_ready at *
  by_cases hst : s.stage = .RUNNING
  · rw [if_pos hst] at h
    exact Option.noConfusion h
  · rw [if_neg hst]

theorem done_err {s : TS} {xs : List Nat} {e : Err}
    (h : (done s xs).2 = some e) : (done s xs).1 = s := by
  unfold done at *
  by_cases hst : s.stage = .RUNNING
  · rw [if_pos hst] at h ⊢
    cases hres : resolveAll s xs with
    | none => rfl
    | some ids =>
      rw [hres] at h
      simp only [] at h ⊢
      by_cases hval : ids.Nodup ∧ ∀ i ∈ ids, stateOf s i = .PROCESSING
      · rw [if_pos hval] at h
        exact Option.noConfusion h
      · rw [if_neg hval]
  · rw [if_neg hst]

theorem remove_nodes_err {s : TS} {xs : List Nat} {e : Err}
    (h : (remove_nodes s xs).2 = some e) : (remove_nodes s xs).1 = s := by
  unfold remove_nodes at *
  cases hres : resolveAll s xs with
  | none => rfl
  | some ids =>
    rw [hres] at h
    simp only [] at h ⊢
    by_cases hval : ids.Nodup ∧ ∀ i ∈ ids, stateOf s i = .NEW ∨ stateOf s i = .READY
    · rw [if_pos hval] at h
      exact Option.noConfusion h
    · rw [if_neg hval]

theorem done_nil {s : TS} (hst : s.stage = .RUNNING) : done s [] = (s, none) := by
  unfold done
  rw [if_pos hst]
  show (if ([] : List Nat).Nodup ∧ ∀ i ∈ ([] : List Nat), stateOf s i = .PROCESSING then
    (([] : List Nat).foldl markDone s, none) else (s, some .notProcessing)) = (s, none)
  rw [if_pos (by simp)]
  rfl

theorem remove_nodes_nil (s : TS) : remove_nodes s [] = (s, none) := by
  unfold remove_nodes
  show (if ([] : List Nat).Nodup ∧ ∀ i ∈ ([] : List Nat),
      stateOf s i = .NEW ∨ stateOf s i = .READY then
    (([] : List Nat).foldl markRemoved s, none) else (s, some .cannotRemove)) = (s, none)
  rw [if_pos (by simp)]
  rfl

theorem takeTo_of_mem {u : Nat} : ∀ {l : List Nat}, u ∈ l →
    takeTo u l ≠ [] ∧ (takeTo u l).getLast? = some u ∧
      (∀ x ∈ takeTo u l, x ∈ l) ∧
      (takeTo u l).head? = l.head? := by
  intro l hl
  induction l with
  | nil => simp at hl
  | cons a rest ih =>
    unfold takeTo
    by_cases ha : a = u
    · subst ha
      refine ⟨by simp, by simp, by simp, by simp⟩
    · rw [if_neg ha]
      have hur : u ∈ rest := by
        rcases List.mem_cons.1 hl with h1 | h1
        · exact absurd h1.symm ha
        · exact h1
      obtain ⟨hne, hlast, hsub, hhead⟩ := ih hur
      refine ⟨by simp, ?_, ?_, by simp⟩
      · cases htk : takeTo u rest with
        | nil => exact absurd htk hne
        | cons b l2 =>
          rw [htk] at hlast
          rw [List.getLast?_cons_cons]
          exact hlast
      · intro x hx
        rcases List.mem_cons.1 hx with h1 | h1
        · exact h1 ▸ List.mem_cons_self a rest
        · exact List.mem_cons_of_mem a (hsub x h1)

theorem chain'_takeTo {R : Nat → Nat → Prop} (u : Nat) :
    ∀ {l : List Nat}, List.Chain' R l → List.Chain' R (takeTo u l) := by
  intro l
  induction l with
  | nil =>
    intro _
    exact List.chain'_nil
  | cons a rest ih =>
    intro hc
    unfold takeTo
    by_cases ha : a = u
    · rw [if_pos ha]
      exact List.chain'_singleton u
    · rw [if_neg ha]
      cases rest with
      | nil => exact List.chain'_singleton a
      | cons b rest2 =>
        have hcr := List.chain'_cons.1 hc
        have hih := ih hcr.2
        unfold takeTo at hih ⊢
        by_cases hb : b = u
        · rw [if_pos hb]
          exact List.chain'_cons.2 ⟨hb ▸ hcr.1, List.chain'_singleton u⟩
        · rw [if_neg hb] at hih ⊢
          exact List.chain'_cons.2 ⟨hcr.1, hih⟩

theorem lt_of_getElem?_some {α : Type} {l : List α} {i : Nat} {x : α}
    (h : l[i]? = some x) : i < l.length := by
  by_contra hge
  rw [List.getElem?_eq_none (Nat.le_of_not_lt hge)] at h
  exact Option.noConfusion h

theorem before_append {l l2 : List Nat} {x y : Nat} (h : before l x y) :
    before (l ++ l2) x y := by
  obtain ⟨a, b, hab, hxa, hyb⟩ := h
  have hb : b < l.length := lt_of_getElem?_some hyb
  have ha : a < l.length := Nat.lt_trans hab hb
  exact ⟨a, b, hab, by rw [List.getElem?_append_left ha]; exact hxa,
    by rw [List.getElem?_append_left hb]; exact hyb⟩

theorem before_append_last {l : List Nat} {x y : Nat} (h : x ∈ l) :
    before (l ++ [y]) x y := by
  obtain ⟨a, ha, hxa⟩ := List.getElem_of_mem h
  refine ⟨a, l.length, ha, ?_, ?_⟩
  · rw [List.getElem?_append_left ha]
    rw [List.getElem?_eq_getElem ha, hxa]
  · rw [List.getElem?_append_right (Nat.le_refl _)]
    simp

theorem indexOf_of_getElem? {l : List Nat} {a : Nat} {x : Nat}
    (hnd : l.Nodup) (h : l[a]? = some x) : l.indexOf x = a := by
  induction l generalizing a with
  | nil => simp at h
  | cons b rest ih =>
    simp at hnd
    cases a with
    | zero =>
      simp at h
      subst h
      exact List.indexOf_cons_self b rest
    | succ a2 =>
      simp at h
      have hx : x ∈ rest := by
        obtain ⟨hlt, hget⟩ := List.getElem?_eq_some_iff.1 h
        exact hget ▸ List.getElem_mem hlt
      have hbx : b ≠ x := fun he => hnd.1 (he ▸ hx)
      rw [List.indexOf_cons_ne rest hbx, ih hnd.2 h]

theorem indexOf_lt_of_before {l : List Nat} {x y : Nat} (hnd : l.Nodup)
    (h : before l x y) : l.indexOf x < l.indexOf y := by
  obtain ⟨a, b, hab, hxa, hyb⟩ := h
  rw [indexOf_of_getElem? hnd hxa, indexOf_of_getElem? hnd hyb]
  exact hab

theorem lt_of_liveAt {g : TS} {v : Nat} (h : liveAt g v = true) :
    v < g.nodes.length := by
  unfold liveAt at h
  cases hv : g.nodes[v]? with
  | none => rw [hv] at h; exact Bool.noConfusion h
  | some nd => exact lt_of_getElem?_node hv

/-- The invariant of the cycle detector's DFS: the grey stack is a path of
edges (each entry's node a successor of the one below), grey and black nodes
are live and duplicate free and disjoint, every successor of a black node is
black and finished strictly earlier, every live successor of a grey node is
still pending in its remaining list, already black, or grey strictly above
it, and every live node is black, grey or still an untried root. -/
structure DInv (g : TS) (d : DfsState) : Prop where
  stackChain : List.Chain' (fun a b => a.1 ∈ succsOf g b.1) d.stack
  stackLive : ∀ p ∈ d.stack, liveAt g p.1 = true
  stackRem : ∀ p ∈ d.stack, ∀ u ∈ p.2, u ∈ succsOf g p.1
  greysNodup : (greys d).Nodup
  greysBlack : ∀ v ∈ greys d, v ∉ d.black
  blackLive : ∀ v ∈ d.black, liveAt g v = true
  blackNodup : d.black.Nodup
  blackClosed : ∀ v ∈ d.black, ∀ u, u ∈ succsOf g v → liveAt g u = true →
    before d.black u v
  greyOblig : ∀ k : Nat, ∀ p : Nat × List Nat, d.stack[k]? = some p →
    ∀ u ∈ succsOf g p.1, liveAt g u = true →
      u ∈ p.2 ∨ u ∈ d.black ∨ ∃ kk : Nat, kk < k ∧ ∃ q : Nat × List Nat,
        d.stack[kk]? = some q ∧ q.1 = u
  cover : ∀ v, liveAt g v = true → v ∈ d.black ∨ v ∈ greys d ∨ v ∈ d.roots

theorem DInv_init (g : TS) : DInv g (dfsInit g) := by
  refine ⟨?_, ?_, ?_, ?_, ?_, ?_, ?_, ?_, ?_, ?_⟩
  · exact List.chain'_nil
  · intro p hp
    simp [dfsInit] at hp
  · intro p hp
    simp [dfsInit] at hp
  · exact List.nodup_nil
  · intro v hv
    simp [dfsInit, greys] at hv
  · intro v hv
    simp [dfsInit] at hv
  · exact List.nodup_nil
  · intro v hv
    simp [dfsInit] at hv
  · intro k p hp
    simp [dfsInit] at hp
  · intro v hv
    refine Or.inr (Or.inr ?_)
    show v ∈ List.range g.nodes.length
    exact List.mem_range.2 (lt_of_liveAt hv)

theorem DInv_pushRoot {g : TS} {black roots : List Nat} {r : Nat}
    (h : DInv g ⟨[], black, r :: roots⟩) (hlive : liveAt g r = true)
    (hblack : r ∉ black) : DInv g ⟨[(r, succsOf g r)], black, roots⟩ := by
  refine ⟨?_, ?_, ?_, ?_, ?_, ?_, ?_, ?_, ?_, ?_⟩
  · exact List.chain'_singleton _
  · intro p hp
    have : p = (r, succsOf g r) := by simpa using hp
    rw [this]
    exact hlive
  · intro p hp u hu
    have : p = (r, succsOf g r) := by simpa using hp
    rw [this] at hu ⊢
    exact hu
  · show ([(r, succsOf g r)].map Prod.fst).Nodup
    simp
  · intro v hv
    have : v = r := by simpa [greys] using hv
    rw [this]
    exact hblack
  · exact h.blackLive
  · exact h.blackNodup
  · exact h.blackClosed
  · intro k p hp u hu hul
    cases k with
    | zero =>
      simp at hp
      rw [← hp] at hu ⊢
      exact Or.inl hu
    | succ k2 => simp at hp
  · intro v hv
    rcases h.cover v hv with h1 | h1 | h1
    · exact Or.inl h1
    · simp [greys] at h1
    · rcases List.mem_cons.1 h1 with h2 | h2
      · refine Or.inr (Or.inl ?_)
        show v ∈ [(r, succsOf g r)].map Prod.fst
        simp [h2]
      · exact Or.inr (Or.inr h2)

theorem DInv_dropRoot {g : TS} {black roots : List Nat} {r : Nat}
    (h : DInv g ⟨[], black, r :: roots⟩)
    (hcond : ¬(liveAt g r = true ∧ r ∉ black)) :
    DInv g ⟨[], black, roots⟩ := by
  refine ⟨?_, ?_, ?_, ?_, ?_, ?_, ?_, ?_, ?_, ?_⟩
  · exact List.chain'_nil
  · intro p hp
    simp at hp
  · intro p hp
    simp at hp
  · exact List.nodup_nil
  · intro v hv
    simp [greys] at hv
  · exact h.blackLive
  · exact h.blackNodup
  · exact h.blackClosed
  · intro k p hp
    simp at hp
  · intro v hv
    rcases h.cover v hv with h1 | h1 | h1
    · exact Or.inl h1
    · simp [greys] at h1
    · rcases List.mem_cons.1 h1 with h2 | h2
      · subst h2
        rcases Decidable.not_and_iff_or_not.1 hcond with h3 | h3
        · exact absurd hv h3
        · exact Or.inl (Decidable.not_not.1 h3)
      · exact Or.inr (Or.inr h2)

theorem DInv_finish {g : TS} {v : Nat} {rest : List (Nat × List Nat)}
    {black roots : List Nat}
    (h : DInv g ⟨(v, []) :: rest, black, roots⟩) :
    DInv g ⟨rest, black ++ [v], roots⟩ := by
  have hvgrey : v ∈ greys ⟨(v, []) :: rest, black, roots⟩ := by
    show v ∈ ((v, ([] : List Nat)) :: rest).map Prod.fst
    simp
  have hvlive : liveAt g v = true :=
    h.stackLive (v, []) (List.mem_cons_self _ _)
  have hvnb : v ∉ black := h.greysBlack v hvgrey
  have hgnodup := h.greysNodup
  have hvnotrest : v ∉ rest.map Prod.fst := by
    have hnd : (v :: rest.map Prod.fst).Nodup := hgnodup
    exact (List.nodup_cons.1 hnd).1
  have hsb : ∀ u ∈ succsOf g v, liveAt g u = true → u ∈ black := by
    intro u hu hul
    rcases h.greyOblig 0 (v, []) (by simp) u hu hul with h1 | h1 | h1
    · simp at h1
    · exact h1
    · obtain ⟨kk, hkk, _⟩ := h1
      omega
  refine ⟨?_, ?_, ?_, ?_, ?_, ?_, ?_, ?_, ?_, ?_⟩
  · exact h.stackChain.tail
  · intro p hp
    exact h.stackLive p (List.mem_cons_of_mem _ hp)
  · intro p hp
    exact h.stackRem p (List.mem_cons_of_mem _ hp)
  · show (rest.map Prod.fst).Nodup
    have hnd : (v :: rest.map Prod.fst).Nodup := hgnodup
    exact (List.nodup_cons.1 hnd).2
  · intro w hw
    have hwold : w ∈ greys ⟨(v, []) :: rest, black, roots⟩ := by
      show w ∈ v :: rest.map Prod.fst
      exact List.mem_cons_of_mem v hw
    have hwnb : w ∉ black := h.greysBlack w hwold
    have hwv : w ≠ v := fun he => hvnotrest (he ▸ hw)
    intro hmem
    rcases List.mem_append.1 hmem with h1 | h1
    · exact hwnb h1
    · exact hwv (by simpa using h1)
  · intro w hw
    rcases List.mem_append.1 hw with h1 | h1
    · exact h.blackLive w h1
    · have : w = v := by simpa using h1
      rw [this]
      exact hvlive
  · refine List.Nodup.append h.blackNodup (List.nodup_singleton v) ?_
    intro a ha hb
    have : a = v := by simpa using hb
    subst this
    exact hvnb ha
  · intro w hw u hu hul
    rcases List.mem_append.1 hw with h1 | h1
    · exact before_append (h.blackClosed w h1 u hu hul)
    · have hwv : w = v := by simpa using h1
      subst hwv
      exact before_append_last (hsb u hu hul)
  · intro k p hp u hu hul
    have hpold : ((v, ([] : List Nat)) :: rest)[k + 1]? = some p := by
      simpa using hp
    rcases h.greyOblig (k + 1) p hpold u hu hul with h1 | h1 | h1
    · exact Or.inl h1
    · exact Or.inr (Or.inl (List.mem_append.2 (Or.inl h1)))
    · obtain ⟨kk, hkk, q, hq, hqu⟩ := h1
      cases kk with
      | zero =>
        simp at hq
        refine Or.inr (Or.inl ?_)
        rw [← hqu, ← hq]
        exact List.mem_append.2 (Or.inr (by simp))
      | succ kk2 =>
        refine Or.inr (Or.inr ⟨kk2, by omega, q, ?_, hqu⟩)
        simpa using hq
  · intro w hw
    rcases h.cover w hw with h1 | h1 | h1
    · exact Or.inl (List.mem_append.2 (Or.inl h1))
    · have : w ∈ (v :: rest.map Prod.fst) := h1
      rcases List.mem_cons.1 this with h2 | h2
      · exact Or.inl (List.mem_append.2 (Or.inr (by simp [h2])))
      · exact Or.inr (Or.inl h2)
    · exact Or.inr (Or.inr h1)

theorem DInv_skip {g : TS} {v u0 : Nat} {us2 : List Nat}
    {rest : List (Nat × List Nat)} {black roots : List Nat}
    (h : DInv g ⟨(v, u0 :: us2) :: rest, black, roots⟩)
    (hcond : ¬(liveAt g u0 = true ∧ u0 ∉ black)) :
    DInv g ⟨(v, us2) :: rest, black, roots⟩ := by
  have hgreyeq : greys ⟨(v, us2) :: rest, black, roots⟩ =
      greys ⟨(v, u0 :: us2) :: rest, black, roots⟩ := by
    show ((v, us2) :: rest).map Prod.fst = ((v, u0 :: us2) :: rest).map Prod.fst
    simp
  refine ⟨?_, ?_, ?_, ?_, ?_, ?_, ?_, ?_, ?_, ?_⟩
  · cases hr : rest with
    | nil => exact List.chain'_singleton _
    | cons b l2 =>
      rw [hr] at h
      have := h.stackChain
      rw [List.chain'_cons] at this ⊢
      exact ⟨this.1, this.2⟩
  · intro p hp
    rcases List.mem_cons.1 hp with h1 | h1
    · rw [h1]
      exact h.stackLive (v, u0 :: us2) (List.mem_cons_self _ _)
    · exact h.stackLive p (List.mem_cons_of_mem _ h1)
  · intro p hp u hu
    rcases List.mem_cons.1 hp with h1 | h1
    · rw [h1] at hu ⊢
      exact h.stackRem (v, u0 :: us2) (List.mem_cons_self _ _) u
        (List.mem_cons_of_mem _ hu)
    · exact h.stackRem p (List.mem_cons_of_mem _ h1) u hu
  · rw [hgreyeq]
    exact h.greysNodup
  · rw [hgreyeq]
    exact h.greysBlack
  · exact h.blackLive
  · exact h.blackNodup
  · exact h.blackClosed
  · intro k p hp u hu hul
    cases k with
    | zero =>
      simp at hp
      rcases h.greyOblig 0 (v, u0 :: us2) (by simp) u (by rw [← hp] at hu; exact hu) hul
        with h1 | h1 | h1
      · rcases List.mem_cons.1 h1 with h2 | h2
        · subst h2
          rcases Decidable.not_and_iff_or_not.1 hcond with h3 | h3
          · exact absurd hul h3
          · exact Or.inr (Or.inl (Decidable.not_not.1 h3))
        · rw [← hp]
          exact Or.inl h2
      · exact Or.inr (Or.inl h1)
      · obtain ⟨kk, hkk, _⟩ := h1
        omega
    | succ k2 =>
      have hpold : ((v, u0 :: us2) :: rest)[k2 + 1]? = some p := by
        simpa using hp
      rcases h.greyOblig (k2 + 1) p hpold u hu hul with h1 | h1 | h1
      · exact Or.inl h1
      · exact Or.inr (Or.inl h1)
      · obtain ⟨kk, hkk, q, hq, hqu⟩ := h1
        cases kk with
        | zero =>
          simp at hq
          refine Or.inr (Or.inr ⟨0, by omega, (v, us2), by simp, ?_⟩)
          rw [← hqu, ← hq]
        | succ kk2 =>
          refine Or.inr (Or.inr ⟨kk2 + 1, by omega, q, ?_, hqu⟩)
          simpa using hq
  · intro w hw
    rcases h.cover w hw with h1 | h1 | h1
    · exact Or.inl h1
    · rw [hgreyeq]
      exact Or.inr (Or.inl h1)
    · exact Or.inr (Or.inr h1)

theorem DInv_push {g : TS} {v u0 : Nat} {us2 : List Nat}
    {rest : List (Nat × List Nat)} {black roots : List Nat}
    (h : DInv g ⟨(v, u0 :: us2) :: rest, black, roots⟩)
    (hlive : liveAt g u0 = true) (hnb : u0 ∉ black)
    (hng : u0 ∉ greys ⟨(v, u0 :: us2) :: rest, black, roots⟩) :
    DInv g ⟨(u0, succsOf g u0) :: (v, us2) :: rest, black, roots⟩ := by
  have hu0succ : u0 ∈ succsOf g v :=
    h.stackRem (v, u0 :: us2) (List.mem_cons_self _ _) u0 (List.mem_cons_self _ _)
  refine ⟨?_, ?_, ?_, ?_, ?_, ?_, ?_, ?_, ?_, ?_⟩
  · rw [List.chain'_cons]
    constructor
    · exact hu0succ
    · cases hr : rest with
      | nil => exact List.chain'_singleton _
      | cons b l2 =>
        rw [hr] at h
        have := h.stackChain
        rw [List.chain'_cons] at this ⊢
        exact ⟨this.1, this.2⟩
  · intro p hp
    rcases List.mem_cons.1 hp with h1 | h1
    · rw [h1]
      exact hlive
    · rcases List.mem_cons.1 h1 with h2 | h2
      · rw [h2]
        exact h.stackLive (v, u0 :: us2) (List.mem_cons_self _ _)
      · exact h.stackLive p (List.mem_cons_of_mem _ h2)
  · intro p hp u hu
    rcases List.mem_cons.1 hp with h1 | h1
    · rw [h1] at hu ⊢
      exact hu
    · rcases List.mem_cons.1 h1 with h2 | h2
      · rw [h2] at hu ⊢
        exact h.stackRem (v, u0 :: us2) (List.mem_cons_self _ _) u
          (List.mem_cons_of_mem _ hu)
      · exact h.stackRem p (List.mem_cons_of_mem _ h2) u hu
  · show (((u0, succsOf g u0) :: (v, us2) :: rest).map Prod.fst).Nodup
    have heq : ((u0, succsOf g u0) :: (v, us2) :: rest).map Prod.fst =
        u0 :: ((v, u0 :: us2) :: rest).map Prod.fst := by simp
    rw [heq]
    exact List.nodup_cons.2 ⟨hng, h.greysNodup⟩
  · intro w hw
    have : w ∈ u0 :: ((v, u0 :: us2) :: rest).map Prod.fst := by
      have heq : ((u0, succsOf g u0) :: (v, us2) :: rest).map Prod.fst =
          u0 :: ((v, u0 :: us2) :: rest).map Prod.fst := by simp
      rw [← heq]
      exact hw
    rcases List.mem_cons.1 this with h1 | h1
    · rw [h1]
      exact hnb
    · exact h.greysBlack w h1
  · exact h.blackLive
  · exact h.blackNodup
  · exact h.blackClosed
  · intro k p hp u hu hul
    cases k with
    | zero =>
      simp at hp
      rw [← hp] at hu ⊢
      exact Or.inl hu
    | succ k2 =>
      cases k2 with
      | zero =>
        simp at hp
        rcases h.greyOblig 0 (v, u0 :: us2) (by simp) u
          (by rw [← hp] at hu; exact hu) hul with h1 | h1 | h1
        · rcases List.mem_cons.1 h1 with h2 | h2
          · subst h2
            exact Or.inr (Or.inr ⟨0, by omega, (u, succsOf g u), by simp, rfl⟩)
          · rw [← hp]
            exact Or.inl h2
        · exact Or.inr (Or.inl h1)
        · obtain ⟨kk, hkk, _⟩ := h1
          omega
      | succ k3 =>
        have hpold : ((v, u0 :: us2) :: rest)[k3 + 1]? = some p := by
          simpa using hp
        rcases h.greyOblig (k3 + 1) p hpold u hu hul with h1 | h1 | h1
        · exact Or.inl h1
        · exact Or.inr (Or.inl h1)
        · obtain ⟨kk, hkk, q, hq, hqu⟩ := h1
          cases kk with
          | zero =>
            simp at hq
            refine Or.inr (Or.inr ⟨1, by omega, (v, us2), by simp, ?_⟩)
            rw [← hqu, ← hq]
          | succ kk2 =>
            refine Or.inr (Or.inr ⟨kk2 + 2, by omega, q, ?_, hqu⟩)
            simpa using hq
  · intro w hw
    rcases h.cover w hw with h1 | h1 | h1
    · exact Or.inl h1
    · refine Or.inr (Or.inl ?_)
      show w ∈ ((u0, succsOf g u0) :: (v, us2) :: rest).map Prod.fst
      have heq : ((u0, succsOf g u0) :: (v, us2) :: rest).map Prod.fst =
          u0 :: ((v, u0 :: us2) :: rest).map Prod.fst := by simp
      rw [heq]
      exact List.mem_cons_of_mem u0 h1
    · exact Or.inr (Or.inr h1)

theorem DInv_dfsStep {g : TS} {d d' : DfsState} (h : DInv g d)
    (hstep : dfsStep g d = .inl d') : DInv g d' := by
  obtain ⟨stack, black, roots⟩ := d
  unfold dfsStep at hstep
  cases stack with
  | nil =>
    cases roots with
    | nil => exact Sum.noConfusion hstep
    | cons r rs =>
      simp only [] at hstep
      by_cases hcnd : liveAt g r = true ∧ r ∉ black
      · rw [if_pos hcnd] at hstep
        cases hstep
        exact DInv_pushRoot h hcnd.1 hcnd.2
      · rw [if_neg hcnd] at hstep
        cases hstep
        exact DInv_dropRoot h hcnd
  | cons p rest =>
    obtain ⟨v, us⟩ := p
    cases us with
    | nil =>
      simp only [] at hstep
      cases hstep
      exact DInv_finish h
    | cons u0 us2 =>
      simp only [] at hstep
      by_cases hcnd : liveAt g u0 = true ∧ u0 ∉ black
      · rw [if_pos hcnd] at hstep
        by_cases hg : u0 ∈ greys ⟨(v, u0 :: us2) :: rest, black, roots⟩
        · rw [if_pos hg] at hstep
          exact Sum.noConfusion hstep
        · rw [if_neg hg] at hstep
          cases hstep
          exact DInv_push h hcnd.1 hcnd.2 hg
      · rw [if_neg hcnd] at hstep
        cases hstep
        exact DInv_skip h hcnd

theorem weight_filter_drop (w : Nat → Nat) {l : List Nat} (p q : Nat → Bool)
    (i : Nat) (hnd : l.Nodup) (hi : i ∈ l) (hpi : p i = true) (hqi : q i = false)
    (hagree : ∀ j, j ≠ i → q j = p j) :
    ((l.filter q).map w).sum + w i = ((l.filter p).map w).sum := by
  induction l with
  | nil => simp at hi
  | cons a rest ih =>
    simp at hnd
    rcases List.mem_cons.1 hi with ha | ha
    · subst ha
      have hrest : rest.filter q = rest.filter p := by
        apply List.filter_congr
        intro j hj
        exact hagree j (fun hji => hnd.1 (hji ▸ hj))
      simp only [List.filter_cons, hpi, hqi, if_true, if_false, Bool.false_eq_true]
      rw [hrest]
      simp
      omega
    · have hai : a ≠ i := fun he => hnd.1 (he ▸ ha)
      have hq : q a = p a := hagree a hai
      have ihr := ih hnd.2 ha
      by_cases hpa : p a = true
      · have hqa : q a = true := by rw [hq]; exact hpa
        simp only [List.filter_cons, hpa, hqa, if_true, List.map_cons, List.sum_cons]
        omega
      · have hpa2 : p a = false := by revert hpa; cases p a <;> simp
        have hqa : q a = false := by rw [hq]; exact hpa2
        simp only [List.filter_cons, hpa2, hqa, Bool.false_eq_true, if_false]
        exact ihr

theorem weight_filter_congr (w : Nat → Nat) {l : List Nat} (p q : Nat → Bool)
    (h : ∀ x ∈ l, q x = p x) :
    ((l.filter q).map w).sum = ((l.filter p).map w).sum := by
  rw [List.filter_congr h]

theorem dfsMeasure_dfsStep {g : TS} {d d' : DfsState}
    (hstep : dfsStep g d = .inl d') : dfsMeasure g d' < dfsMeasure g d := by
  obtain ⟨stack, black, roots⟩ := d
  unfold dfsStep at hstep
  cases stack with
  | nil =>
    cases roots with
    | nil => exact Sum.noConfusion hstep
    | cons r rs =>
      simp only [] at hstep
      by_cases hcnd : liveAt g r = true ∧ r ∉ black
      · rw [if_pos hcnd] at hstep
        cases hstep
        unfold dfsMeasure weightSum
        have hd : ((List.range g.nodes.length).filter
              (fun v => liveAt g v && decide (v ∉ black) &&
                decide (v ∉ greys ⟨[(r, succsOf g r)], black, rs⟩)) |>.map
                  (nodeWeight g)).sum + nodeWeight g r =
            ((List.range g.nodes.length).filter
              (fun v => liveAt g v && decide (v ∉ black) &&
                decide (v ∉ greys ⟨[], black, r :: rs⟩)) |>.map (nodeWeight g)).sum := by
          apply weight_filter_drop (nodeWeight g) _ _ r (List.nodup_range _)
            (List.mem_range.2 (lt_of_liveAt hcnd.1))
          · simp [greys, hcnd.1, hcnd.2]
          · simp [greys]
          · intro j hj
            simp [greys, hj]
        unfold whiteList
        rw [← hd]
        simp [greys, nodeWeight]
        omega
      · rw [if_neg hcnd] at hstep
        cases hstep
        unfold dfsMeasure whiteList weightSum
        have hd : (List.range g.nodes.length).filter
              (fun v => liveAt g v && decide (v ∉ black) &&
                decide (v ∉ greys ⟨[], black, rs⟩)) =
            (List.range g.nodes.length).filter
              (fun v => liveAt g v && decide (v ∉ black) &&
                decide (v ∉ greys ⟨[], black, r :: rs⟩)) := by
          apply List.filter_congr
          intro x _
          simp [greys]
        rw [hd]
        simp
  | cons p rest =>
    obtain ⟨v, us⟩ := p
    cases us with
    | nil =>
      simp only [] at hstep
      cases hstep
      unfold dfsMeasure whiteList weightSum
      have hd : (List.range g.nodes.length).filter
            (fun x => liveAt g x && decide (x ∉ black ++ [v]) &&
              decide (x ∉ greys ⟨rest, black ++ [v], roots⟩)) =
          (List.range g.nodes.length).filter
            (fun x => liveAt g x && decide (x ∉ black) &&
              decide (x ∉ greys ⟨(v, []) :: rest, black, roots⟩)) := by
        apply List.filter_congr
        intro x _
        by_cases hx : x = v
        · subst hx
          simp [greys]
        · have hxv : (x == v) = false := by simpa using hx
          simp [greys, hx, hxv]
      rw [hd]
      simp
    | cons u0 us2 =>
      simp only [] at hstep
      by_cases hcnd : liveAt g u0 = true ∧ u0 ∉ black
      · rw [if_pos hcnd] at hstep
        by_cases hg : u0 ∈ greys ⟨(v, u0 :: us2) :: rest, black, roots⟩
        · rw [if_pos hg] at hstep
          exact Sum.noConfusion hstep
        · rw [if_neg hg] at hstep
          cases hstep
          unfold dfsMeasure weightSum
          have hd : ((List.range g.nodes.length).filter
                (fun x => liveAt g x && decide (x ∉ black) &&
                  decide (x ∉ greys ⟨(u0, succsOf g u0) :: (v, us2) :: rest,
                    black, roots⟩)) |>.map (nodeWeight g)).sum + nodeWeight g u0 =
              ((List.range g.nodes.length).filter
                (fun x => liveAt g x && decide (x ∉ black) &&
                  decide (x ∉ greys ⟨(v, u0 :: us2) :: rest, black, roots⟩))
                    |>.map (nodeWeight g)).sum := by
            apply weight_filter_drop (nodeWeight g) _ _ u0 (List.nodup_range _)
              (List.mem_range.2 (lt_of_liveAt hcnd.1))
            · have : u0 ∉ greys ⟨(v, u0 :: us2) :: rest, black, roots⟩ := hg
              simp [greys] at this
              simp [greys, hcnd.1, hcnd.2, this]
            · simp [greys]
            · intro j hj
              have hju : (j == u0) = false := by simpa using hj
              simp [greys, hj, hju]
          unfold whiteList
          rw [← hd]
          simp [greys, nodeWeight]
          omega
      · rw [if_neg hcnd] at hstep
        cases hstep
        unfold dfsMeasure whiteList weightSum
        have hd : (List.range g.nodes.length).filter
              (fun x => liveAt g x && decide (x ∉ black) &&
                decide (x ∉ greys ⟨(v, us2) :: rest, black, roots⟩)) =
            (List.range g.nodes.length).filter
              (fun x => liveAt g x && decide (x ∉ black) &&
                decide (x ∉ greys ⟨(v, u0 :: us2) :: rest, black, roots⟩)) := by
          apply List.filter_congr
          intro x _
          simp [greys]
        rw [hd]
        simp

theorem dfsStep_none {g : TS} {d : DfsState}
    (hstep : dfsStep g d = .inr none) : d.stack = [] ∧ d.roots = [] := by
  obtain ⟨stack, black, roots⟩ := d
  unfold dfsStep at hstep
  cases stack with
  | nil =>
    cases roots with
    | nil => exact ⟨rfl, rfl⟩
    | cons r rs =>
      simp only [] at hstep
      by_cases hcnd : liveAt g r = true ∧ r ∉ black
      · rw [if_pos hcnd] at hstep
        exact Sum.noConfusion hstep
      · rw [if_neg hcnd] at hstep
        exact Sum.noConfusion hstep
  | cons p rest =>
    obtain ⟨v, us⟩ := p
    cases us with
    | nil =>
      simp only [] at hstep
      exact Sum.noConfusion hstep
    | cons u0 us2 =>
      simp only [] at hstep
      by_cases hcnd : liveAt g u0 = true ∧ u0 ∉ black
      · rw [if_pos hcnd] at hstep
        by_cases hg : u0 ∈ greys ⟨(v, u0 :: us2) :: rest, black, roots⟩
        · rw [if_pos hg] at hstep
          cases hstep
        · rw [if_neg hg] at hstep
          exact Sum.noConfusion hstep
      · rw [if_neg hcnd] at hstep
        exact Sum.noConfusion hstep

theorem dfsRun_inv {g : TS} : ∀ (fuel : Nat) (d : DfsState)
    (out : Option (List Nat)), DInv g d → dfsRun g fuel d = some out →
    ∃ dfin : DfsState, DInv g dfin ∧ dfsStep g dfin = .inr out := by
  intro fuel
  induction fuel with
  | zero =>
    intro d out _ hrun
    unfold dfsRun at hrun
    exact Option.noConfusion hrun
  | succ fuel2 ih =>
    intro d out hinv hrun
    unfold dfsRun at hrun
    cases hstep : dfsStep g d with
    | inr o =>
      rw [hstep] at hrun
      cases hrun
      exact ⟨d, hinv, hstep⟩
    | inl d2 =>
      rw [hstep] at hrun
      exact ih d2 out (DInv_dfsStep hinv hstep) hrun

theorem dfsRun_isSome {g : TS} : ∀ (fuel : Nat) (d : DfsState),
    dfsMeasure g d < fuel → (dfsRun g fuel d).isSome = true := by
  intro fuel
  induction fuel with
  | zero =>
    intro d hm
    omega
  | succ fuel2 ih =>
    intro d hm
    unfold dfsRun
    cases hstep : dfsStep g d with
    | inr o => rfl
    | inl d2 =>
      have := dfsMeasure_dfsStep hstep
      exact ih d2 (by omega)

theorem chain'_edge_of_stack {g : TS} : ∀ (st : List (Nat × List Nat)),
    List.Chain' (fun a b => a.1 ∈ succsOf g b.1) st →
    (∀ p ∈ st, liveAt g p.1 = true) →
    List.Chain' (fun a b : Nat × List Nat => edge g b.1 a.1) st := by
  intro st
  induction st with
  | nil =>
    intro _ _
    exact List.chain'_nil
  | cons a rest ih =>
    intro hc hl
    cases rest with
    | nil => exact List.chain'_singleton a
    | cons b rest2 =>
      rw [List.chain'_cons] at hc ⊢
      refine ⟨⟨hl b (List.mem_cons_of_mem a (List.mem_cons_self b rest2)),
        hl a (List.mem_cons_self a _), hc.1⟩, ?_⟩
      exact ih hc.2 (fun p hp => hl p (List.mem_cons_of_mem a hp))

theorem dfsStep_cycle {g : TS} {d : DfsState} {c : List Nat} (h : DInv g d)
    (hstep : dfsStep g d = .inr (some c)) : isCycle g c := by
  obtain ⟨stack, black, roots⟩ := d
  unfold dfsStep at hstep
  cases stack with
  | nil =>
    cases roots with
    | nil => cases hstep
    | cons r rs =>
      simp only [] at hstep
      by_cases hcnd : liveAt g r = true ∧ r ∉ black
      · rw [if_pos hcnd] at hstep
        exact Sum.noConfusion hstep
      · rw [if_neg hcnd] at hstep
        exact Sum.noConfusion hstep
  | cons p rest =>
    obtain ⟨v, us⟩ := p
    cases us with
    | nil =>
      simp only [] at hstep
      exact Sum.noConfusion hstep
    | cons u0 us2 =>
      simp only [] at hstep
      by_cases hcnd : liveAt g u0 = true ∧ u0 ∉ black
      · rw [if_pos hcnd] at hstep
        by_cases hg : u0 ∈ greys ⟨(v, u0 :: us2) :: rest, black, roots⟩
        · rw [if_pos hg] at hstep
          cases hstep
          set gr := greys ⟨(v, u0 :: us2) :: rest, black, roots⟩ with hgr
          obtain ⟨hne, hlast, hsub, hhead⟩ := takeTo_of_mem hg
          have hheadv : (takeTo u0 gr).head? = some v := by
            rw [hhead]
            rfl
          have hchaingr : List.Chain' (fun a b => edge g b a) gr := by
            have h1 := chain'_edge_of_stack _ h.stackChain h.stackLive
            exact (@List.chain'_map Nat (Nat × List Nat)
              (fun a b => edge g b a) Prod.fst _).2 h1
          have hchainseg : List.Chain' (fun a b => edge g b a) (takeTo u0 gr) :=
            chain'_takeTo u0 hchaingr
          have hchainrev : List.Chain' (edge g) (takeTo u0 gr).reverse := by
            rw [List.chain'_reverse]
            exact hchainseg
          refine ⟨?_, ?_, ?_⟩
          · have : (takeTo u0 gr).length ≠ 0 := fun hz => hne (List.eq_nil_of_length_eq_zero hz)
            simp
            omega
          · rw [List.getLast?_concat]
            cases hseg : (takeTo u0 gr).reverse with
            | nil =>
              exfalso
              exact hne (by simpa using hseg)
            | cons z zs =>
              have : (takeTo u0 gr).reverse.head? = some u0 := by
                rw [List.head?_reverse]
                exact hlast
              rw [hseg] at this
              simp at this
              simp [hseg, this]
          · rw [List.chain'_append]
            refine ⟨hchainrev, List.chain'_singleton u0, ?_⟩
            intro x hx y hy
            have hyu : u0 = y := by simpa using hy
            have hvx : v = x := by
              have h1 : (takeTo u0 gr).reverse.getLast? = (takeTo u0 gr).head? := by
                rw [List.getLast?_reverse]
              rw [h1, hheadv] at hx
              simpa using hx
            rw [← hyu, ← hvx]
            refine ⟨h.stackLive (v, u0 :: us2) (List.mem_cons_self _ _), hcnd.1, ?_⟩
            exact h.stackRem (v, u0 :: us2) (List.mem_cons_self _ _) u0
              (List.mem_cons_self _ _)
        · rw [if_neg hg] at hstep
          exact Sum.noConfusion hstep
      · rw [if_neg hcnd] at hstep
        exact Sum.noConfusion hstep

theorem chain_live {g : TS} : ∀ (l : List Nat) (a : Nat),
    List.Chain' (edge g) (a :: l) → l ≠ [] → ∀ x ∈ a :: l, liveAt g x = true := by
  intro l
  induction l with
  | nil =>
    intro a _ hne
    exact absurd rfl hne
  | cons b l2 ih =>
    intro a hc _ x hx
    have hab : edge g a b := (List.chain'_cons.1 hc).1
    rcases List.mem_cons.1 hx with h1 | h1
    · rw [h1]
      exact hab.1
    · by_cases hl2 : l2 = []
      · subst hl2
        have : x = b := by simpa using h1
        rw [this]
        exact hab.2.1
      · exact ih b (List.chain'_cons.1 hc).2 hl2 x h1

theorem chain_idx_lt {g : TS} {black : List Nat} (hnd : black.Nodup)
    (hclosed : ∀ v ∈ black, ∀ u, u ∈ succsOf g v → liveAt g u = true →
      before black u v) :
    ∀ (l : List Nat) (a : Nat), List.Chain' (edge g) (a :: l) → l ≠ [] →
    (∀ x ∈ a :: l, x ∈ black) → ∀ z, (a :: l).getLast? = some z →
    black.indexOf z < black.indexOf a := by
  intro l
  induction l with
  | nil =>
    intro a _ hne
    exact absurd rfl hne
  | cons b l2 ih =>
    intro a hc _ hmem z hz
    have hab : edge g a b := (List.chain'_cons.1 hc).1
    have hba : before black b a :=
      hclosed a (hmem a (List.mem_cons_self a _)) b hab.2.2 hab.2.1
    have hidxba : black.indexOf b < black.indexOf a := indexOf_lt_of_before hnd hba
    by_cases hl2 : l2 = []
    · subst hl2
      have hbz : b = z := by simpa using hz
      rw [← hbz]
      exact hidxba
    · have hz2 : (b :: l2).getLast? = some z := by
        cases l2 with
        | nil => exact absurd rfl hl2
        | cons c l3 =>
          rw [List.getLast?_cons_cons] at hz
          exact hz
      have := ih b (List.chain'_cons.1 hc).2 hl2
        (fun x hx => hmem x (List.mem_cons_of_mem a hx)) z hz2
      omega

theorem terminal_acyclic {g : TS} {d : DfsState} (h : DInv g d)
    (hs : d.stack = []) (hr : d.roots = []) : ¬ hasCycle g := by
  rintro ⟨c, hlen, hheadlast, hchain⟩
  have hallblack : ∀ x, liveAt g x = true → x ∈ d.black := by
    intro x hx
    rcases h.cover x hx with h1 | h1 | h1
    · exact h1
    · unfold greys at h1
      rw [hs] at h1
      simp at h1
    · rw [hr] at h1
      simp at h1
  cases c with
  | nil => simp at hlen
  | cons a l =>
    have hlne : l ≠ [] := by
      intro he
      subst he
      simp at hlen
    have hlive := chain_live l a hchain hlne
    have hmem : ∀ x ∈ a :: l, x ∈ d.black := fun x hx => hallblack x (hlive x hx)
    have hlast : (a :: l).getLast? = some a := by
      rw [← hheadlast]
      rfl
    have := chain_idx_lt h.blackNodup h.blackClosed l a hchain hlne hmem a hlast
    omega

theorem detectCycle_sound {g : TS} {c : List Nat} (h : detectCycle g = some c) :
    isCycle g c := by
  unfold detectCycle at h
  cases hrun : dfsRun g (dfsMeasure g (dfsInit g) + 1) (dfsInit g) with
  | none =>
    rw [hrun] at h
    cases h
  | some out =>
    rw [hrun] at h
    simp only [] at h
    obtain ⟨dfin, hinv, hstep⟩ := dfsRun_inv _ _ out (DInv_init g) hrun
    rw [h] at hstep
    exact dfsStep_cycle hinv hstep

theorem detectCycle_none_acyclic {g : TS} (h : detectCycle g = none) :
    ¬ hasCycle g := by
  unfold detectCycle at h
  cases hrun : dfsRun g (dfsMeasure g (dfsInit g) + 1) (dfsInit g) with
  | none =>
    have hsome := @dfsRun_isSome g (dfsMeasure g (dfsInit g) + 1) (dfsInit g)
      (by omega)
    rw [hrun] at hsome
    simp at hsome
  | some out =>
    rw [hrun] at h
    simp only [] at h
    obtain ⟨dfin, hinv, hstep⟩ := dfsRun_inv _ _ out (DInv_init g) hrun
    rw [h] at hstep
    obtain ⟨hs, hr⟩ := dfsStep_none hstep
    exact terminal_acyclic hinv hs hr

theorem detectCycle_some_of_hasCycle {g : TS} (h : hasCycle g) :
    ∃ c, detectCycle g = some c := by
  cases hdc : detectCycle g with
  | none => exact absurd h (detectCycle_none_acyclic hdc)
  | some c => exact ⟨c, rfl⟩

theorem detectCycle_none_of_acyclic {g : TS} (h : ¬ hasCycle g) :
    detectCycle g = none := by
  cases hdc : detectCycle g with
  | none => rfl
  | some c => exact absurd ⟨c, detectCycle_sound hdc⟩ h

/-- The first still-counted predecessor of a node (used to exhibit a cycle
when the engine is active with an empty ready queue). -/
def pickPred (s : TS) (v : Nat) : Nat :=
  ((predsOf s v).find? (fun p => counted s p)).getD 0

/-- The path v, f v, f (f v), ... of length m+1, listed deepest iterate
first. -/
def iterPath (f : Nat → Nat) : Nat → Nat → List Nat
  | 0, v => [v]
  | m+1, v => iterPath f m (f v) ++ [v]

theorem iterPath_ne_nil (f : Nat → Nat) (m v : Nat) : iterPath f m v ≠ [] := by
  cases m with
  | zero => simp [iterPath]
  | succ m2 => simp [iterPath]

theorem iterPath_getLast? (f : Nat → Nat) (m v : Nat) :
    (iterPath f m v).getLast? = some v := by
  cases m with
  | zero => rfl
  | succ m2 =>
    unfold iterPath
    rw [List.getLast?_concat]

theorem iterPath_head? (f : Nat → Nat) :
    ∀ (m v : Nat), (iterPath f m v).head? = some (f^[m] v) := by
  intro m
  induction m with
  | zero =>
    intro v
    rfl
  | succ m2 ih =>
    intro v
    unfold iterPath
    rw [List.head?_append, ih (f v)]
    rw [Function.iterate_succ_apply]
    rfl

theorem iterPath_length (f : Nat → Nat) : ∀ (m v : Nat),
    (iterPath f m v).length = m + 1 := by
  intro m
  induction m with
  | zero => intro v; rfl
  | succ m2 ih =>
    intro v
    unfold iterPath
    rw [List.length_append, ih (f v)]
    simp

theorem iterPath_chain {g : TS} {f : Nat → Nat} {Q : Nat → Prop}
    (hstep : ∀ x, Q x → Q (f x) ∧ edge g (f x) x) :
    ∀ (m v : Nat), Q v → List.Chain' (edge g) (iterPath f m v) := by
  intro m
  induction m with
  | zero =>
    intro v _
    exact List.chain'_singleton v
  | succ m2 ih =>
    intro v hv
    unfold iterPath
    rw [List.chain'_append]
    refine ⟨ih (f v) (hstep v hv).1, List.chain'_singleton v, ?_⟩
    intro x hx y hy
    rw [iterPath_getLast? f m2 (f v)] at hx
    have hxfv : f v = x := by simpa using hx
    have hyv : v = y := by simpa using hy
    rw [← hxfv, ← hyv]
    exact (hstep v hv).2

theorem nodup_subset_length {l l2 : List Nat} (hnd : l.Nodup)
    (hsub : ∀ x ∈ l, x ∈ l2) : l.length ≤ l2.length := by
  have h1 : l.toFinset.card = l.length := List.toFinset_card_of_nodup hnd
  have h2 : l.toFinset ⊆ l2.toFinset := by
    intro x hx
    rw [List.mem_toFinset] at hx ⊢
    exact hsub x hx
  have h3 : l2.toFinset.card ≤ l2.length := List.toFinset_card_le l2
  have h4 := Finset.card_le_card h2
  omega

theorem counted_not_removed {s : TS} {p : Nat} (h : counted s p = true) :
    liveAt s p = true ∧ stateOf s p ≠ .DONE ∧ stateOf s p ≠ .REMOVED ∧
      p < s.nodes.length := by
  unfold counted at h
  cases hp : s.nodes[p]? with
  | none =>
    rw [hp] at h
    exact Bool.noConfusion h
  | some nd =>
    rw [hp] at h
    simp at h
    refine ⟨?_, ?_, ?_, lt_of_getElem?_node hp⟩
    · unfold liveAt
      rw [hp]
      simp [h.2]
    · rw [stateOf_eq_of_getElem? hp]
      exact h.1
    · rw [stateOf_eq_of_getElem? hp]
      exact h.2

theorem pickPred_step {s : TS} (h : Inv s) (hrun : s.stage = .RUNNING)
    (hready : s.ready = []) (hnoproc : ∀ i, stateOf s i ≠ .PROCESSING) :
    ∀ v, stateOf s v = .NEW →
      stateOf s (pickPred s v) = .NEW ∧ edge s (pickPred s v) v := by
  intro v hv
  have hvlt : v < s.nodes.length := by
    obtain ⟨nd, hnd⟩ := @getElem?_some_of_stateOf s v (by rw [hv]; simp)
    exact lt_of_getElem?_node hnd
  have hpos : 0 < indegOf s v := h.runningNew hrun v (List.mem_range.2 hvlt) hv
  have hindeg := h.indeg v (List.mem_range.2 hvlt)
  simp at hindeg
  have hcp : 0 < countedPreds s v := by omega
  have hex : ∃ x, x ∈ predsOf s v ∧ counted s x = true := by
    unfold countedPreds at hcp
    cases hf : (predsOf s v).filter (fun j => counted s j) with
    | nil =>
      rw [hf] at hcp
      simp at hcp
    | cons a rest =>
      have ha : a ∈ (predsOf s v).filter (fun j => counted s j) := by
        rw [hf]
        exact List.mem_cons_self a rest
      have := List.mem_filter.1 ha
      exact ⟨a, this.1, this.2⟩
  have hfsome : ((predsOf s v).find? (fun p => counted s p)).isSome := by
    rw [List.find?_isSome]
    exact hex
  obtain ⟨p, hp⟩ := Option.isSome_iff_exists.1 hfsome
  have hpp : pickPred s v = p := by
    unfold pickPred
    rw [hp]
    rfl
  have hpcounted : counted s p = true := List.find?_some hp
  have hpmem : p ∈ predsOf s v := List.mem_of_find?_eq_some hp
  obtain ⟨hplive, hpnd, hpnr, hplt⟩ := counted_not_removed hpcounted
  have hpnew : stateOf s p = .NEW := by
    cases hps : stateOf s p with
    | NEW => rfl
    | DONE => exact absurd hps hpnd
    | REMOVED => exact absurd hps hpnr
    | PROCESSING => exact absurd hps (hnoproc p)
    | READY =>
      have := h.readyComplete p (List.mem_range.2 hplt) hps
      rw [hready] at this
      simp at this
  rw [hpp]
  refine ⟨hpnew, hplive, ?_, ?_⟩
  · unfold liveAt
    obtain ⟨nd, hnd⟩ := @getElem?_some_of_stateOf s v (by rw [hv]; simp)
    rw [hnd]
    rw [stateOf_eq_of_getElem? hnd] at hv
    simp [hv]
  · exact (h.dual v (List.mem_range.2 hvlt) p (List.mem_range.2 hplt)).1 hpmem

theorem hasCycle_of_stuck {s : TS} (h : Inv s) (hrun : s.stage = .RUNNING)
    (hready : s.ready = []) (hnoproc : ∀ i, stateOf s i ≠ .PROCESSING)
    {v0 : Nat} (hv0 : stateOf s v0 = .NEW) : hasCycle s := by
  set f := pickPred s with hfdef
  set n := s.nodes.length with hndef
  have hstep := pickPred_step h hrun hready hnoproc
  have hiter : ∀ k, stateOf s (f^[k] v0) = .NEW := by
    intro k
    induction k with
    | zero => exact hv0
    | succ k2 ih =>
      rw [Function.iterate_succ_apply']
      exact (hstep _ ih).1
  have hlt : ∀ k, f^[k] v0 < n := by
    intro k
    obtain ⟨nd, hnd⟩ := @getElem?_some_of_stateOf s (f^[k] v0)
      (by rw [hiter k]; simp)
    exact lt_of_getElem?_node hnd
  set L := (List.range (n + 1)).map (fun k => f^[k] v0) with hLdef
  have hLlen : L.length = n + 1 := by
    rw [hLdef]
    simp
  have hnotnodup : ¬ L.Nodup := by
    intro hnd
    have hsub : ∀ x ∈ L, x ∈ List.range n := by
      intro x hx
      rw [hLdef] at hx
      obtain ⟨k, _, hk⟩ := List.mem_map.1 hx
      rw [← hk]
      exact List.mem_range.2 (hlt k)
    have := nodup_subset_length hnd hsub
    rw [hLlen] at this
    simp at this
  have hdup : ∃ i j : Nat, i < j ∧ j < L.length ∧ L[i]? = L[j]? := by
    by_contra hno
    push_neg at hno
    exact hnotnodup (List.nodup_iff_getElem?_ne_getElem?.2 hno)
  obtain ⟨i, j, hij, hjlen, heq⟩ := hdup
  have hLi : L[i]? = some (f^[i] v0) := by
    rw [hLdef]
    rw [List.getElem?_map, List.getElem?_range (by rw [hLdef] at hjlen; simp at hjlen; omega)]
    rfl
  have hLj : L[j]? = some (f^[j] v0) := by
    rw [hLdef]
    rw [List.getElem?_map, List.getElem?_range (by rw [hLdef] at hjlen; simp at hjlen; omega)]
    rfl
  rw [hLi, hLj] at heq
  have heq2 : f^[i] v0 = f^[j] v0 := by simpa using heq
  set m := j - i with hmdef
  have hm1 : 1 ≤ m := by omega
  refine ⟨iterPath f m (f^[i] v0), ?_, ?_, ?_⟩
  · rw [iterPath_length]
    omega
  · rw [iterPath_head?, iterPath_getLast?]
    rw [← Function.iterate_add_apply]
    have : m + i = j := by omega
    rw [this, ← heq2]
  · exact @iterPath_chain s f (fun x => stateOf s x = .NEW) hstep m (f^[i] v0)
      (hiter i)

theorem identityOf_eq_of_getElem? {s : TS} {k : Nat} {nd : Node}
    (h : s.nodes[k]? = some nd) : identityOf s k = nd.identity := by
  unfold identityOf
  rw [h]

theorem succsOf_eq_of_getElem? {s : TS} {k : Nat} {nd : Node}
    (h : s.nodes[k]? = some nd) : succsOf s k = nd.succs := by
  unfold succsOf
  rw [h]

theorem predsOf_eq_of_getElem? {s : TS} {k : Nat} {nd : Node}
    (h : s.nodes[k]? = some nd) : predsOf s k = nd.preds := by
  unfold predsOf
  rw [h]

theorem liveAt_eq_of_getElem? {s : TS} {k : Nat} {nd : Node}
    (h : s.nodes[k]? = some nd) : liveAt s k = decide (nd.state ≠ .REMOVED) := by
  unfold liveAt
  rw [h]

/-- Two engine states describe the same graph: equal arena length and, at
every internal id, the same identity, successors, predecessors and
liveness. -/
def sameShape (s t : TS) : Prop :=
  t.nodes.length = s.nodes.length ∧
  ∀ i : Nat, identityOf t i = identityOf s i ∧ succsOf t i = succsOf s i ∧
    predsOf t i = predsOf s i ∧ liveAt t i = liveAt s i

theorem sameShape_refl (s : TS) : sameShape s s :=
  ⟨rfl, fun _ => ⟨rfl, rfl, rfl, rfl⟩⟩

theorem sameShape_trans {s t u : TS} (h1 : sameShape s t) (h2 : sameShape t u) :
    sameShape s u := by
  refine ⟨h2.1.trans h1.1, fun i => ?_⟩
  obtain ⟨a1, b1, c1, d1⟩ := h1.2 i
  obtain ⟨a2, b2, c2, d2⟩ := h2.2 i
  exact ⟨a2.trans a1, b2.trans b1, c2.trans c1, d2.trans d1⟩

theorem edge_sameShape {s t : TS} (h : sameShape s t) (i j : Nat) :
    edge t i j ↔ edge s i j := by
  unfold edge
  rw [(h.2 i).2.2.2, (h.2 j).2.2.2, (h.2 i).2.1]

theorem hasCycle_sameShape {s t : TS} (h : sameShape s t) (hc : hasCycle t) :
    hasCycle s := by
  obtain ⟨c, hlen, hhl, hch⟩ := hc
  exact ⟨c, hlen, hhl,
    List.Chain'.imp (fun a b hab => (edge_sameShape h a b).1 hab) hch⟩

theorem sameShape_set {s : TS} {i : Nat} {nd nd2 : Node} (r2 : List Nat)
    (st2 : Stage) (hnd : s.nodes[i]? = some nd)
    (hid : nd2.identity = nd.identity) (hp : nd2.preds = nd.preds)
    (hs : nd2.succs = nd.succs) (hl : nd2.state = .REMOVED ↔ nd.state = .REMOVED) :
    sameShape s { nodes := s.nodes.set i nd2, ready := r2, stage := st2 } := by
  refine ⟨by simp, fun k => ?_⟩
  have hget : ({ nodes := s.nodes.set i nd2, ready := r2, stage := st2 } : TS).nodes[k]? =
      if k = i then some nd2 else s.nodes[k]? := getElem?_set_node hnd nd2 k
  by_cases hk : k = i
  · subst hk
    rw [if_pos rfl] at hget
    refine ⟨?_, ?_, ?_, ?_⟩
    · rw [identityOf_eq_of_getElem? hget, identityOf_eq_of_getElem? hnd, hid]
    · rw [succsOf_eq_of_getElem? hget, succsOf_eq_of_getElem? hnd, hs]
    · rw [predsOf_eq_of_getElem? hget, predsOf_eq_of_getElem? hnd, hp]
    · rw [liveAt_eq_of_getElem? hget, liveAt_eq_of_getElem? hnd]
      exact decide_eq_decide.2 (not_congr hl)
  · rw [if_neg hk] at hget
    exact ⟨identityOf_congr hget, succsOf_congr hget, predsOf_congr hget,
      liveAt_congr hget⟩

theorem sameShape_decSucc (s : TS) (j : Nat) : sameShape s (decSucc s j) := by
  cases hnd : s.nodes[j]? with
  | none => rw [decSucc_nodes_none hnd]; exact sameShape_refl s
  | some nd =>
    unfold decSucc
    rw [hnd]
    simp only []
    by_cases hc : s.stage = .RUNNING ∧ nd.state = .NEW ∧ nd.indegree = 1
    · rw [if_pos hc]
      refine sameShape_set _ _ hnd rfl rfl rfl ?_
      show NState.READY = .REMOVED ↔ nd.state = .REMOVED
      rw [hc.2.1]
      simp
    · rw [if_neg hc]
      exact sameShape_set _ _ hnd rfl rfl rfl Iff.rfl

theorem sameShape_foldl_decSucc (L : List Nat) : ∀ (s : TS),
    sameShape s (L.foldl decSucc s) := by
  induction L with
  | nil => intro s; exact sameShape_refl s
  | cons j rest ih =>
    intro s
    simp only [List.foldl_cons]
    exact sameShape_trans (sameShape_decSucc s j) (ih (decSucc s j))

theorem sameShape_markDone {s : TS} {i : Nat} (h : stateOf s i ≠ .REMOVED) :
    sameShape s (markDone s i) := by
  obtain ⟨nd, hnd⟩ := getElem?_some_of_stateOf h
  rw [markDone_eq hnd]
  refine sameShape_trans ?_ (sameShape_foldl_decSucc nd.succs _)
  have hst : nd.state ≠ .REMOVED := by
    rw [stateOf_eq_of_getElem? hnd] at h
    exact h
  exact sameShape_set s.ready s.stage hnd rfl rfl rfl (by simp [hst])

theorem sameShape_foldl_markDone (ids : List Nat) : ∀ (s : TS), ids.Nodup →
    (∀ i ∈ ids, stateOf s i = .PROCESSING) →
    sameShape s (ids.foldl markDone s) := by
  induction ids with
  | nil => intro s _ _; exact sameShape_refl s
  | cons i rest ih =>
    intro s hnd hall
    simp only [List.foldl_cons]
    have hi : stateOf s i = .PROCESSING := hall i (List.mem_cons_self i rest)
    have h1 : sameShape s (markDone s i) := sameShape_markDone (by rw [hi]; simp)
    refine sameShape_trans h1 (ih (markDone s i) (List.nodup_cons.1 hnd).2 ?_)
    intro j hj
    have hji : j ≠ i := fun he => (List.nodup_cons.1 hnd).1 (he ▸ hj)
    cases stateOf_markDone_other hji with
    | inl he => rw [he]; exact hall j (List.mem_cons_of_mem i hj)
    | inr he =>
      rw [hall j (List.mem_cons_of_mem i hj)] at he
      exact absurd he.1 (by decide)

theorem foldl_decSucc_stage (L : List Nat) : ∀ (s : TS),
    (L.foldl decSucc s).stage = s.stage := by
  induction L with
  | nil => intro s; rfl
  | cons j rest ih =>
    intro s
    simp only [List.foldl_cons]
    rw [ih (decSucc s j), decSucc_stage]

theorem markDone_stage (s : TS) (i : Nat) : (markDone s i).stage = s.stage := by
  cases hnd : s.nodes[i]? with
  | none => unfold markDone; rw [hnd]
  | some nd =>
    rw [markDone_eq hnd]
    rw [foldl_decSucc_stage nd.succs _]

theorem foldl_markDone_stage (L : List Nat) : ∀ (s : TS),
    (L.foldl markDone s).stage = s.stage := by
  induction L with
  | nil => intro s; rfl
  | cons i rest ih =>
    intro s
    simp only [List.foldl_cons]
    rw [ih (markDone s i), markDone_stage]

theorem processReady_getElem? {s : TS} (hrnd : s.ready.Nodup) (k : Nat) :
    (processReady s)[k]? = if k ∈ s.ready
      then (s.nodes[k]?).map (fun nd => { nd with state := .PROCESSING })
      else s.nodes[k]? := by
  unfold processReady
  exact getElem?_foldl_modify (fun nd => { nd with state := .PROCESSING })
    s.ready s.nodes k hrnd

theorem length_processReady (s : TS) : (processReady s).length = s.nodes.length := by
  unfold processReady
  exact length_foldl_modify _ s.ready s.nodes

theorem sameShape_get_ready {s : TS} (h : Inv s) :
    sameShape s { s with nodes := processReady s, ready := ([] : List Nat) } := by
  refine ⟨length_processReady s, fun k => ?_⟩
  by_cases hk : k ∈ s.ready
  · obtain ⟨hlt, hst⟩ := h.readyBound k hk
    have hnd : s.nodes[k]? = some s.nodes[k] := List.getElem?_eq_getElem hlt
    have hget : ({ s with nodes := processReady s, ready := ([] : List Nat) } : TS).nodes[k]? =
        some { s.nodes[k] with state := .PROCESSING } := by
      show (processReady s)[k]? = _
      rw [processReady_getElem? h.readyNodup k, if_pos hk, hnd]
      rfl
    have hstate : (s.nodes[k]).state = .READY := by
      rw [stateOf_eq_of_getElem? hnd] at hst
      exact hst
    refine ⟨?_, ?_, ?_, ?_⟩
    · rw [identityOf_eq_of_getElem? hget, identityOf_eq_of_getElem? hnd]
    · rw [succsOf_eq_of_getElem? hget, succsOf_eq_of_getElem? hnd]
    · rw [predsOf_eq_of_getElem? hget, predsOf_eq_of_getElem? hnd]
    · rw [liveAt_eq_of_getElem? hget, liveAt_eq_of_getElem? hnd, hstate]
      rfl
  · have hget : ({ s with nodes := processReady s, ready := ([] : List Nat) } : TS).nodes[k]? =
        s.nodes[k]? := by
      show (processReady s)[k]? = _
      rw [processReady_getElem? h.readyNodup k, if_neg hk]
    exact ⟨identityOf_congr hget, succsOf_congr hget, predsOf_congr hget,
      liveAt_congr hget⟩

theorem resolveAll_map_identityOf {s : TS} (hnd : (s.nodes.map Node.identity).Nodup) :
    ∀ l : List Nat, (∀ i ∈ l, i < s.nodes.length) →
    resolveAll s (l.map (identityOf s)) = some l := by
  intro l
  induction l with
  | nil => intro _; rfl
  | cons i rest ih =>
    intro hall
    have hi : i < s.nodes.length := hall i (List.mem_cons_self i rest)
    have hndi : s.nodes[i]? = some s.nodes[i] := List.getElem?_eq_getElem hi
    have hfind : findId s.nodes (identityOf s i) = some i := by
      rw [identityOf_eq_of_getElem? hndi]
      exact findId_of_getElem? hnd hndi
    have hrest : resolveAll s (rest.map (identityOf s)) = some rest :=
      ih (fun j hj => hall j (List.mem_cons_of_mem i hj))
    show resolveAll s (identityOf s i :: rest.map (identityOf s)) = some (i :: rest)
    unfold resolveAll
    rw [hfind, hrest]

theorem getElem?_of_mem_list {α : Type} {l : List α} {a : α} (h : a ∈ l) :
    ∃ i : Nat, l[i]? = some a := by
  induction l with
  | nil => simp at h
  | cons x xs ih =>
    rcases List.mem_cons.1 h with h1 | h2
    · exact ⟨0, by rw [h1]; simp⟩
    · obtain ⟨i, hi⟩ := ih h2
      exact ⟨i + 1, by simpa using hi⟩

theorem mem_of_getElem?_list {α : Type} {l : List α} {i : Nat} {a : α}
    (h : l[i]? = some a) : a ∈ l := by
  induction l generalizing i with
  | nil => simp at h
  | cons x xs ih =>
    cases i with
    | zero =>
      simp at h
      exact h ▸ List.mem_cons_self x xs
    | succ n =>
      simp at h
      exact List.mem_cons_of_mem x (ih h)

theorem mem_of_superset_length {l l2 : List Nat} (hnd : l.Nodup) (hnd2 : l2.Nodup)
    (hsub : ∀ x ∈ l, x ∈ l2) (hlen : l2.length ≤ l.length) :
    ∀ x ∈ l2, x ∈ l := by
  have h1 : l.toFinset ⊆ l2.toFinset := fun x hx =>
    List.mem_toFinset.2 (hsub x (List.mem_toFinset.1 hx))
  have hc1 : l.toFinset.card = l.length := List.toFinset_card_of_nodup hnd
  have hc2 : l2.toFinset.card = l2.length := List.toFinset_card_of_nodup hnd2
  have heq : l.toFinset = l2.toFinset :=
    Finset.eq_of_subset_of_card_le h1 (by omega)
  intro x hx
  have hx2 : x ∈ l2.toFinset := List.mem_toFinset.2 hx
  rw [← heq] at hx2
  exact List.mem_toFinset.1 hx2

theorem stateOf_ne_removed_of_liveAt {s : TS} {i : Nat} (h : liveAt s i = true) :
    stateOf s i ≠ .REMOVED := by
  unfold liveAt at h
  cases hnd : s.nodes[i]? with
  | none => rw [hnd] at h; exact Bool.noConfusion h
  | some nd =>
    rw [hnd] at h
    rw [stateOf_eq_of_getElem? hnd]
    exact of_decide_eq_true h

theorem liveAt_true_of_done {t : TS} {i : Nat} (h : stateOf t i = .DONE) :
    liveAt t i = true := by
  obtain ⟨nd, hnd⟩ := getElem?_some_of_stateOf (by rw [h]; simp)
  rw [liveAt_eq_of_getElem? hnd]
  rw [stateOf_eq_of_getElem? hnd] at h
  simp [h]

theorem state_done_of_not_counted {s : TS} {i : Nat} (hlive : liveAt s i = true)
    (hc : counted s i = false) : stateOf s i = .DONE := by
  have hlt := lt_of_liveAt hlive
  have hiff := counted_true_iff hlt
  have hnr := stateOf_ne_removed_of_liveAt hlive
  by_contra hnd
  have : counted s i = true := hiff.2 ⟨hnd, hnr⟩
  rw [this] at hc
  exact Bool.noConfusion hc

theorem done_pred_of_ready {t : TS} (hinv : Inv t) {i j : Nat}
    (he : edge t i j) (hj : stateOf t j = .READY) : stateOf t i = .DONE := by
  obtain ⟨hli, hlj, hsucc⟩ := he
  have hilt := lt_of_liveAt hli
  have hjlt := lt_of_liveAt hlj
  have hpred : i ∈ predsOf t j :=
    (hinv.dual j (List.mem_range.2 hjlt) i (List.mem_range.2 hilt)).2 hsucc
  have hindeg : indegOf t j = 0 :=
    hinv.zeroIndeg j (List.mem_range.2 hjlt) (Or.inl hj)
  have hcp : countedPreds t j = 0 := by
    have := hinv.indeg j (List.mem_range.2 hjlt)
    simp at this
    omega
  have hci : counted t i = false := by
    cases hcc : counted t i with
    | false => rfl
    | true =>
      have := countedPreds_pos_of_counted_pred hpred hcc
      omega
  exact state_done_of_not_counted hli hci

theorem all_done_of_not_active {t : TS} (h : is_active t = false) :
    ∀ i, liveAt t i = true → stateOf t i = .DONE := by
  intro i hlive
  obtain ⟨nd, hnd⟩ := getElem?_some_of_stateOf (stateOf_ne_removed_of_liveAt hlive)
  have hmem : nd ∈ t.nodes := mem_of_getElem?_node hnd
  have hnr : nd.state ≠ .REMOVED := by
    have := stateOf_ne_removed_of_liveAt hlive
    rw [stateOf_eq_of_getElem? hnd] at this
    exact this
  rw [stateOf_eq_of_getElem? hnd]
  by_contra hne
  have hany : t.nodes.any
      (fun nd => decide (nd.state ≠ .DONE) && decide (nd.state ≠ .REMOVED)) = true :=
    List.any_eq_true.2 ⟨nd, hmem, by simp [hne, hnr]⟩
  unfold is_active at h
  rw [hany] at h
  exact Bool.noConfusion h

theorem is_active_false_of_all_done {t : TS}
    (hfin : ∀ i, liveAt t i = true → stateOf t i = .DONE) :
    is_active t = false := by
  cases hb : is_active t with
  | false => rfl
  | true =>
    unfold is_active at hb
    rw [List.any_eq_true] at hb
    obtain ⟨nd, hmem, hcond⟩ := hb
    obtain ⟨k, hk⟩ := getElem?_of_mem_list hmem
    simp at hcond
    have hlive : liveAt t k = true := by
      rw [liveAt_eq_of_getElem? hk]
      simp [hcond.2]
    have := hfin k hlive
    rw [stateOf_eq_of_getElem? hk] at this
    exact absurd this hcond.1

/-- Number of live (non-removed) nodes. -/
def liveCount (s : TS) : Nat :=
  ((List.range s.nodes.length).filter (fun i => liveAt s i)).length

/-- The loop invariant of the drain loop of static_order, relating the
running state t to the reference state s0 and to the list dids of internal
ids already yielded and marked done. -/
structure DrainInv (s0 t : TS) (dids : List Nat) : Prop where
  inv : Inv t
  stg : t.stage = .RUNNING
  noproc : ∀ i, stateOf t i ≠ .PROCESSING
  shape : sameShape s0 t
  dnodup : dids.Nodup
  dmem : ∀ i, i ∈ dids ↔ stateOf t i = .DONE
  dresp : ∀ a b i j : Nat,
    dids[a]? = some i → dids[b]? = some j → edge s0 i j → a < b
  dclosed : ∀ i j, edge s0 i j → stateOf t j = .DONE → stateOf t i = .DONE

theorem ready_ne_nil_of_active {s0 t : TS} {dids : List Nat}
    (hdi : DrainInv s0 t dids) (hact : is_active t = true) (hac : ¬ hasCycle s0) :
    t.ready ≠ [] := by
  intro hready
  unfold is_active at hact
  rw [List.any_eq_true] at hact
  obtain ⟨nd, hmem, hcond⟩ := hact
  obtain ⟨k, hk⟩ := getElem?_of_mem_list hmem
  simp at hcond
  have hst := stateOf_eq_of_getElem? hk
  have hklt : k < t.nodes.length := lt_of_getElem?_node hk
  have hnew : stateOf t k = .NEW := by
    cases hs2 : nd.state with
    | NEW => rw [hst, hs2]
    | DONE => exact absurd hs2 hcond.1
    | REMOVED => exact absurd hs2 hcond.2
    | PROCESSING =>
      rw [hs2] at hst
      exact absurd hst (hdi.noproc k)
    | READY =>
      rw [hs2] at hst
      have := hdi.inv.readyComplete k (List.mem_range.2 hklt) hst
      rw [hready] at this
      simp at this
  exact hac (hasCycle_sameShape hdi.shape
    (hasCycle_of_stuck hdi.inv hdi.stg hready hdi.noproc hnew))

theorem drain_step {s0 t t1 : TS} {dids : List Nat} (hdi : DrainInv s0 t dids)
    (ht1 : t1 = { t with nodes := processReady t, ready := ([] : List Nat) }) :
    done t1 (t.ready.map (identityOf t)) = (t.ready.foldl markDone t1, none) ∧
    DrainInv s0 (t.ready.foldl markDone t1) (dids ++ t.ready) := by
  have hsh1 : sameShape t t1 := by rw [ht1]; exact sameShape_get_ready hdi.inv
  have hsh01 : sameShape s0 t1 := sameShape_trans hdi.shape hsh1
  have hinv1 : Inv t1 := by
    have := Inv_get_ready t hdi.inv
    rw [get_ready_eq_running hdi.stg] at this
    rw [ht1]
    exact this
  have hstg1 : t1.stage = .RUNNING := by rw [ht1]; exact hdi.stg
  have hlen1 : t1.nodes.length = t.nodes.length := hsh1.1
  have hstate1 : ∀ k, stateOf t1 k =
      if k ∈ t.ready then .PROCESSING else stateOf t k := by
    intro k
    by_cases hk : k ∈ t.ready
    · obtain ⟨hlt, hstk⟩ := hdi.inv.readyBound k hk
      have hndk : t.nodes[k]? = some t.nodes[k] := List.getElem?_eq_getElem hlt
      have hget : t1.nodes[k]? = some { t.nodes[k] with state := .PROCESSING } := by
        rw [ht1]
        show (processReady t)[k]? = _
        rw [processReady_getElem? hdi.inv.readyNodup k, if_pos hk, hndk]
        rfl
      rw [stateOf_eq_of_getElem? hget, if_pos hk]
    · have hget : t1.nodes[k]? = t.nodes[k]? := by
        rw [ht1]
        show (processReady t)[k]? = _
        rw [processReady_getElem? hdi.inv.readyNodup k, if_neg hk]
      rw [stateOf_congr hget, if_neg hk]
  have hproc1 : ∀ i ∈ t.ready, stateOf t1 i = .PROCESSING := fun i hi => by
    rw [hstate1 i, if_pos hi]
  have hres : resolveAll t1 (t.ready.map (identityOf t)) = some t.ready := by
    have hmapeq : t.ready.map (identityOf t) = t.ready.map (identityOf t1) :=
      List.map_congr_left (fun i _ => ((hsh1.2 i).1).symm)
    rw [hmapeq]
    refine resolveAll_map_identityOf hinv1.idsNodup t.ready ?_
    intro i hi
    rw [hlen1]
    exact (hdi.inv.readyBound i hi).1
  have hguard : t.ready.Nodup ∧ ∀ i ∈ t.ready, stateOf t1 i = .PROCESSING :=
    ⟨hdi.inv.readyNodup, hproc1⟩
  have hdone : done t1 (t.ready.map (identityOf t)) =
      (t.ready.foldl markDone t1, none) := by
    unfold done
    rw [if_pos hstg1, hres]
    show (if t.ready.Nodup ∧ ∀ i ∈ t.ready, stateOf t1 i = .PROCESSING then
        ((t.ready.foldl markDone t1, (none : Option Err)))
      else (t1, some Err.notProcessing)) = _
    rw [if_pos hguard]
  refine ⟨hdone, ?_⟩
  have hinv2 : Inv (t.ready.foldl markDone t1) :=
    Inv_foldl_markDone t.ready t1 hinv1 hdi.inv.readyNodup hproc1
  have hsh12 : sameShape t1 (t.ready.foldl markDone t1) :=
    sameShape_foldl_markDone t.ready t1 hdi.inv.readyNodup hproc1
  have hsh02 : sameShape s0 (t.ready.foldl markDone t1) :=
    sameShape_trans hsh01 hsh12
  have hstg2 : (t.ready.foldl markDone t1).stage = .RUNNING := by
    rw [foldl_markDone_stage t.ready t1]
    exact hstg1
  have hstate2mem : ∀ k ∈ t.ready, stateOf (t.ready.foldl markDone t1) k = .DONE :=
    stateOf_foldl_markDone_mem t.ready t1 hdi.inv.readyNodup hproc1
  have hstate2other : ∀ k, k ∉ t.ready →
      (stateOf (t.ready.foldl markDone t1) k = stateOf t k ∨
        (stateOf t k = .NEW ∧ stateOf (t.ready.foldl markDone t1) k = .READY)) := by
    intro k hk
    have h1 := foldl_markDone_state_other t.ready t1 k hk
    rw [hstate1 k, if_neg hk] at h1
    exact h1
  have hready_state : ∀ k ∈ t.ready, stateOf t k = .READY := fun k hk =>
    (hdi.inv.readyBound k hk).2
  have hdid_notready : ∀ a ∈ dids, a ∉ t.ready := by
    intro a ha hr
    have h1 := (hdi.dmem a).1 ha
    rw [hready_state a hr] at h1
    exact NState.noConfusion h1
  have hmemfwd : ∀ i ∈ dids, stateOf (t.ready.foldl markDone t1) i = .DONE := by
    intro i hi
    have hD := (hdi.dmem i).1 hi
    have hnr : i ∉ t.ready := hdid_notready i hi
    cases hstate2other i hnr with
    | inl he => rw [he]; exact hD
    | inr he => rw [hD] at he; exact absurd he.1 (by decide)
  have hdm2 : ∀ i, i ∈ dids ++ t.ready ↔
      stateOf (t.ready.foldl markDone t1) i = .DONE := by
    intro i
    constructor
    · intro h
      rcases List.mem_append.1 h with h1 | h2
      · exact hmemfwd i h1
      · exact hstate2mem i h2
    · intro h
      by_cases hk : i ∈ t.ready
      · exact List.mem_append.2 (Or.inr hk)
      · refine List.mem_append.2 (Or.inl ?_)
        cases hstate2other i hk with
        | inl he =>
          rw [he] at h
          exact (hdi.dmem i).2 h
        | inr he =>
          rw [he.2] at h
          exact absurd h (by decide)
  have hclosed2 : ∀ i j, edge s0 i j →
      stateOf (t.ready.foldl markDone t1) j = .DONE →
      stateOf (t.ready.foldl markDone t1) i = .DONE := by
    intro i j hedge hj
    rcases List.mem_append.1 ((hdm2 j).2 hj) with h1 | h2
    · have hDj := (hdi.dmem j).1 h1
      have hDi := hdi.dclosed i j hedge hDj
      exact hmemfwd i ((hdi.dmem i).2 hDi)
    · have hjr : stateOf t j = .READY := hready_state j h2
      have hedget : edge t i j := (edge_sameShape hdi.shape i j).2 hedge
      have hDi : stateOf t i = .DONE := done_pred_of_ready hdi.inv hedget hjr
      exact hmemfwd i ((hdi.dmem i).2 hDi)
  refine ⟨hinv2, hstg2, ?_, hsh02, ?_, hdm2, ?_, hclosed2⟩
  · intro k
    by_cases hk : k ∈ t.ready
    · rw [hstate2mem k hk]
      decide
    · cases hstate2other k hk with
      | inl he => rw [he]; exact hdi.noproc k
      | inr he => rw [he.2]; decide
  · exact List.Nodup.append hdi.dnodup hdi.inv.readyNodup
      (fun a ha hr => hdid_notready a ha hr)
  · intro a b i j ha hb hedge
    by_cases hA : a < dids.length
    · by_cases hB : b < dids.length
      · rw [List.getElem?_append_left hA] at ha
        rw [List.getElem?_append_left hB] at hb
        exact hdi.dresp a b i j ha hb hedge
      · omega
    · have hA2 : dids.length ≤ a := Nat.le_of_not_lt hA
      rw [List.getElem?_append_right hA2] at ha
      have hir : i ∈ t.ready := mem_of_getElem?_list ha
      have hirS : stateOf t i = .READY := hready_state i hir
      by_cases hB : b < dids.length
      · rw [List.getElem?_append_left hB] at hb
        have hjd : j ∈ dids := mem_of_getElem?_list hb
        have hDj := (hdi.dmem j).1 hjd
        have hDi := hdi.dclosed i j hedge hDj
        rw [hirS] at hDi
        exact absurd hDi (by decide)
      · have hB2 : dids.length ≤ b := Nat.le_of_not_lt hB
        rw [List.getElem?_append_right hB2] at hb
        have hjr : j ∈ t.ready := mem_of_getElem?_list hb
        have hjrS : stateOf t j = .READY := hready_state j hjr
        have hedget : edge t i j := (edge_sameShape hdi.shape i j).2 hedge
        have hDi : stateOf t i = .DONE := done_pred_of_ready hdi.inv hedget hjrS
        rw [hirS] at hDi
        exact absurd hDi (by decide)

theorem drain_zero (s : TS) (acc : List Nat) :
    drain 0 s acc = if is_active s then none else some acc := rfl

theorem drain_succ (fuel : Nat) (s : TS) (acc : List Nat) :
    drain (fuel + 1) s acc =
      if is_active s then
        match get_ready s with
        | (_, _, some _) => none
        | (batch, s1, none) =>
          match done s1 batch with
          | (_, some _) => none
          | (s2, none) => drain fuel s2 (acc ++ batch)
      else some acc := rfl

theorem drain_final_props {s0 t : TS} {dids : List Nat} (hdi : DrainInv s0 t dids)
    (hfin : ∀ i, liveAt t i = true → stateOf t i = .DONE) :
    ∀ i, i ∈ dids ↔ liveAt s0 i = true := by
  intro i
  constructor
  · intro h
    have hD := (hdi.dmem i).1 h
    have hlv := liveAt_true_of_done hD
    rw [(hdi.shape.2 i).2.2.2] at hlv
    exact hlv
  · intro h
    have hlt : liveAt t i = true := by
      rw [(hdi.shape.2 i).2.2.2]
      exact h
    exact (hdi.dmem i).2 (hfin i hlt)

theorem drain_complete {s0 : TS} (hac : ¬ hasCycle s0) :
    ∀ (fuel : Nat) (t : TS) (dids : List Nat), DrainInv s0 t dids →
      liveCount s0 ≤ fuel + dids.length →
      ∃ full : List Nat,
        drain fuel t (dids.map (identityOf s0)) = some (full.map (identityOf s0)) ∧
        full.Nodup ∧ (∀ i, i ∈ full ↔ liveAt s0 i = true) ∧
        (∀ a b i j : Nat,
          full[a]? = some i → full[b]? = some j → edge s0 i j → a < b) := by
  intro fuel
  induction fuel with
  | zero =>
    intro t dids hdi hcnt
    have hsub : ∀ x ∈ dids,
        x ∈ (List.range s0.nodes.length).filter (fun i => liveAt s0 i) := by
      intro x hx
      have hD := (hdi.dmem x).1 hx
      have hlv : liveAt t x = true := liveAt_true_of_done hD
      have hlv0 : liveAt s0 x = true := by
        rw [← (hdi.shape.2 x).2.2.2]
        exact hlv
      refine List.mem_filter.2 ⟨List.mem_range.2 ?_, by simp [hlv0]⟩
      have hlt := lt_of_liveAt hlv
      rw [hdi.shape.1] at hlt
      exact hlt
    have hnd2 : ((List.range s0.nodes.length).filter (fun i => liveAt s0 i)).Nodup :=
      (List.nodup_range s0.nodes.length).filter _
    have hlen2 :
        ((List.range s0.nodes.length).filter (fun i => liveAt s0 i)).length ≤
          dids.length := by
      unfold liveCount at hcnt
      omega
    have hall := mem_of_superset_length hdi.dnodup hnd2 hsub hlen2
    have hfin : ∀ i, liveAt t i = true → stateOf t i = .DONE := by
      intro i hlv
      have hlv0 : liveAt s0 i = true := by
        rw [← (hdi.shape.2 i).2.2.2]
        exact hlv
      have hlt0 : i < s0.nodes.length := by
        have hlt := lt_of_liveAt hlv
        rw [hdi.shape.1] at hlt
        exact hlt
      have hmem : i ∈ dids :=
        hall i (List.mem_filter.2 ⟨List.mem_range.2 hlt0, by simp [hlv0]⟩)
      exact (hdi.dmem i).1 hmem
    have hact : is_active t = false := is_active_false_of_all_done hfin
    refine ⟨dids, ?_, hdi.dnodup, drain_final_props hdi hfin, hdi.dresp⟩
    rw [drain_zero, hact]
    simp
  | succ f ih =>
    intro t dids hdi hcnt
    by_cases hact : is_active t = true
    · have hrne := ready_ne_nil_of_active hdi hact hac
      obtain ⟨hdone, hdi2⟩ := drain_step hdi rfl
      have hacc : (dids ++ t.ready).map (identityOf s0) =
          dids.map (identityOf s0) ++ t.ready.map (identityOf t) := by
        rw [List.map_append]
        congr 1
        exact List.map_congr_left (fun i _ => ((hdi.shape.2 i).1).symm)
      have hcnt2 : liveCount s0 ≤ f + (dids ++ t.ready).length := by
        rw [List.length_append]
        have hlen1 : 1 ≤ t.ready.length := by
          cases hr : t.ready with
          | nil => exact absurd hr hrne
          | cons a l => simp
        omega
      obtain ⟨full, hdr, hprops⟩ := ih _ _ hdi2 hcnt2
      refine ⟨full, ?_, hprops⟩
      rw [drain_succ, if_pos hact, get_ready_eq_running hdi.stg]
      simp only []
      rw [hdone]
      simp only []
      rw [← hacc]
      exact hdr
    · have hfb : is_active t = false := by
        cases hb : is_active t with
        | false => rfl
        | true => exact absurd hb hact
      have hfin := all_done_of_not_active hfb
      refine ⟨dids, ?_, hdi.dnodup, drain_final_props hdi hfin, hdi.dresp⟩
      rw [drain_succ, if_neg hact]

/-- The state produced by a successful prepare. -/
def prepared (s : TS) : TS :=
  { nodes := promoteNodes s, ready := initialReady s, stage := .RUNNING }

theorem prepare_eq_prepared {s : TS} (hst : s.stage = .BUILDING)
    (hdc : detectCycle s = none) : prepare s = (prepared s, none) := by
  rw [prepare_eq_ok hst hdc]
  rfl

theorem sameShape_prepared (s : TS) : sameShape s (prepared s) := by
  refine ⟨by simp [prepared, promoteNodes], fun k => ?_⟩
  have hget := promoteNodes_getElem? s k
  cases hnd : s.nodes[k]? with
  | none =>
    rw [hnd, Option.map_none'] at hget
    have h2 : (prepared s).nodes[k]? = s.nodes[k]? := by
      rw [hnd]
      exact hget
    exact ⟨identityOf_congr h2, succsOf_congr h2, predsOf_congr h2,
      liveAt_congr h2⟩
  | some nd =>
    rw [hnd, Option.map_some'] at hget
    by_cases hc : nd.state = .NEW ∧ nd.indegree = 0
    · rw [if_pos hc] at hget
      have h2 : (prepared s).nodes[k]? = some { nd with state := .READY } := hget
      refine ⟨?_, ?_, ?_, ?_⟩
      · rw [identityOf_eq_of_getElem? h2, identityOf_eq_of_getElem? hnd]
      · rw [succsOf_eq_of_getElem? h2, succsOf_eq_of_getElem? hnd]
      · rw [predsOf_eq_of_getElem? h2, predsOf_eq_of_getElem? hnd]
      · rw [liveAt_eq_of_getElem? h2, liveAt_eq_of_getElem? hnd, hc.1]
        rfl
    · rw [if_neg hc] at hget
      have h2 : (prepared s).nodes[k]? = s.nodes[k]? := by
        rw [hnd]
        exact hget
      exact ⟨identityOf_congr h2, succsOf_congr h2, predsOf_congr h2,
        liveAt_congr h2⟩

theorem stateOf_prepared_cases {s : TS} (h : Inv s) (hb : s.stage = .BUILDING)
    (k : Nat) :
    stateOf (prepared s) k = .NEW ∨ stateOf (prepared s) k = .READY ∨
      stateOf (prepared s) k = .REMOVED := by
  have hget := promoteNodes_getElem? s k
  cases hnd : s.nodes[k]? with
  | none =>
    rw [hnd, Option.map_none'] at hget
    have h2 : (prepared s).nodes[k]? = none := hget
    right; right
    unfold stateOf
    rw [h2]
  | some nd =>
    have hklt : k < s.nodes.length := lt_of_getElem?_node hnd
    have hbs := h.buildingStates hb k (List.mem_range.2 hklt)
    rw [stateOf_eq_of_getElem? hnd] at hbs
    rw [hnd, Option.map_some'] at hget
    by_cases hc : nd.state = .NEW ∧ nd.indegree = 0
    · rw [if_pos hc] at hget
      have h2 : (prepared s).nodes[k]? = some { nd with state := .READY } := hget
      right; left
      rw [stateOf_eq_of_getElem? h2]
    · rw [if_neg hc] at hget
      have h2 : (prepared s).nodes[k]? = some nd := hget
      rw [stateOf_eq_of_getElem? h2]
      cases hbs with
      | inl hN => exact Or.inl hN
      | inr hR => exact Or.inr (Or.inr hR)

theorem DrainInv_prepared {s : TS} (h : Inv s) (hb : s.stage = .BUILDING)
    (hdc : detectCycle s = none) : DrainInv s (prepared s) [] := by
  have hcases := stateOf_prepared_cases h hb
  have hnodone : ∀ k, stateOf (prepared s) k ≠ .DONE := by
    intro k
    rcases hcases k with h1 | h1 | h1 <;> rw [h1] <;> decide
  refine ⟨?_, rfl, ?_, sameShape_prepared s, List.nodup_nil, ?_, ?_, ?_⟩
  · have := Inv_prepare s h
    rw [prepare_eq_prepared hb hdc] at this
    exact this
  · intro k
    rcases hcases k with h1 | h1 | h1 <;> rw [h1] <;> decide
  · intro i
    simp only [List.not_mem_nil, false_iff]
    exact fun hD => hnodone i hD
  · intro a b i j ha _hb _he
    simp at ha
  · intro i j _he hD
    exact absurd hD (hnodone j)

theorem indegOf_decSucc_self {s : TS} {j : Nat} (h : 0 < indegOf s j) :
    indegOf (decSucc s j) j + 1 = indegOf s j := by
  cases hnd : s.nodes[j]? with
  | none =>
    have hz : indegOf s j = 0 := by
      unfold indegOf
      rw [hnd]
    omega
  | some nd =>
    have hdeg : indegOf s j = nd.indegree := indegOf_eq_of_getElem? hnd
    unfold decSucc
    rw [hnd]
    simp only []
    by_cases hc : s.stage = .RUNNING ∧ nd.state = .NEW ∧ nd.indegree = 1
    · rw [if_pos hc]
      have hget : ({ s with
          nodes := s.nodes.set j { nd with indegree := 0, state := .READY },
          ready := s.ready ++ [j] } : TS).nodes[j]? =
          some { nd with indegree := 0, state := .READY } := by
        have := getElem?_set_node hnd { nd with indegree := 0, state := .READY } j
        rw [if_pos rfl] at this
        exact this
      rw [indegOf_eq_of_getElem? hget, hdeg, hc.2.2]
    · rw [if_neg hc]
      have hget : ({ s with
          nodes := s.nodes.set j { nd with indegree := nd.indegree - 1 } } : TS).nodes[j]? =
          some { nd with indegree := nd.indegree - 1 } := by
        have := getElem?_set_node hnd { nd with indegree := nd.indegree - 1 } j
        rw [if_pos rfl] at this
        exact this
      rw [indegOf_eq_of_getElem? hget, hdeg]
      show nd.indegree - 1 + 1 = nd.indegree
      rw [hdeg] at h
      omega

theorem indegOf_decSucc_other {s : TS} {a j : Nat} (hj : j ≠ a) :
    indegOf (decSucc s a) j = indegOf s j := by
  cases hnd : s.nodes[a]? with
  | none => rw [decSucc_nodes_none hnd]
  | some nd =>
    have hget := decSucc_nodes hnd j
    rw [if_neg hj] at hget
    exact indegOf_congr hget

theorem indegOf_foldl_decSucc_notmem (L : List Nat) : ∀ (t : TS) (j : Nat),
    j ∉ L → indegOf (L.foldl decSucc t) j = indegOf t j := by
  induction L with
  | nil => intro t j _; rfl
  | cons a rest ih =>
    intro t j hj
    simp only [List.foldl_cons]
    have hja : j ≠ a := fun he => hj (he ▸ List.mem_cons_self a rest)
    rw [ih (decSucc t a) j (fun hm => hj (List.mem_cons_of_mem a hm))]
    exact indegOf_decSucc_other hja

theorem indegOf_foldl_decSucc_mem (L : List Nat) : ∀ (t : TS) (j : Nat),
    L.Nodup → j ∈ L → 0 < indegOf t j →
    indegOf (L.foldl decSucc t) j + 1 = indegOf t j := by
  induction L with
  | nil => intro t j _ hj _; simp at hj
  | cons a rest ih =>
    intro t j hnd hj hpos
    simp only [List.foldl_cons]
    by_cases hja : j = a
    · subst hja
      have hnr : j ∉ rest := (List.nodup_cons.1 hnd).1
      rw [indegOf_foldl_decSucc_notmem rest (decSucc t j) j hnr]
      exact indegOf_decSucc_self hpos
    · have hjr : j ∈ rest := by
        rcases List.mem_cons.1 hj with h1 | h2
        · exact absurd h1 hja
        · exact h2
      have hpos2 : 0 < indegOf (decSucc t a) j := by
        rw [indegOf_decSucc_other hja]
        exact hpos
      rw [ih (decSucc t a) j (List.nodup_cons.1 hnd).2 hjr hpos2,
        indegOf_decSucc_other hja]

/-- Node i is present with identity x and is REMOVED. -/
def removedAt (t : TS) (i x : Nat) : Prop :=
  ∃ nd, t.nodes[i]? = some nd ∧ nd.identity = x ∧ nd.state = .REMOVED

theorem modifyNode_preserve {ns : List Node} {i : Nat} {f : Node → Node}
    (hf : ∀ nd, (f nd).identity = nd.identity ∧ (f nd).state = nd.state)
    {k : Nat} {nd : Node} (h : ns[k]? = some nd) :
    ∃ nd2, (modifyNode ns i f)[k]? = some nd2 ∧ nd2.identity = nd.identity ∧
      nd2.state = nd.state := by
  unfold modifyNode
  cases hi : ns[i]? with
  | none => exact ⟨nd, h, rfl, rfl⟩
  | some ndi =>
    simp only []
    rw [getElem?_set_node hi (f ndi) k]
    by_cases hk : k = i
    · subst hk
      rw [if_pos rfl]
      have hnd : ndi = nd := by
        rw [hi] at h
        exact Option.some.inj h
      exact ⟨f ndi, rfl, by rw [hnd] at *; exact (hf nd).1,
        by rw [hnd] at *; exact (hf nd).2⟩
    · rw [if_neg hk]
      exact ⟨nd, h, rfl, rfl⟩

theorem removedAt_addEdge {t : TS} {i x nid pid : Nat} (h : removedAt t i x) :
    removedAt (addEdge t nid pid) i x := by
  obtain ⟨nd, hnd, hid, hst⟩ := h
  unfold addEdge
  by_cases hmem : pid ∈ predsOf t nid
  · rw [if_pos hmem]
    exact ⟨nd, hnd, hid, hst⟩
  · rw [if_neg hmem]
    obtain ⟨nd1, h1, hi1, hs1⟩ :=
      @modifyNode_preserve t.nodes nid (addPredUpd t pid)
        (fun m => ⟨rfl, rfl⟩) i nd hnd
    obtain ⟨nd2, h2, hi2, hs2⟩ :=
      @modifyNode_preserve (modifyNode t.nodes nid (addPredUpd t pid)) pid
        (fun m => { m with succs := m.succs ++ [nid] })
        (fun m => ⟨rfl, rfl⟩) i nd1 h1
    exact ⟨nd2, h2, by rw [hi2, hi1, hid], by rw [hs2, hs1, hst]⟩

theorem removedAt_intern {t : TS} {i x y : Nat} (h : removedAt t i x) :
    removedAt (intern t y).1 i x := by
  obtain ⟨nd, hnd, hid, hst⟩ := h
  cases hf : findId t.nodes y with
  | some k =>
    rw [intern_found hf]
    exact ⟨nd, hnd, hid, hst⟩
  | none =>
    rw [intern_fresh hf]
    refine ⟨nd, ?_, hid, hst⟩
    show (t.nodes ++ [(⟨y, [], [], 0, .NEW⟩ : Node)])[i]? = some nd
    rw [append_fresh_nodes i, if_pos (lt_of_getElem?_node hnd)]
    exact hnd

theorem removedAt_add_foldl (ps : List Nat) : ∀ (t : TS) (nid i x : Nat),
    removedAt t i x →
    removedAt (ps.foldl (fun acc p =>
      let (t2, pid) := intern acc p
      addEdge t2 nid pid) t) i x := by
  induction ps with
  | nil => intro t nid i x h; exact h
  | cons p rest ih =>
    intro t nid i x h
    simp only [List.foldl_cons]
    exact ih _ nid i x (removedAt_addEdge (removedAt_intern h))

theorem removedAt_add {t : TS} {i x y : Nat} (ps : List Nat)
    (h : removedAt t i x) : removedAt (add t y ps).1 i x := by
  unfold add
  by_cases hst : t.stage = .BUILDING
  · rw [if_pos hst]
    exact removedAt_add_foldl ps _ _ i x (removedAt_intern h)
  · rw [if_neg hst]
    exact h

theorem removedAt_decSucc {t : TS} {i x j : Nat} (h : removedAt t i x) :
    removedAt (decSucc t j) i x := by
  obtain ⟨nd, hnd, hid, hst⟩ := h
  cases hj : t.nodes[j]? with
  | none =>
    rw [decSucc_nodes_none hj]
    exact ⟨nd, hnd, hid, hst⟩
  | some ndj =>
    have hget := decSucc_nodes hj i
    by_cases hij : i = j
    · subst hij
      have hnn : ndj = nd := by
        rw [hj] at hnd
        exact Option.some.inj hnd
      subst hnn
      rw [if_pos rfl] at hget
      have hcond : ¬ (t.stage = .RUNNING ∧ ndj.state = .NEW ∧ ndj.indegree = 1) := by
        intro hc
        rw [hst] at hc
        exact absurd hc.2.1 (by decide)
      rw [if_neg hcond] at hget
      exact ⟨{ ndj with indegree := ndj.indegree - 1 }, hget, hid, hst⟩
    · rw [if_neg hij] at hget
      exact ⟨nd, by rw [hget]; exact hnd, hid, hst⟩

theorem removedAt_foldl_decSucc (L : List Nat) : ∀ (t : TS) {i x : Nat},
    removedAt t i x → removedAt (L.foldl decSucc t) i x := by
  induction L with
  | nil => intro t i x h; exact h
  | cons a rest ih =>
    intro t i x h
    simp only [List.foldl_cons]
    exact ih (decSucc t a) (removedAt_decSucc h)

theorem removedAt_markDone {t : TS} {i x j : Nat} (hji : j ≠ i)
    (h : removedAt t i x) : removedAt (markDone t j) i x := by
  obtain ⟨nd, hnd, hid, hst⟩ := h
  cases hj : t.nodes[j]? with
  | none =>
    unfold markDone
    rw [hj]
    exact ⟨nd, hnd, hid, hst⟩
  | some ndj =>
    rw [markDone_eq hj]
    refine removedAt_foldl_decSucc ndj.succs _ ?_
    refine ⟨nd, ?_, hid, hst⟩
    show (t.nodes.set j { ndj with state := .DONE })[i]? = some nd
    rw [getElem?_set_node hj _ i, if_neg (fun he => hji he.symm)]
    exact hnd

theorem removedAt_markRemoved {t : TS} {i x j : Nat} (hji : j ≠ i)
    (h : removedAt t i x) : removedAt (markRemoved t j) i x := by
  obtain ⟨nd, hnd, hid, hst⟩ := h
  cases hj : t.nodes[j]? with
  | none =>
    unfold markRemoved
    rw [hj]
    exact ⟨nd, hnd, hid, hst⟩
  | some ndj =>
    rw [markRemoved_eq hj]
    refine removedAt_foldl_decSucc ndj.succs _ ?_
    refine ⟨nd, ?_, hid, hst⟩
    show (t.nodes.set j { ndj with state := .REMOVED })[i]? = some nd
    rw [getElem?_set_node hj _ i, if_neg (fun he => hji he.symm)]
    exact hnd

theorem removedAt_foldl_markDone {i x : Nat} (ids : List Nat)
    (hne : ∀ j ∈ ids, j ≠ i) : ∀ (t : TS), removedAt t i x →
    removedAt (ids.foldl markDone t) i x := by
  induction ids with
  | nil => intro t h; exact h
  | cons j rest ih =>
    intro t h
    simp only [List.foldl_cons]
    exact ih (fun a ha => hne a (List.mem_cons_of_mem j ha)) (markDone t j)
      (removedAt_markDone (hne j (List.mem_cons_self j rest)) h)

theorem removedAt_foldl_markRemoved {i x : Nat} (ids : List Nat)
    (hne : ∀ j ∈ ids, j ≠ i) : ∀ (t : TS), removedAt t i x →
    removedAt (ids.foldl markRemoved t) i x := by
  induction ids with
  | nil => intro t h; exact h
  | cons j rest ih =>
    intro t h
    simp only [List.foldl_cons]
    exact ih (fun a ha => hne a (List.mem_cons_of_mem j ha)) (markRemoved t j)
      (removedAt_markRemoved (hne j (List.mem_cons_self j rest)) h)

theorem stateOf_removedAt {t : TS} {i x : Nat} (h : removedAt t i x) :
    stateOf t i = .REMOVED := by
  obtain ⟨nd, hnd, _, hst⟩ := h
  rw [stateOf_eq_of_getElem? hnd, hst]

theorem removedAt_prepare {t : TS} {i x : Nat} (h : removedAt t i x) :
    removedAt (prepare t).1 i x := by
  obtain ⟨nd, hnd, hid, hst⟩ := h
  by_cases hb : t.stage = .BUILDING
  · cases hdc : detectCycle t with
    | some c =>
      rw [prepare_eq_cycle hb hdc]
      exact ⟨nd, hnd, hid, hst⟩
    | none =>
      rw [prepare_eq_prepared hb hdc]
      refine ⟨nd, ?_, hid, hst⟩
      show (prepared t).nodes[i]? = some nd
      have hget := promoteNodes_getElem? t i
      rw [hnd, Option.map_some'] at hget
      have hc : ¬ (nd.state = .NEW ∧ nd.indegree = 0) := by
        intro hc
        rw [hst] at hc
        exact absurd hc.1 (by decide)
      rw [if_neg hc] at hget
      exact hget
  · unfold prepare
    rw [if_neg hb]
    exact ⟨nd, hnd, hid, hst⟩

theorem removedAt_get_ready {t : TS} (hinv : Inv t) {i x : Nat}
    (h : removedAt t i x) : removedAt (get_ready t).2.1 i x := by
  obtain ⟨nd, hnd, hid, hst⟩ := h
  by_cases hr : t.stage = .RUNNING
  · rw [get_ready_eq_running hr]
    refine ⟨nd, ?_, hid, hst⟩
    show (processReady t)[i]? = some nd
    rw [processReady_getElem? hinv.readyNodup i]
    have hni : i ∉ t.ready := by
      intro hm
      have := (hinv.readyBound i hm).2
      rw [stateOf_eq_of_getElem? hnd, hst] at this
      exact absurd this (by decide)
    rw [if_neg hni]
    exact hnd
  · unfold get_ready
    rw [if_neg hr]
    exact ⟨nd, hnd, hid, hst⟩

theorem removedAt_done {t : TS} {i x : Nat} (xs : List Nat)
    (h : removedAt t i x) : removedAt (done t xs).1 i x := by
  unfold done
  by_cases hr : t.stage = .RUNNING
  · rw [if_pos hr]
    cases hres : resolveAll t xs with
    | none => exact h
    | some ids =>
      simp only []
      by_cases hg : ids.Nodup ∧ ∀ j ∈ ids, stateOf t j = .PROCESSING
      · rw [if_pos hg]
        refine removedAt_foldl_markDone ids ?_ t h
        intro j hj he
        have := hg.2 j hj
        rw [he, stateOf_removedAt h] at this
        exact absurd this (by decide)
      · rw [if_neg hg]
        exact h
  · rw [if_neg hr]
    exact h

theorem removedAt_remove_nodes {t : TS} {i x : Nat} (xs : List Nat)
    (h : removedAt t i x) : removedAt (remove_nodes t xs).1 i x := by
  unfold remove_nodes
  cases hres : resolveAll t xs with
  | none => exact h
  | some ids =>
    simp only []
    by_cases hg : ids.Nodup ∧ ∀ j ∈ ids, stateOf t j = .NEW ∨ stateOf t j = .READY
    · rw [if_pos hg]
      refine removedAt_foldl_markRemoved ids ?_ t h
      intro j hj he
      have := hg.2 j hj
      rw [he, stateOf_removedAt h] at this
      rcases this with h1 | h1 <;> exact absurd h1 (by decide)
    · rw [if_neg hg]
      exact h

theorem removedAt_stepOp {t : TS} (hinv : Inv t) {i x : Nat} (op : Op)
    (h : removedAt t i x) : removedAt (stepOp t op).1 i x := by
  cases op with
  | addO y ps => exact removedAt_add ps h
  | prepareO => exact removedAt_prepare h
  | getReadyO =>
    unfold stepOp
    cases hg : get_ready t with
    | mk batch rest =>
      cases rest with
      | mk s1 err =>
        cases err with
        | none =>
          simp only []
          have : s1 = (get_ready t).2.1 := by rw [hg]
          rw [this]
          exact removedAt_get_ready hinv h
        | some e => exact h
  | doneO xs => exact removedAt_done xs h
  | removeO xs => exact removedAt_remove_nodes xs h

theorem stepOp_batch_no_removed {t : TS} (hinv : Inv t) {i x : Nat}
    (h : removedAt t i x) (op : Op) : x ∉ (stepOp t op).2 := by
  cases op with
  | addO y ps => simp [stepOp]
  | prepareO => simp [stepOp]
  | doneO xs => simp [stepOp]
  | removeO xs => simp [stepOp]
  | getReadyO =>
    unfold stepOp
    by_cases hr : t.stage = .RUNNING
    · rw [get_ready_eq_running hr]
      simp only []
      intro hmem
      obtain ⟨k, hk, hkx⟩ := List.mem_map.1 hmem
      obtain ⟨hklt, hkst⟩ := hinv.readyBound k hk
      have hndk : t.nodes[k]? = some t.nodes[k] := List.getElem?_eq_getElem hklt
      obtain ⟨nd, hnd, hid, hst⟩ := h
      have hfk : findId t.nodes x = some k := by
        have : (t.nodes[k]).identity = x := by
          rw [identityOf_eq_of_getElem? hndk] at hkx
          exact hkx
        rw [← this]
        exact findId_of_getElem? hinv.idsNodup hndk
      have hfi : findId t.nodes x = some i := by
        rw [← hid]
        exact findId_of_getElem? hinv.idsNodup hnd
      have hik : k = i := by
        rw [hfk] at hfi
        exact Option.some.inj hfi
      rw [hik] at hkst
      rw [stateOf_removedAt ⟨nd, hnd, hid, hst⟩] at hkst
      exact absurd hkst (by decide)
    · unfold get_ready
      rw [if_neg hr]
      simp

theorem removed_not_in_batches (ops : List Op) : ∀ (t : TS) (i x : Nat), Inv t →
    removedAt t i x → ∀ b ∈ (runOps t ops).2, x ∉ b := by
  induction ops with
  | nil => intro t i x _ _ b hb; simp [runOps] at hb
  | cons op rest ih =>
    intro t i x hinv h b hb
    have hrun : runOps t (op :: rest) =
        ((runOps (stepOp t op).1 rest).1,
          (stepOp t op).2 :: (runOps (stepOp t op).1 rest).2) := rfl
    rw [hrun] at hb
    simp only [List.mem_cons] at hb
    rcases hb with hb1 | hb2
    · rw [hb1]
      exact stepOp_batch_no_removed hinv h op
    · exact ih (stepOp t op).1 i x (Inv_stepOp t op hinv)
        (removedAt_stepOp hinv op h) b hb2

theorem isIdentityCycle_of_isCycle {s : TS} (h : Inv s) {c : List Nat}
    (hc : isCycle s c) : isIdentityCycle s (c.map (identityOf s)) := by
  obtain ⟨hlen, hhl, hch⟩ := hc
  refine ⟨by simpa using hlen, ?_, ?_⟩
  · rw [List.head?_map, List.getLast?_map, hhl]
  · rw [List.chain'_map]
    refine List.Chain'.imp ?_ hch
    intro a b hab
    obtain ⟨hla, hlb, hmem⟩ := hab
    have halt := lt_of_liveAt hla
    have hblt := lt_of_liveAt hlb
    have hnda : s.nodes[a]? = some s.nodes[a] := List.getElem?_eq_getElem halt
    have hndb : s.nodes[b]? = some s.nodes[b] := List.getElem?_eq_getElem hblt
    refine ⟨a, b, ?_, ?_, hla, hlb, hmem⟩
    · rw [identityOf_eq_of_getElem? hnda]
      exact findId_of_getElem? h.idsNodup hnda
    · rw [identityOf_eq_of_getElem? hndb]
      exact findId_of_getElem? h.idsNodup hndb

theorem resolveAll_none_of_findId_none {s : TS} {x : Nat} :
    ∀ xs : List Nat, x ∈ xs → findId s.nodes x = none → resolveAll s xs = none := by
  intro xs
  induction xs with
  | nil => intro h _; simp at h
  | cons y rest ih =>
    intro hmem hf
    unfold resolveAll
    rcases List.mem_cons.1 hmem with h1 | h2
    · cases hres : resolveAll s rest with
      | none => rw [← h1, hf]
      | some is => rw [← h1, hf]
    · have hrn := ih h2 hf
      cases hf2 : findId s.nodes y with
      | none => rw [hrn]
      | some i => rw [hrn]

theorem resolveAll_mem {s : TS} : ∀ (xs ids : List Nat) (x i : Nat),
    resolveAll s xs = some ids → x ∈ xs → findId s.nodes x = some i →
    i ∈ ids := by
  intro xs
  induction xs with
  | nil => intro ids x i _ hmem _; simp at hmem
  | cons y rest ih =>
    intro ids x i hres hmem hf
    unfold resolveAll at hres
    cases hfy : findId s.nodes y with
    | none =>
      cases hr2 : resolveAll s rest with
      | none => rw [hfy, hr2] at hres; simp at hres
      | some is => rw [hfy, hr2] at hres; simp at hres
    | some k =>
      cases hr2 : resolveAll s rest with
      | none => rw [hfy, hr2] at hres; simp at hres
      | some is =>
        rw [hfy, hr2] at hres
        have hids : ids = k :: is := by
          have h2 := Option.some.inj hres
          exact h2.symm
        rcases List.mem_cons.1 hmem with h1 | h2
        · rw [← h1] at hfy
          rw [hfy] at hf
          have hik : k = i := Option.some.inj hf
          rw [hids, ← hik]
          exact List.mem_cons_self k is
        · rw [hids]
          exact List.mem_cons_of_mem k (ih is x i hr2 h2 hf)

theorem initialReady_pairwise (s : TS) :
    List.Pairwise (fun a b => a < b) (initialReady s) := by
  unfold initialReady
  exact (List.pairwise_lt_range s.nodes.length).filter _

theorem lookupEntry_none_iff : ∀ (es : List (Nat × Nat)) (x : Nat),
    lookupEntry es x = none ↔ x ∉ es.map Prod.fst := by
  intro es x
  induction es with
  | nil => simp [lookupEntry]
  | cons e rest ih =>
    cases e with
    | mk k v =>
      unfold lookupEntry
      by_cases hk : k = x
      · rw [if_pos hk]
        simp [hk]
      · rw [if_neg hk]
        simp only [List.map_cons, List.mem_cons]
        rw [ih]
        constructor
        · intro h1 h2
          rcases h2 with h3 | h3
          · exact hk h3.symm
          · exact h1 h3
        · intro h1 h2
          exact h1 (Or.inr h2)

theorem intern_seen {σ : Type} (fac : σ → Nat × σ) (r : Registry σ) (x : Nat) :
    (Registry.intern fac r x).1.entries.map Prod.fst =
      (if x ∈ r.entries.map Prod.fst then r.entries.map Prod.fst
       else r.entries.map Prod.fst ++ [x]) ∧
    (Registry.intern fac r x).1.calls =
      (if x ∈ r.entries.map Prod.fst then r.calls else r.calls + 1) := by
  cases hl : lookupEntry r.entries x with
  | some i =>
    have hm : x ∈ r.entries.map Prod.fst := by
      by_contra hnm
      rw [(lookupEntry_none_iff r.entries x).2 hnm] at hl
      exact Option.noConfusion hl
    unfold Registry.intern
    rw [hl]
    rw [if_pos hm, if_pos hm]
    exact ⟨rfl, rfl⟩
  | none =>
    have hnm : x ∉ r.entries.map Prod.fst := (lookupEntry_none_iff r.entries x).1 hl
    unfold Registry.intern
    rw [hl]
    rw [if_neg hnm, if_neg hnm]
    constructor
    · show (r.entries ++ [(x, (fac r.fstate).1)]).map Prod.fst = _
      rw [List.map_append]
      rfl
    · rfl

theorem internAll_spine {σ : Type} (fac : σ → Nat × σ) : ∀ (xs : List Nat)
    (r : Registry σ),
    (Registry.internAll fac r xs).entries.map Prod.fst =
      xs.foldl (fun acc x => if x ∈ acc then acc else acc ++ [x])
        (r.entries.map Prod.fst) ∧
    (Registry.internAll fac r xs).calls + (r.entries.map Prod.fst).length =
      r.calls + (xs.foldl (fun acc x => if x ∈ acc then acc else acc ++ [x])
        (r.entries.map Prod.fst)).length := by
  intro xs
  induction xs with
  | nil => intro r; exact ⟨rfl, rfl⟩
  | cons x rest ih =>
    intro r
    obtain ⟨hseen, hcalls⟩ := intern_seen fac r x
    have hstep : Registry.internAll fac r (x :: rest) =
        Registry.internAll fac (Registry.intern fac r x).1 rest := rfl
    obtain ⟨ihseen, ihcalls⟩ := ih (Registry.intern fac r x).1
    rw [hstep]
    simp only [List.foldl_cons]
    by_cases hm : x ∈ r.entries.map Prod.fst
    · rw [if_pos hm] at hseen hcalls
      rw [hseen] at ihseen ihcalls
      rw [hcalls] at ihcalls
      refine ⟨by rw [ihseen, if_pos hm], ?_⟩
      rw [if_pos hm]
      omega
    · rw [if_neg hm] at hseen hcalls
      rw [hseen] at ihseen ihcalls
      rw [hcalls] at ihcalls
      refine ⟨by rw [ihseen, if_neg hm], ?_⟩
      rw [if_neg hm]
      have hlen : (r.entries.map Prod.fst ++ [x]).length =
          (r.entries.map Prod.fst).length + 1 := by simp
      omega

theorem internAll_default_ids : ∀ (xs : List Nat) (r : Registry Nat),
    r.fstate = r.calls →
    r.entries.map Prod.snd = List.range r.calls →
    (Registry.internAll defaultNodeIdFactory r xs).fstate =
      (Registry.internAll defaultNodeIdFactory r xs).calls ∧
    (Registry.internAll defaultNodeIdFactory r xs).entries.map Prod.snd =
      List.range (Registry.internAll defaultNodeIdFactory r xs).calls := by
  intro xs
  induction xs with
  | nil => intro r h1 h2; exact ⟨h1, h2⟩
  | cons x rest ih =>
    intro r h1 h2
    have hstep : Registry.internAll defaultNodeIdFactory r (x :: rest) =
        Registry.internAll defaultNodeIdFactory
          (Registry.intern defaultNodeIdFactory r x).1 rest := rfl
    rw [hstep]
    cases hl : lookupEntry r.entries x with
    | some i =>
      have hr : (Registry.intern defaultNodeIdFactory r x).1 = r := by
        unfold Registry.intern
        rw [hl]
      rw [hr]
      exact ih r h1 h2
    | none =>
      have hr : (Registry.intern defaultNodeIdFactory r x).1 =
          { entries := r.entries ++ [(x, r.fstate)], fstate := r.fstate + 1,
            calls := r.calls + 1 } := by
        unfold Registry.intern
        rw [hl]
        rfl
      rw [hr]
      refine ih _ (by simp; omega) ?_
      show (r.entries ++ [(x, r.fstate)]).map Prod.snd = List.range (r.calls + 1)
      rw [List.map_append, h2, h1, List.range_succ]
      rfl

theorem intern_deterministic {σ : Type} (fac : σ → Nat × σ) (r : Registry σ)
    (x i : Nat) (h : lookupEntry r.entries x = some i) :
    Registry.intern fac r x = (r, i) := by
  unfold Registry.intern
  rw [h]

theorem stateOf_get_ready_state {s : TS} (h : Inv s) (k : Nat) :
    stateOf { s with nodes := processReady s, ready := ([] : List Nat) } k =
      if k ∈ s.ready then .PROCESSING else stateOf s k := by
  by_cases hk : k ∈ s.ready
  · obtain ⟨hlt, hstk⟩ := h.readyBound k hk
    have hndk : s.nodes[k]? = some s.nodes[k] := List.getElem?_eq_getElem hlt
    have hget : ({ s with nodes := processReady s, ready := ([] : List Nat) } : TS).nodes[k]? =
        some { s.nodes[k] with state := .PROCESSING } := by
      show (processReady s)[k]? = _
      rw [processReady_getElem? h.readyNodup k, if_pos hk, hndk]
      rfl
    rw [stateOf_eq_of_getElem? hget, if_pos hk]
  · have hget : ({ s with nodes := processReady s, ready := ([] : List Nat) } : TS).nodes[k]? =
        s.nodes[k]? := by
      show (processReady s)[k]? = _
      rw [processReady_getElem? h.readyNodup k, if_neg hk]
    rw [stateOf_congr hget, if_neg hk]

/-- A small acyclic build-stage state: identity 11 (id 0) depending on
identity 10 (id 1). -/
def Wa : TS := (add TS.empty 11 [10]).1

/-- A small cyclic build-stage state: identities 10 (id 0) and 11 (id 1)
depending on each other. -/
def Wc : TS := (add (add TS.empty 10 [11]).1 11 [10]).1

/-- The prepared (running) form of Wa: node 10 READY, node 11 still blocked. -/
def Wr : TS := (prepare Wa).1

/-- Claim C2: for every graph containing a directed cycle, prepare fails with
a cycle error, and the identity sequence carried by the error is a valid
cycle: consecutive pairs are real edges and the first node equals the
last. -/
theorem claim_C2_prepare_cycle {s : TS} (h : Inv s) (hb : s.stage = .BUILDING)
    (hc : hasCycle s) :
    ∃ cs : List Nat, prepare s = (s, some (Err.cycle cs)) ∧
      isIdentityCycle s cs := by
  obtain ⟨c, hdc⟩ := detectCycle_some_of_hasCycle hc
  exact ⟨c.map (identityOf s), prepare_eq_cycle hb hdc,
    isIdentityCycle_of_isCycle h (detectCycle_sound hdc)⟩

theorem claim_C2_witness :
    Inv Wc ∧ Wc.stage = .BUILDING ∧
    (∃ cs : List Nat, prepare Wc = (Wc, some (Err.cycle cs)) ∧
      isIdentityCycle Wc cs) :=
  ⟨by decide, by decide,
    claim_C2_prepare_cycle (by decide) (by decide)
      ⟨[0, 1, 0], by decide, by decide,
        List.chain'_cons.2 ⟨⟨by decide, by decide, by decide⟩,
          List.chain'_cons.2 ⟨⟨by decide, by decide, by decide⟩,
            List.chain'_singleton 0⟩⟩⟩⟩

/-- Claim C3: copy produces an independent clone: in this value-semantics
model the clone equals its source state, so continuing the clone with any
remaining operation sequence yields exactly the batches and final state the
original would have yielded, and no operation on either value can affect
the other. -/
theorem claim_C3_copy_independent (s : TS) (ops : List Op) :
    copy s = s ∧ runOps (copy s) ops = runOps s ops := by
  rw [copy_eq]
  exact ⟨rfl, rfl⟩

/-- Claim C4: done fails whenever a given identity does not resolve to a
node currently PROCESSING: never returned by get_ready, already done,
removed, or never registered at all. -/
theorem claim_C4_done_not_processing {s : TS} {xs : List Nat} {x : Nat}
    (hx : x ∈ xs)
    (hbad : ∀ i : Nat, findId s.nodes x = some i → stateOf s i ≠ .PROCESSING) :
    ∃ e : Err, (done s xs).2 = some e := by
  unfold done
  by_cases hr : s.stage = .RUNNING
  · rw [if_pos hr]
    cases hf : findId s.nodes x with
    | none =>
      rw [resolveAll_none_of_findId_none xs hx hf]
      exact ⟨.unknownIdentity, rfl⟩
    | some i =>
      cases hres : resolveAll s xs with
      | none =>
        exact ⟨.unknownIdentity, rfl⟩
      | some ids =>
        have hi : i ∈ ids := resolveAll_mem xs ids x i hres hx hf
        have hguard : ¬ (ids.Nodup ∧ ∀ j ∈ ids, stateOf s j = .PROCESSING) := by
          intro hg
          exact hbad i hf (hg.2 i hi)
        refine ⟨Err.notProcessing, ?_⟩
        show (if ids.Nodup ∧ ∀ j ∈ ids, stateOf s j = .PROCESSING then
            ((ids.foldl markDone s, (none : Option Err)))
          else (s, some Err.notProcessing)).2 = some Err.notProcessing
        rw [if_neg hguard]
  · rw [if_neg hr]
    exact ⟨.notPrepared, rfl⟩

theorem claim_C4_witness :
    ((10 : Nat) ∈ ([10] : List Nat)) ∧ (∃ e : Err, (done Wr [10]).2 = some e) :=
  ⟨by decide, @claim_C4_done_not_processing Wr [10] 10 (by decide)
    (fun i hi => by
      have h1 : findId Wr.nodes 10 = some 1 := by decide
      rw [h1] at hi
      have h2 : i = 1 := (Option.some.inj hi).symm
      rw [h2]
      decide)⟩

/-- Claim C6: after prepare, get_ready succeeds and returns the entire
current ready queue as identities in queue order (a queue built in
became-ready order, with simultaneous arrivals enqueued in ascending id
order), empties the queue, transitions exactly the returned nodes to
PROCESSING, and yields an empty batch when no node is READY. -/
theorem claim_C6_get_ready {s : TS} (h : Inv s) (hst : s.stage = .RUNNING) :
    (get_ready s).2.2 = none ∧
    (get_ready s).1 = s.ready.map (identityOf s) ∧
    (∀ i : Nat, i ∈ s.ready ↔ stateOf s i = .READY) ∧
    (get_ready s).2.1.ready = [] ∧
    (∀ i ∈ s.ready, stateOf (get_ready s).2.1 i = .PROCESSING) ∧
    (∀ i : Nat, i ∉ s.ready → stateOf (get_ready s).2.1 i = stateOf s i) ∧
    (s.ready = [] → (get_ready s).1 = []) ∧
    List.Pairwise (fun a b => a < b) (initialReady s) := by
  rw [get_ready_eq_running hst]
  refine ⟨rfl, rfl, ?_, rfl, ?_, ?_, ?_, initialReady_pairwise s⟩
  · intro i
    constructor
    · exact fun hm => (h.readyBound i hm).2
    · intro hr
      have hlt : i < s.nodes.length := by
        obtain ⟨nd, hnd⟩ := @getElem?_some_of_stateOf s i
          (by rw [hr]; decide)
        exact lt_of_getElem?_node hnd
      exact h.readyComplete i (List.mem_range.2 hlt) hr
  · intro i hi
    rw [stateOf_get_ready_state h i, if_pos hi]
  · intro i hi
    rw [stateOf_get_ready_state h i, if_neg hi]
  · intro h0
    rw [h0]
    rfl

theorem claim_C6_witness :
    Inv Wr ∧ Wr.stage = .RUNNING ∧
    ((get_ready Wr).2.2 = none ∧
    (get_ready Wr).1 = Wr.ready.map (identityOf Wr) ∧
    (∀ i : Nat, i ∈ Wr.ready ↔ stateOf Wr i = .READY) ∧
    (get_ready Wr).2.1.ready = [] ∧
    (∀ i ∈ Wr.ready, stateOf (get_ready Wr).2.1 i = .PROCESSING) ∧
    (∀ i : Nat, i ∉ Wr.ready → stateOf (get_ready Wr).2.1 i = stateOf Wr i) ∧
    (Wr.ready = [] → (get_ready Wr).1 = []) ∧
    List.Pairwise (fun a b => a < b) (initialReady Wr)) :=
  ⟨by decide, by decide, claim_C6_get_ready (by decide) (by decide)⟩

/-- Claim C7: the data-model invariant holds at every observable point:
each node's indegree equals its count of predecessors that are neither DONE
nor REMOVED, queue membership coincides with the READY state, READY (while
running) coincides with zero indegree and not having been pulled or
finished, and the invariant is preserved by every public operation. -/
theorem claim_C7_invariant (s : TS) (h : Inv s) :
    (∀ i ∈ List.range s.nodes.length, indegOf s i = countedPreds s i) ∧
    (∀ i : Nat, i ∈ s.ready ↔ stateOf s i = .READY) ∧
    (s.stage = .RUNNING → ∀ i ∈ List.range s.nodes.length,
      (stateOf s i = .READY ↔ indegOf s i = 0 ∧ stateOf s i ≠ .PROCESSING ∧
        stateOf s i ≠ .DONE ∧ stateOf s i ≠ .REMOVED)) ∧
    (∀ (x : Nat) (ps : List Nat), Inv (add s x ps).1) ∧
    Inv (prepare s).1 ∧
    Inv (get_ready s).2.1 ∧
    (∀ xs : List Nat, Inv (done s xs).1) ∧
    (∀ xs : List Nat, Inv (remove_nodes s xs).1) ∧
    Inv (copy s) := by
  refine ⟨?_, ?_, ?_, fun x ps => Inv_add s x ps h, Inv_prepare s h,
    Inv_get_ready s h, fun xs => Inv_done s xs h,
    fun xs => Inv_remove_nodes s xs h, Inv_copy s h⟩
  · intro i hi
    have h1 := h.indeg i hi
    simpa using h1
  · intro i
    constructor
    · exact fun hm => (h.readyBound i hm).2
    · intro hr
      have hlt : i < s.nodes.length := by
        obtain ⟨nd, hnd⟩ := @getElem?_some_of_stateOf s i
          (by rw [hr]; decide)
        exact lt_of_getElem?_node hnd
      exact h.readyComplete i (List.mem_range.2 hlt) hr
  · intro hrun i hi
    constructor
    · intro hr
      refine ⟨h.zeroIndeg i hi (Or.inl hr), ?_, ?_, ?_⟩ <;> rw [hr] <;> decide
    · intro hc
      obtain ⟨hz, hnp, hnd2, hnr⟩ := hc
      cases hsi : stateOf s i with
      | READY => rfl
      | PROCESSING => exact absurd hsi hnp
      | DONE => exact absurd hsi hnd2
      | REMOVED => exact absurd hsi hnr
      | NEW =>
        have h2 := h.runningNew hrun i hi hsi
        omega

theorem claim_C7_witness :
    Inv Wr ∧
    ((∀ i ∈ List.range Wr.nodes.length, indegOf Wr i = countedPreds Wr i) ∧
    (∀ i : Nat, i ∈ Wr.ready ↔ stateOf Wr i = .READY) ∧
    (Wr.stage = .RUNNING → ∀ i ∈ List.range Wr.nodes.length,
      (stateOf Wr i = .READY ↔ indegOf Wr i = 0 ∧ stateOf Wr i ≠ .PROCESSING ∧
        stateOf Wr i ≠ .DONE ∧ stateOf Wr i ≠ .REMOVED)) ∧
    (∀ (x : Nat) (ps : List Nat), Inv (add Wr x ps).1) ∧
    Inv (prepare Wr).1 ∧
    Inv (get_ready Wr).2.1 ∧
    (∀ xs : List Nat, Inv (done Wr xs).1) ∧
    (∀ xs : List Nat, Inv (remove_nodes Wr xs).1) ∧
    Inv (copy Wr)) :=
  ⟨by decide, claim_C7_invariant Wr (by decide)⟩

/-- Claim C8: every failing operation is atomic: whatever error add,
prepare, get_ready, done or remove_nodes reports, the returned state is
exactly the input state, and a prepare that fails with a cycle error leaves
the engine in the BUILDING stage. -/
theorem claim_C8_atomic (s : TS) :
    (∀ (x : Nat) (ps : List Nat) (e : Err),
      (add s x ps).2 = some e → (add s x ps).1 = s) ∧
    (∀ e : Err, (prepare s).2 = some e → (prepare s).1 = s) ∧
    (∀ c : List Nat, (prepare s).2 = some (Err.cycle c) →
      (prepare s).1 = s ∧ (prepare s).1.stage = .BUILDING) ∧
    (∀ e : Err, (get_ready s).2.2 = some e → (get_ready s).2.1 = s) ∧
    (∀ (xs : List Nat) (e : Err), (done s xs).2 = some e → (done s xs).1 = s) ∧
    (∀ (xs : List Nat) (e : Err),
      (remove_nodes s xs).2 = some e → (remove_nodes s xs).1 = s) := by
  refine ⟨fun x ps e he => add_err he, fun e he => prepare_err he, ?_,
    fun e he => get_ready_err he, fun xs e he => done_err he,
    fun xs e he => remove_nodes_err he⟩
  intro c hc
  have h1 : (prepare s).1 = s := prepare_err hc
  refine ⟨h1, ?_⟩
  rw [h1]
  by_cases hb : s.stage = .BUILDING
  · exact hb
  · unfold prepare at hc
    rw [if_neg hb] at hc
    simp at hc

theorem claim_C8_witness :
    (done Wa [99]).2 = some Err.notPrepared ∧ (done Wa [99]).1 = Wa :=
  ⟨by decide, (claim_C8_atomic Wa).2.2.2.2.1 [99] Err.notPrepared (by decide)⟩

/-- Claim C9: interning a stream of identities invokes the id factory
exactly once per distinct new identity, recording entries in first-seen
order; a seen identity is returned its recorded id without growing the
registry; and the default counter factory assigns the dense ids 0, 1, 2,
... in first-seen order. -/
theorem claim_C9_registry {σ : Type} (fac : σ → Nat × σ) (f0 : σ)
    (xs : List Nat) :
    (Registry.internAll fac (Registry.empty f0) xs).entries.map Prod.fst =
      firstSeen xs ∧
    (Registry.internAll fac (Registry.empty f0) xs).calls =
      (firstSeen xs).length ∧
    (∀ x i : Nat,
      lookupEntry (Registry.internAll fac (Registry.empty f0) xs).entries x =
        some i →
      Registry.intern fac (Registry.internAll fac (Registry.empty f0) xs) x =
        (Registry.internAll fac (Registry.empty f0) xs, i)) ∧
    (Registry.internAll defaultNodeIdFactory (Registry.empty 0) xs).entries.map
      Prod.snd = List.range ((firstSeen xs).length) := by
  obtain ⟨hseen, hcalls⟩ := internAll_spine fac xs (Registry.empty f0)
  have hseen2 : (Registry.internAll fac (Registry.empty f0) xs).entries.map
      Prod.fst = firstSeen xs := by
    rw [hseen]
    rfl
  have hcalls2 : (Registry.internAll fac (Registry.empty f0) xs).calls =
      (firstSeen xs).length := by
    have hkey : (Registry.internAll fac (Registry.empty f0) xs).calls +
        0 = 0 +
        (xs.foldl (fun acc x => if x ∈ acc then acc else acc ++ [x])
          ([] : List Nat)).length := hcalls
    have hfs : (firstSeen xs).length =
        (xs.foldl (fun acc x => if x ∈ acc then acc else acc ++ [x])
          ([] : List Nat)).length := rfl
    omega
  refine ⟨hseen2, hcalls2, fun x i hl => intern_deterministic fac _ x i hl, ?_⟩
  obtain ⟨_, hsnd⟩ := internAll_default_ids xs (Registry.empty 0) rfl rfl
  obtain ⟨hseenD, hcallsD⟩ := internAll_spine defaultNodeIdFactory xs
    (Registry.empty 0)
  have hcallsD2 : (Registry.internAll defaultNodeIdFactory (Registry.empty 0)
      xs).calls = (firstSeen xs).length := by
    have hkey : (Registry.internAll defaultNodeIdFactory (Registry.empty 0)
        xs).calls + 0 = 0 +
        (xs.foldl (fun acc x => if x ∈ acc then acc else acc ++ [x])
          ([] : List Nat)).length := hcallsD
    have hfs : (firstSeen xs).length =
        (xs.foldl (fun acc x => if x ∈ acc then acc else acc ++ [x])
          ([] : List Nat)).length := rfl
    omega
  rw [hsnd, hcallsD2]

theorem claim_C9_witness :
    lookupEntry (Registry.internAll defaultNodeIdFactory (Registry.empty 0)
      [5, 7, 5]).entries 7 = some 1 ∧
    Registry.intern defaultNodeIdFactory
      (Registry.internAll defaultNodeIdFactory (Registry.empty 0) [5, 7, 5]) 7 =
      (Registry.internAll defaultNodeIdFactory (Registry.empty 0) [5, 7, 5], 1) :=
  ⟨by decide, (claim_C9_registry defaultNodeIdFactory 0 [5, 7, 5]).2.2.1 7 1
    (by decide)⟩

/-- Claim C10: on a prepared (running) engine, done with no nodes and
remove_nodes with an empty sequence both succeed and return the state
completely unchanged. -/
theorem claim_C10_empty_noop {s : TS} (hst : s.stage = .RUNNING) :
    done s [] = (s, none) ∧ remove_nodes s [] = (s, none) :=
  ⟨done_nil hst, remove_nodes_nil s⟩

theorem claim_C10_witness :
    Wr.stage = .RUNNING ∧
    (done Wr [] = (Wr, none) ∧ remove_nodes Wr [] = (Wr, none)) :=
  ⟨by decide, claim_C10_empty_noop (by decide)⟩

/-- Claim C1: for every acyclic graph in the building stage, static_order
succeeds and yields a permutation of exactly the identities of the live
(non-removed) nodes, and for every edge predecessor to node, the
predecessor's identity appears strictly before the node's identity in the
yielded sequence. -/
theorem claim_C1_static_order {s : TS} (h : Inv s) (hb : s.stage = .BUILDING)
    (hac : ¬ hasCycle s) :
    ∃ l : List Nat, static_order s = .ok l ∧ l.Perm (liveIdentities s) ∧
      ∀ x y : Nat, identityEdge s x y → before l x y := by
  have hdc : detectCycle s = none := detectCycle_none_of_acyclic hac
  have hdi := DrainInv_prepared h hb hdc
  have hcnt : liveCount s ≤ (s.nodes.length + 1) + ([] : List Nat).length := by
    have h1 := List.length_filter_le (fun i => liveAt s i)
      (List.range s.nodes.length)
    unfold liveCount
    simp only [List.length_nil]
    simp at h1
    omega
  obtain ⟨full, hdr, hnodup, hmem, hresp⟩ :=
    drain_complete hac (s.nodes.length + 1) (prepared s) [] hdi hcnt
  have hdr2 : drain (s.nodes.length + 1) (prepared s) [] =
      some (full.map (identityOf s)) := hdr
  refine ⟨full.map (identityOf s), ?_, ?_, ?_⟩
  · unfold static_order
    rw [prepare_eq_prepared hb hdc]
    simp only []
    rw [hdr2]
  · unfold liveIdentities
    refine List.Perm.map (identityOf s) ?_
    refine (List.perm_ext_iff_of_nodup hnodup
      ((List.nodup_range s.nodes.length).filter _)).2 ?_
    intro a
    rw [hmem a, List.mem_filter, List.mem_range]
    constructor
    · intro hl
      exact ⟨lt_of_liveAt hl, by simp [hl]⟩
    · intro hc
      simpa using hc.2
  · intro x y hxy
    obtain ⟨i, j, hfx, hfy, hedge⟩ := hxy
    obtain ⟨ndi, hndi, hidi⟩ := findId_some_identity hfx
    obtain ⟨ndj, hndj, hidj⟩ := findId_some_identity hfy
    have hmi : i ∈ full := (hmem i).2 hedge.1
    have hmj : j ∈ full := (hmem j).2 hedge.2.1
    obtain ⟨a, ha⟩ := getElem?_of_mem_list hmi
    obtain ⟨b, hb2⟩ := getElem?_of_mem_list hmj
    refine ⟨a, b, hresp a b i j ha hb2 hedge, ?_, ?_⟩
    · rw [List.getElem?_map, ha]
      simp only [Option.map_some']
      rw [identityOf_eq_of_getElem? hndi, hidi]
    · rw [List.getElem?_map, hb2]
      simp only [Option.map_some']
      rw [identityOf_eq_of_getElem? hndj, hidj]

theorem claim_C1_witness :
    Inv Wa ∧ Wa.stage = .BUILDING ∧
    (∃ l : List Nat, static_order Wa = .ok l ∧ l.Perm (liveIdentities Wa) ∧
      ∀ x y : Nat, identityEdge Wa x y → before l x y) :=
  ⟨by decide, by decide,
    claim_C1_static_order (by decide) (by decide)
      (detectCycle_none_acyclic (by decide))⟩

/-- Claim C5: removing a node that is neither done nor processing (NEW or
READY) succeeds, marks it REMOVED, reduces the effective indegree of each
of its distinct successors by exactly one while leaving every other
indegree unchanged, and the removed identity never appears in any
get_ready batch produced by any later operation sequence. -/
theorem claim_C5_remove_effect {s : TS} (h : Inv s) {i : Nat}
    (hst : stateOf s i = .NEW ∨ stateOf s i = .READY) :
    (remove_nodes s [identityOf s i]).2 = none ∧
    stateOf (remove_nodes s [identityOf s i]).1 i = .REMOVED ∧
    (∀ j ∈ succsOf s i,
      indegOf (remove_nodes s [identityOf s i]).1 j + 1 = indegOf s j) ∧
    (∀ j : Nat, j ∉ succsOf s i →
      indegOf (remove_nodes s [identityOf s i]).1 j = indegOf s j) ∧
    (∀ ops : List Op, ∀ b ∈ (runOps (remove_nodes s [identityOf s i]).1 ops).2,
      identityOf s i ∉ b) := by
  have hne : stateOf s i ≠ .REMOVED := by
    rcases hst with h1 | h1 <;> rw [h1] <;> decide
  obtain ⟨nd, hnd⟩ := getElem?_some_of_stateOf hne
  have hilt : i < s.nodes.length := lt_of_getElem?_node hnd
  have hres : resolveAll s [identityOf s i] = some [i] :=
    resolveAll_map_identityOf h.idsNodup [i]
      (by intro j hj; simp at hj; rw [hj]; exact hilt)
  have hguard : ([i] : List Nat).Nodup ∧ ∀ j ∈ ([i] : List Nat),
      stateOf s j = .NEW ∨ stateOf s j = .READY :=
    ⟨by simp, by intro j hj; simp at hj; rw [hj]; exact hst⟩
  have hrm : remove_nodes s [identityOf s i] = (markRemoved s i, none) := by
    unfold remove_nodes
    rw [hres]
    show (if ([i] : List Nat).Nodup ∧ (∀ j ∈ ([i] : List Nat),
        stateOf s j = .NEW ∨ stateOf s j = .READY) then
        ((([i] : List Nat).foldl markRemoved s, (none : Option Err)))
      else (s, some Err.cannotRemove)) = _
    rw [if_pos hguard]
    rfl
  rw [hrm]
  simp only []
  have hmr : markRemoved s i = nd.succs.foldl decSucc
      { s with nodes := s.nodes.set i { nd with state := .REMOVED },
               ready := s.ready.filter (fun k => decide (k ≠ i)) } :=
    markRemoved_eq hnd
  have hsuccs : succsOf s i = nd.succs := succsOf_eq_of_getElem? hnd
  have hindeg0 : ∀ j : Nat,
      indegOf
        { s with
          nodes := s.nodes.set i { nd with state := .REMOVED },
          ready := s.ready.filter (fun k => decide (k ≠ i)) } j =
        indegOf s j := by
    intro j
    have hget := getElem?_set_node hnd { nd with state := .REMOVED } j
    by_cases hj : j = i
    · rw [if_pos hj] at hget
      have hget2 :
          ({ s with
             nodes := s.nodes.set i { nd with state := .REMOVED },
             ready := s.ready.filter (fun k => decide (k ≠ i)) } : TS).nodes[j]? =
          some { nd with state := .REMOVED } := hget
      rw [indegOf_eq_of_getElem? hget2]
      rw [hj, indegOf_eq_of_getElem? hnd]
    · rw [if_neg hj] at hget
      exact indegOf_congr hget
  refine ⟨trivial, stateOf_markRemoved_self hnd, ?_, ?_, ?_⟩
  · intro j hj
    rw [hmr]
    have hjnd : j ∈ nd.succs := by rw [hsuccs] at hj; exact hj
    have hnodup : nd.succs.Nodup := by
      have h1 := h.succsNodup i (List.mem_range.2 hilt)
      rw [hsuccs] at h1
      exact h1
    have hjlt : j < s.nodes.length :=
      h.wfSuccs i (List.mem_range.2 hilt) j (by rw [hsuccs]; exact hjnd)
    have hpos : 0 < indegOf
        { s with
          nodes := s.nodes.set i { nd with state := .REMOVED },
          ready := s.ready.filter (fun k => decide (k ≠ i)) } j := by
      rw [hindeg0 j]
      have hpred : i ∈ predsOf s j :=
        (h.dual j (List.mem_range.2 hjlt) i (List.mem_range.2 hilt)).2
          (by rw [hsuccs]; exact hjnd)
      have hcnt : counted s i = true := (counted_true_iff hilt).2
        ⟨by rcases hst with h1 | h1 <;> rw [h1] <;> decide, hne⟩
      have hcp := countedPreds_pos_of_counted_pred hpred hcnt
      have h2 := h.indeg j (List.mem_range.2 hjlt)
      simp at h2
      omega
    rw [indegOf_foldl_decSucc_mem nd.succs _ j hnodup hjnd hpos, hindeg0 j]
  · intro j hjn
    rw [hmr]
    rw [indegOf_foldl_decSucc_notmem nd.succs _ j
      (by rw [← hsuccs]; exact hjn), hindeg0 j]
  · intro ops b hb
    have hrma : removedAt (markRemoved s i) i (identityOf s i) := by
      rw [hmr]
      refine removedAt_foldl_decSucc nd.succs _ ?_
      refine ⟨{ nd with state := .REMOVED }, ?_, ?_, rfl⟩
      · show (s.nodes.set i { nd with state := .REMOVED })[i]? =
          some { nd with state := .REMOVED }
        have h2 := getElem?_set_node hnd { nd with state := .REMOVED } i
        rw [if_pos rfl] at h2
        exact h2
      · show nd.identity = identityOf s i
        rw [identityOf_eq_of_getElem? hnd]
    have hinv2 : Inv (markRemoved s i) := by
      have h2 := Inv_remove_nodes s [identityOf s i] h
      rw [hrm] at h2
      exact h2
    exact removed_not_in_batches ops (markRemoved s i) i (identityOf s i)
      hinv2 hrma b hb

theorem claim_C5_witness :
    Inv Wr ∧ stateOf Wr 1 = .READY ∧
    ((remove_nodes Wr [identityOf Wr 1]).2 = none ∧
    stateOf (remove_nodes Wr [identityOf Wr 1]).1 1 = .REMOVED ∧
    (∀ j ∈ succsOf Wr 1,
      indegOf (remove_nodes Wr [identityOf Wr 1]).1 j + 1 = indegOf Wr j) ∧
    (∀ j : Nat, j ∉ succsOf Wr 1 →
      indegOf (remove_nodes Wr [identityOf Wr 1]).1 j = indegOf Wr j) ∧
    (∀ ops : List Op, ∀ b ∈ (runOps (remove_nodes Wr [identityOf Wr 1]).1 ops).2,
      identityOf Wr 1 ∉ b)) :=
  ⟨by decide, by decide,
    claim_C5_remove_effect (by decide) (Or.inr (by decide))⟩

end Graphlib2
